import Mathlib

/-! BQ27Z561 fuel-gauge driver: embedding of `FuelGauge.c`.

The driver talks to the gauge through a `TwiInterface` of four callbacks
(`open`, `write`, `read`, `close`).  The embedding passes the log of every bus
call made so far explicitly; the host side is a deterministic oracle that
answers each call from that log.  Machine integers are natural numbers reduced
modulo `2^w` wherever the C code stores them in a `w`-bit variable.
-/

namespace FuelGauge

/-! ## Types of `FuelGauge.h` and of the bus interface -/

/-- Result codes of the golden-image interpreter (`FuelGaugeConfigError`). -/
inductive FuelGaugeConfigError
  | ERROR_NONE
  | ERROR_COLON
  | ERROR_CONV
  | ERROR_COUNT
  | ERROR_MEMCMP
  | ERROR_DEFAULT
  deriving DecidableEq, Repr

/-- Bus speeds handed to `Twi->open`. -/
inductive TwiSpeed
  | TWI_100KHZ
  | TWI_400KHZ
  deriving DecidableEq, Repr

/-- One call through the `TwiInterface`, with the boolean it returned.
`write` records the bytes handed over, `read` the number of bytes asked for;
the register pointer size is `sizeof(uint8_t)` at every call site. -/
inductive BusEvent
  | open (speed : TwiSpeed) (ok : Bool)
  | write (device register : Nat) (data : List Nat) (ok : Bool)
  | read (device register size : Nat) (ok : Bool)
  | close
  deriving DecidableEq, Repr

/-- The host side of the driver: the answers of the `TwiInterface` callbacks as
functions of the calls made so far, the bytes a read leaves in the caller's
buffer, the content of a local array that the C code leaves uninitialised, and
the byte found at an absolute memory address. -/
structure Host where
  openResult : List BusEvent → TwiSpeed → Bool
  writeResult : List BusEvent → Nat → Nat → List Nat → Bool
  readResult : List BusEvent → Nat → Nat → Nat → Bool × List Nat
  uninit : List BusEvent → Nat → List Nat
  memory : Nat → Nat

/-- Value stored in a `uint8_t`. -/
def u8 (x : Nat) : Nat := x % 256

/-- Value stored in a `uint16_t`. -/
def u16 (x : Nat) : Nat := x % 65536

/-- Value stored in a `uint32_t`. -/
def u32 (x : Nat) : Nat := x % 4294967296

/-! ## Defines and constant tables of `FuelGauge.c` -/

def FUEL_GAUGE_I2C_ADDRESS : Nat := 0x55
def FUEL_GAUGE_ROM_I2C_ADDRESS : Nat := 0x0B
def FUEL_GAUGE_TWI_SPEED : TwiSpeed := TwiSpeed.TWI_100KHZ

def FUEL_GAUGE_REG_CONTROL_STATUS : Nat := 0x00
def FUEL_GAUGE_REG_VOLT : Nat := 0x08
def FUEL_GAUGE_REG_BATTERY_STATUS : Nat := 0x0A
def FUEL_GAUGE_REG_CURRENT : Nat := 0x0C
def FUEL_GAUGE_REG_REMAINING_CAP : Nat := 0x10
def FUEL_GAUGE_REG_FULL_CAP : Nat := 0x12
def FUEL_GAUGE_REG_RELATIVE_SOC : Nat := 0x2C
def FUEL_GAUGE_REG_RELATIVE_SOH : Nat := 0x2E
def FUEL_GAUGE_REG_DESIGN_CAP : Nat := 0x3C
def FUEL_GAUGE_REG_ALT_MNFG_ACCESS : Nat := 0x3E

def FUEL_GAUGE_IT_ENABLED_BIT : Nat := 3
def FUEL_GAUGE_LF_ENABLED_BIT : Nat := 5

def unsealKey : List Nat := [0x04, 0x14, 0x36, 0x72]
def fullAccessKey : List Nat := [0xff, 0xff, 0xff, 0xff]

def chemIdCmd : List Nat := [0x06, 0x00]
def operationStatusCommand : List Nat := [0x54, 0x00]
def chargingStatusCommand : List Nat := [0x55, 0x00]
def gaugingStatusCommand : List Nat := [0x56, 0x00]
def manufacturingStatusCommand : List Nat := [0x57, 0x00]
def updateStatusAddress : List Nat := [0x8c, 0x41]
def enableImpedanceTrackingCommand : List Nat := [0x21, 0x00]
def disableImpedanceTrackingCommand : List Nat := [0x21, 0x00]
def lifetimeTrackingCommand : List Nat := [0x23, 0x00]
def resetCommand : List Nat := [0x41, 0x00]
def sealCommand : List Nat := [0x30, 0x00]
def resetLifetimeCmd : List Nat := [0x28, 0x00]
def securityKeysCmd : List Nat := [0x35, 0x00]
def exitRomCmd : List Nat := [0x08]

/-- Modelled from the spec: the macro `BIT_IS_SET` of `CommonDefinesAndMacros.h`
is not part of the sources; the spec says the toggles "test the relevant bit" of
Manufacturing Status. -/
def BIT_IS_SET (value bit : Nat) : Bool := value.testBit bit

/-! ## The four bus callbacks, with their log -/

/-- Call of `Twi->open(speed)`. -/
def twiOpen (host : Host) (speed : TwiSpeed) (log : List BusEvent) :
    Bool × List BusEvent :=
  let ok := host.openResult log speed
  (ok, log ++ [BusEvent.open speed ok])

/-- Call of `Twi->write(device, &register, 1, data, size)`: the bytes handed
over are the first `size` bytes of `data`. -/
def twiWrite (host : Host) (device register : Nat) (data : List Nat) (size : Nat)
    (log : List BusEvent) : Bool × List BusEvent :=
  let ok := host.writeResult log device register (data.take size)
  (ok, log ++ [BusEvent.write device register (data.take size) ok])

/-- Bytes of a buffer after a read of `size` bytes: what the host delivered (at
most `size` bytes, each reduced to a byte) over the old content. -/
def fillBuffer (delivered old : List Nat) (size : Nat) : List Nat :=
  (delivered.take size).map u8 ++ old.drop (delivered.take size).length

/-- Call of `Twi->read(device, &register, 1, value, size)`; returns the
boolean and the buffer `value` after the call. -/
def twiRead (host : Host) (device register : Nat) (value : List Nat) (size : Nat)
    (log : List BusEvent) : Bool × List Nat × List BusEvent :=
  let r := host.readResult log device register size
  (r.1, fillBuffer r.2 value size, log ++ [BusEvent.read device register size r.1])

/-- Call of `Twi->close()`. -/
def twiClose (log : List BusEvent) : List BusEvent :=
  log ++ [BusEvent.close]

/-! ## Static functions -/

/-- Source: `ReadFlashBlock`. -/
def ReadFlashBlock (host : Host) (fgAddress registerAddress : Nat) (value : List Nat)
    (size : Nat) (log : List BusEvent) : Bool × List Nat × List BusEvent :=
  twiRead host fgAddress registerAddress value size log

/-- Source: `WriteFlashBlock`. -/
def WriteFlashBlock (host : Host) (registerAddress : Nat) (value : List Nat) (size : Nat)
    (log : List BusEvent) : Bool × List BusEvent :=
  twiWrite host FUEL_GAUGE_I2C_ADDRESS registerAddress value size log

/-- Source: `WriteFlashBlockSafe`. -/
def WriteFlashBlockSafe (host : Host) (fgAddress registerAddress : Nat) (value : List Nat)
    (size : Nat) (log : List BusEvent) : Bool × List BusEvent :=
  let o := twiOpen host FUEL_GAUGE_TWI_SPEED log
  if o.1 = true then
    let w := twiWrite host fgAddress registerAddress value size o.2
    (w.1, twiClose w.2)
  else
    (false, o.2)

/-- Source: `GetCommon`.  `value` is the caller's 16-bit variable before the
call; the two bytes read are stored into it low byte first. -/
def GetCommon (host : Host) (registerAddress : Nat) (value : Nat) (log : List BusEvent) :
    Bool × Nat × List BusEvent :=
  let o := twiOpen host FUEL_GAUGE_TWI_SPEED log
  if o.1 = true then
    let r := twiRead host FUEL_GAUGE_I2C_ADDRESS registerAddress
      [u16 value % 256, u16 value / 256] 2 o.2
    (r.1, r.2.1.getD 0 0 + 256 * r.2.1.getD 1 0, twiClose r.2.2)
  else
    (false, value, o.2)

/-- Source: `PrimedReadOperation`.  Returns the boolean and the buffer `data`
after the call. -/
def PrimedReadOperation (host : Host) (registerAddress : Nat) (cmd : List Nat)
    (sizeOfCmd : Nat) (data : List Nat) (sizeOfData : Nat) (log : List BusEvent) :
    Bool × List Nat × List BusEvent :=
  let o := twiOpen host FUEL_GAUGE_TWI_SPEED log
  if o.1 = true then
    let w := WriteFlashBlock host registerAddress cmd sizeOfCmd o.2
    let r := ReadFlashBlock host FUEL_GAUGE_I2C_ADDRESS registerAddress data sizeOfData w.2
    (w.1 && r.1, r.2.1, twiClose r.2.2)
  else
    (false, data, o.2)

/-! ## Public functions -/

/-- Source: `FuelGaugeGetControlStatus`. -/
def FuelGaugeGetControlStatus (host : Host) (controlStatus : Nat) (log : List BusEvent) :=
  GetCommon host FUEL_GAUGE_REG_CONTROL_STATUS controlStatus log

/-- Source: `FuelGaugeGetVoltage`. -/
def FuelGaugeGetVoltage (host : Host) (voltage : Nat) (log : List BusEvent) :=
  GetCommon host FUEL_GAUGE_REG_VOLT voltage log

/-- Source: `FuelGaugeGetBatteryStatus`. -/
def FuelGaugeGetBatteryStatus (host : Host) (status : Nat) (log : List BusEvent) :=
  GetCommon host FUEL_GAUGE_REG_BATTERY_STATUS status log

/-- Source: `FuelGaugeGetManufacturingStatus`. -/
def FuelGaugeGetManufacturingStatus (host : Host) (log : List BusEvent) :
    Bool × Nat × List BusEvent :=
  let values := [0xff, 0xff, 0xff, 0xff]
  let r := PrimedReadOperation host FUEL_GAUGE_REG_ALT_MNFG_ACCESS manufacturingStatusCommand
    manufacturingStatusCommand.length values 4 log
  (r.1, u16 ((r.2.1.getD 3 0 <<< 8) ||| r.2.1.getD 2 0), r.2.2)

/-- Source: `FuelGaugeGetOperationStatus`. -/
def FuelGaugeGetOperationStatus (host : Host) (log : List BusEvent) :
    Bool × Nat × List BusEvent :=
  let values := [0xff, 0xff, 0xff, 0xff, 0xff, 0xff]
  let r := PrimedReadOperation host FUEL_GAUGE_REG_ALT_MNFG_ACCESS operationStatusCommand
    operationStatusCommand.length values 6 log
  let v := r.2.1
  (r.1, u32 ((v.getD 3 0 <<< 24) ||| (v.getD 2 0 <<< 16) ||| (v.getD 5 0 <<< 8) ||| v.getD 4 0),
    r.2.2)

/-- Source: `FuelGaugeGetGaugingStatus`. -/
def FuelGaugeGetGaugingStatus (host : Host) (log : List BusEvent) :
    Bool × Nat × List BusEvent :=
  let values := [0xff, 0xff, 0xff, 0xff, 0xff, 0xff]
  let r := PrimedReadOperation host FUEL_GAUGE_REG_ALT_MNFG_ACCESS gaugingStatusCommand
    gaugingStatusCommand.length values 6 log
  let v := r.2.1
  (r.1, u32 ((v.getD 3 0 <<< 24) ||| (v.getD 2 0 <<< 16) ||| (v.getD 5 0 <<< 8) ||| v.getD 4 0),
    r.2.2)

/-- Source: `FuelGaugeGetChargingStatus`. -/
def FuelGaugeGetChargingStatus (host : Host) (log : List BusEvent) :
    Bool × Nat × List BusEvent :=
  let values := [0xff, 0xff, 0xff, 0xff, 0xff]
  let r := PrimedReadOperation host FUEL_GAUGE_REG_ALT_MNFG_ACCESS chargingStatusCommand
    chargingStatusCommand.length values 5 log
  let v := r.2.1
  (r.1, u32 ((v.getD 2 0 <<< 16) ||| (v.getD 4 0 <<< 8) ||| v.getD 3 0), r.2.2)

/-- Source: `FuelGaugeGetChemId`. -/
def FuelGaugeGetChemId (host : Host) (log : List BusEvent) :
    Bool × Nat × List BusEvent :=
  let values := [0xff, 0xff, 0xff, 0xff]
  let r := PrimedReadOperation host FUEL_GAUGE_REG_ALT_MNFG_ACCESS chemIdCmd
    chemIdCmd.length values 4 log
  (r.1, u16 ((r.2.1.getD 3 0 <<< 8) ||| r.2.1.getD 2 0), r.2.2)

/-- Source: `FuelGaugeGetUpdateStatus`. -/
def FuelGaugeGetUpdateStatus (host : Host) (log : List BusEvent) :
    Bool × Nat × List BusEvent :=
  let value := [0xff, 0xff, 0xff]
  let r := PrimedReadOperation host FUEL_GAUGE_REG_ALT_MNFG_ACCESS updateStatusAddress
    updateStatusAddress.length value 3 log
  (r.1, r.2.1.getD 2 0, r.2.2)

/-- Source: `FuelGaugeGetCurrent`. -/
def FuelGaugeGetCurrent (host : Host) (current : Nat) (log : List BusEvent) :=
  GetCommon host FUEL_GAUGE_REG_CURRENT current log

/-- Source: `FuelGaugeGetRemainingCapacity`. -/
def FuelGaugeGetRemainingCapacity (host : Host) (capacity : Nat) (log : List BusEvent) :=
  GetCommon host FUEL_GAUGE_REG_REMAINING_CAP capacity log

/-- Source: `FuelGaugeGetFullChargeCapacity`. -/
def FuelGaugeGetFullChargeCapacity (host : Host) (capacity : Nat) (log : List BusEvent) :=
  GetCommon host FUEL_GAUGE_REG_FULL_CAP capacity log

/-- Source: `FuelGaugeGetRelativeSoc`. -/
def FuelGaugeGetRelativeSoc (host : Host) (soc : Nat) (log : List BusEvent) :=
  GetCommon host FUEL_GAUGE_REG_RELATIVE_SOC soc log

/-- Source: `FuelGaugeGetSoh`. -/
def FuelGaugeGetSoh (host : Host) (soh : Nat) (log : List BusEvent) :=
  GetCommon host FUEL_GAUGE_REG_RELATIVE_SOH soh log

/-- Source: `FuelGaugeGetCapacity`. -/
def FuelGaugeGetCapacity (host : Host) (capacity : Nat) (log : List BusEvent) :=
  GetCommon host FUEL_GAUGE_REG_DESIGN_CAP capacity log

/-- Source: `IsImpedanceTrackingEnabled`.  The boolean of the status read is
dropped, as in the source. -/
def IsImpedanceTrackingEnabled (host : Host) (log : List BusEvent) : Bool × List BusEvent :=
  let s := FuelGaugeGetManufacturingStatus host log
  (BIT_IS_SET s.2.1 FUEL_GAUGE_IT_ENABLED_BIT, s.2.2)

/-- Source: `IsLifetimeTrackingEnabled`. -/
def IsLifetimeTrackingEnabled (host : Host) (log : List BusEvent) : Bool × List BusEvent :=
  let s := FuelGaugeGetManufacturingStatus host log
  (BIT_IS_SET s.2.1 FUEL_GAUGE_LF_ENABLED_BIT, s.2.2)

/-- Source: `FuelGaugeEnableImpedanceTracking`. -/
def FuelGaugeEnableImpedanceTracking (host : Host) (log : List BusEvent) :
    Bool × List BusEvent :=
  let e := IsImpedanceTrackingEnabled host log
  if e.1 = true then
    (true, e.2)
  else
    let w := WriteFlashBlockSafe host FUEL_GAUGE_I2C_ADDRESS FUEL_GAUGE_REG_ALT_MNFG_ACCESS
      enableImpedanceTrackingCommand enableImpedanceTrackingCommand.length e.2
    IsImpedanceTrackingEnabled host w.2

/-- Source: `FuelGaugeDisableImpedanceTracking`. -/
def FuelGaugeDisableImpedanceTracking (host : Host) (log : List BusEvent) :
    Bool × List BusEvent :=
  let e := IsImpedanceTrackingEnabled host log
  if e.1 = true then
    let w := WriteFlashBlockSafe host FUEL_GAUGE_I2C_ADDRESS FUEL_GAUGE_REG_ALT_MNFG_ACCESS
      disableImpedanceTrackingCommand disableImpedanceTrackingCommand.length e.2
    IsImpedanceTrackingEnabled host w.2
  else
    IsImpedanceTrackingEnabled host e.2

/-- Source: `FuelGaugeEnableLifetimeTracking`. -/
def FuelGaugeEnableLifetimeTracking (host : Host) (log : List BusEvent) :
    Bool × List BusEvent :=
  let e := IsLifetimeTrackingEnabled host log
  if e.1 = true then
    (true, e.2)
  else
    let w := WriteFlashBlockSafe host FUEL_GAUGE_I2C_ADDRESS FUEL_GAUGE_REG_ALT_MNFG_ACCESS
      lifetimeTrackingCommand lifetimeTrackingCommand.length e.2
    IsLifetimeTrackingEnabled host w.2

/-- Source: `FuelGaugeDisableLifetimeTracking`.  The guard calls
`IsImpedanceTrackingEnabled`, as the source does. -/
def FuelGaugeDisableLifetimeTracking (host : Host) (log : List BusEvent) :
    Bool × List BusEvent :=
  let e := IsImpedanceTrackingEnabled host log
  if e.1 = true then
    let w := WriteFlashBlockSafe host FUEL_GAUGE_I2C_ADDRESS FUEL_GAUGE_REG_ALT_MNFG_ACCESS
      lifetimeTrackingCommand lifetimeTrackingCommand.length e.2
    IsLifetimeTrackingEnabled host w.2
  else
    IsLifetimeTrackingEnabled host e.2

/-- Source: `FuelGaugeReset`. -/
def FuelGaugeReset (host : Host) (log : List BusEvent) : Bool × List BusEvent :=
  WriteFlashBlockSafe host FUEL_GAUGE_I2C_ADDRESS FUEL_GAUGE_REG_ALT_MNFG_ACCESS
    resetCommand resetCommand.length log

/-- Source: `FuelGaugeUnseal`.  Both half-word writes are issued; `result &= ...`
keeps the conjunction of their booleans. -/
def FuelGaugeUnseal (host : Host) (log : List BusEvent) : Bool × List BusEvent :=
  let keyFirstWord := [unsealKey.getD 0 0, unsealKey.getD 1 0]
  let keySecondWord := [unsealKey.getD 2 0, unsealKey.getD 3 0]
  let o := twiOpen host FUEL_GAUGE_TWI_SPEED log
  if o.1 = true then
    let w1 := WriteFlashBlock host FUEL_GAUGE_REG_ALT_MNFG_ACCESS keyFirstWord 2 o.2
    let w2 := WriteFlashBlock host FUEL_GAUGE_REG_ALT_MNFG_ACCESS keySecondWord 2 w1.2
    (w1.1 && w2.1, twiClose w2.2)
  else
    (false, o.2)

/-- Source: `FuelGaugeFullAccess`. -/
def FuelGaugeFullAccess (host : Host) (log : List BusEvent) : Bool × List BusEvent :=
  let keyFirstWord := [fullAccessKey.getD 0 0, fullAccessKey.getD 1 0]
  let keySecondWord := [fullAccessKey.getD 2 0, fullAccessKey.getD 3 0]
  let o := twiOpen host FUEL_GAUGE_TWI_SPEED log
  if o.1 = true then
    let w1 := WriteFlashBlock host FUEL_GAUGE_REG_ALT_MNFG_ACCESS keyFirstWord 2 o.2
    let w2 := WriteFlashBlock host FUEL_GAUGE_REG_ALT_MNFG_ACCESS keySecondWord 2 w1.2
    (w1.1 && w2.1, twiClose w2.2)
  else
    (false, o.2)

/-- Source: `FuelGaugeSeal`. -/
def FuelGaugeSeal (host : Host) (log : List BusEvent) : Bool × List BusEvent :=
  WriteFlashBlockSafe host FUEL_GAUGE_I2C_ADDRESS FUEL_GAUGE_REG_ALT_MNFG_ACCESS
    sealCommand sealCommand.length log

/-- Source: `FuelGaugeResetLifetimeHistory`. -/
def FuelGaugeResetLifetimeHistory (host : Host) (log : List BusEvent) : Bool × List BusEvent :=
  WriteFlashBlockSafe host FUEL_GAUGE_I2C_ADDRESS FUEL_GAUGE_REG_ALT_MNFG_ACCESS
    resetLifetimeCmd resetLifetimeCmd.length log

/-- Source: `FuelGaugeExitRomMode`.  The register pointer is the constant
`0x3E` cast to a pointer, so the register byte sent is the byte stored at that
address. -/
def FuelGaugeExitRomMode (host : Host) (log : List BusEvent) : Bool × List BusEvent :=
  let o := twiOpen host TwiSpeed.TWI_400KHZ log
  if o.1 = true then
    let w := twiWrite host FUEL_GAUGE_ROM_I2C_ADDRESS (host.memory FUEL_GAUGE_REG_ALT_MNFG_ACCESS)
      exitRomCmd exitRomCmd.length o.2
    (w.1, twiClose w.2)
  else
    (false, o.2)

/-! ## C library functions used by the interpreter

`goldenImage` is declared in `GoldenImage.h`, which is not part of the sources;
it is a parameter here: the characters stored in the array, the terminating NUL
being what any read at or past the end of the list returns. -/

/-- The character `'\0'`. -/
def NUL : Char := Char.ofNat 0

/-- The expression `goldenImage[i]`. -/
def charAt (goldenImage : List Char) (i : Nat) : Char := goldenImage.getD i NUL

/-- The C string held in a character array: the characters before the first NUL. -/
def cString (buf : List Char) : List Char := buf.takeWhile (fun c => c != NUL)

/-- C `strlen`. -/
def strlen (s : List Char) : Nat := (cString s).length

/-- C `isspace` in the "C" locale. -/
def isspace (c : Char) : Bool :=
  c == ' ' || c == '\t' || c == '\n' || c == Char.ofNat 11 || c == Char.ofNat 12 || c == '\r'

/-- Value of a character as a digit of `strtoul`: `0`-`9`, then letters of
either case from 10 on. -/
def digitValue (c : Char) : Option Nat :=
  if '0'.toNat ≤ c.toNat ∧ c.toNat ≤ '9'.toNat then some (c.toNat - '0'.toNat)
  else if 'a'.toNat ≤ c.toNat ∧ c.toNat ≤ 'z'.toNat then some (c.toNat - 'a'.toNat + 10)
  else if 'A'.toNat ≤ c.toNat ∧ c.toNat ≤ 'Z'.toNat then some (c.toNat - 'A'.toNat + 10)
  else none

/-- Whether `c` is a digit of the given base. -/
def isDigitOf (base : Nat) (c : Char) : Bool :=
  match digitValue c with
  | some v => decide (v < base)
  | none => false

/-- Largest `unsigned long`, for a 32-bit `unsigned long`. -/
def ULONG_MAX : Nat := 4294967295

/-- C `strtoul(nptr, &endptr, base)` on the C string `nptr`: returns the value
and the offset of `endptr` from `nptr`.  White space is skipped, one sign is
accepted, in base 16 a `0x` or `0X` that is followed by a hexadecimal digit is
skipped, and the longest run of digits is converted; without any digit nothing
is converted and `endptr` is `nptr`.  A minus sign negates in `unsigned long`. -/
def strtoul (nptr : List Char) (base : Nat) : Nat × Nat :=
  let ws := (nptr.takeWhile isspace).length
  let s1 := nptr.drop ws
  let neg := decide (s1.head? = some '-')
  let sg := if s1.head? = some '-' ∨ s1.head? = some '+' then 1 else 0
  let s2 := s1.drop sg
  let px :=
    if base = 16 ∧ s2.head? = some '0' ∧ (s2.getD 1 NUL = 'x' ∨ s2.getD 1 NUL = 'X')
        ∧ isDigitOf 16 (s2.getD 2 NUL) = true then 2 else 0
  let s3 := s2.drop px
  let digits := s3.takeWhile (isDigitOf base)
  if digits = [] then (0, 0)
  else
    let v := digits.foldl (fun acc c => acc * base + (digitValue c).getD 0) 0
    let r := if v > ULONG_MAX then ULONG_MAX
      else if neg = true then (ULONG_MAX + 1 - v) % (ULONG_MAX + 1) else v
    (r, ws + sg + px + digits.length)

/-- C `atoi` on the C string `nptr`: white space, one optional sign, then the
longest run of decimal digits.  The value is the mathematical one; C leaves the
result undefined when it does not fit an `int`. -/
def atoi (nptr : List Char) : Int :=
  let s1 := nptr.dropWhile isspace
  let neg := decide (s1.head? = some '-')
  let sg := if s1.head? = some '-' ∨ s1.head? = some '+' then 1 else 0
  let digits := (s1.drop sg).takeWhile (isDigitOf 10)
  let v : Nat := digits.foldl (fun acc c => acc * 10 + (digitValue c).getD 0) 0
  if neg = true then - (v : Int) else (v : Int)

/-- C `memcmp(a, b, n)` on byte arrays: zero when the first `n` bytes agree,
otherwise the difference of the first two bytes that differ. -/
def memcmp : List Nat → List Nat → Nat → Int
  | a :: as, b :: bs, n + 1 => if a = b then memcmp as bs n else (a : Int) - (b : Int)
  | _, _, _ => 0

/-! ## The golden-image interpreter -/

/-- Local variables of the `W`/`C` decode loop. -/
structure DecodeState where
  index : Nat
  byteNum : Nat
  data : List Nat
  fgAddress : Nat
  fgRegister : Nat
  buf : List Char
  deriving DecidableEq, Repr

/-- Body of the decode loop of the `W`/`C` case: two characters are copied to `buf`, the
string is terminated and converted with `strtoul(buf, &pError, 16)`, the byte is stored
according to `byteNum`, and `byteNum` is incremented; `none` is the `return ERROR_CONV`
taken when `*pError` is not NUL. -/
def decodePass (goldenImage : List Char) (st : DecodeState) : Option DecodeState :=
  let buf := st.buf.set 0 (charAt goldenImage st.index)
  let index := u16 (st.index + 1)
  let buf := buf.set 1 (charAt goldenImage index)
  let index := u16 (index + 1)
  let buf := buf.set 2 NUL
  let conv := strtoul (cString buf) 16
  let convertedData := u8 conv.1
  if buf.getD conv.2 NUL ≠ NUL then none
  else
    let fgAddress := if st.byteNum = 1 then convertedData else st.fgAddress
    let fgRegister := if st.byteNum = 2 then convertedData else st.fgRegister
    let data := if st.byteNum > 2 then st.data.set (st.byteNum - 3) convertedData else st.data
    some ⟨index, u16 (st.byteNum + 1), data, fgAddress, fgRegister, buf⟩

/-- The loop `while ((length - index > 2) && (byteNum < sizeof(data) + 3) &&
(goldenImage[index] != '\n'))` of the `W`/`C` case; `none` is the
`return ERROR_CONV` inside it.  `length - index` is computed in `int` after
integer promotion.  The first argument bounds the number of passes: `byteNum`
starts at 1 and the loop stops at 37, so 36 passes are never exceeded. -/
def decodeLoop (goldenImage : List Char) (length : Nat) : Nat → DecodeState → Option DecodeState
  | 0, st => some st
  | fuel + 1, st =>
    if (length : Int) - (st.index : Int) > 2 ∧ st.byteNum < 34 + 3
        ∧ charAt goldenImage st.index ≠ '\n' then
      match decodePass goldenImage st with
      | none => none
      | some st2 => decodeLoop goldenImage length fuel st2
    else some st

/-- The loop `while ((index < length) && (goldenImage[index] != '\n') &&
(n < sizeof(buf) - 1)) buf[n++] = goldenImage[index++];` of the `X` case;
returns `index`, `n` and `buf`.  `n` starts at 0, so 15 passes are never
exceeded. -/
def delayLoop (goldenImage : List Char) (length : Nat) :
    Nat → Nat → Nat → List Char → Nat × Nat × List Char
  | 0, index, n, buf => (index, n, buf)
  | fuel + 1, index, n, buf =>
    if index < length ∧ charAt goldenImage index ≠ '\n' ∧ n < 16 - 1 then
      delayLoop goldenImage length fuel (u16 (index + 1)) (u8 (n + 1))
        (buf.set n (charAt goldenImage index))
    else (index, n, buf)

/-- The loop `while ((index < length) && (goldenImage[index] != '\n')) index++;`
that skips to the end of the line. -/
def skipLoop (goldenImage : List Char) (length : Nat) : Nat → Nat → Nat
  | 0, index => index
  | fuel + 1, index =>
    if index < length ∧ charAt goldenImage index ≠ '\n' then
      skipLoop goldenImage length fuel (u16 (index + 1))
    else index

/-- The end of a pass of the outer loop: skip to the line terminator (at most
`length` steps, `index` being below `length` at each) and step over it. -/
def nextLine (goldenImage : List Char) (length : Nat) (index : Nat) : Nat :=
  let index := skipLoop goldenImage length length index
  if index < length then u16 (index + 1) else index

/-- The array `uint8_t dataFromGauge[dataLength]` as declared: not
initialised, so its bytes are whatever the host finds there. -/
def uninitialised (host : Host) (log : List BusEvent) (size : Nat) : List Nat :=
  ((host.uninit log size ++ List.replicate size 0).take size).map u8

/-- What a run of the interpreter leaves behind: the code returned (`none` when
the pass budget of `execLoop` ran out before the loop ended), the bus calls
made, and `delays`, the successive values of `n` at the place where the source
has its delay call `vTaskDelay(n)` commented out. -/
structure ExecResult where
  code : Option FuelGaugeConfigError
  log : List BusEvent
  delays : List Nat
  deriving DecidableEq, Repr

/-- The loop `while (index < length)` of `FuelGaugeExecuteGoldenImage`, from the
state `index`, `buf` with the bus log and delay values so far.  The first
argument is a budget of passes. -/
def execLoop (host : Host) (goldenImage : List Char) (length : Nat) :
    Nat → Nat → List Char → List BusEvent → List Nat → ExecResult
  | 0, _, _, log, delays => ⟨none, log, delays⟩
  | fuel + 1, index, buf, log, delays =>
    if index < length then
      if charAt goldenImage index = 'W' ∨ charAt goldenImage index = 'C' then
        let writeCmd := decide (charAt goldenImage index = 'W')
        let index := u16 (index + 1)
        let colon := charAt goldenImage index
        let index := u16 (index + 1)
        if colon ≠ ':' then ⟨some .ERROR_COLON, log, delays⟩
        else
          match decodeLoop goldenImage length 36
              ⟨index, 1, List.replicate 34 0, 0, 0, buf⟩ with
          | none => ⟨some .ERROR_CONV, log, delays⟩
          | some st =>
            if st.byteNum < 4 then ⟨some .ERROR_COUNT, log, delays⟩
            else
              let dataLength := u8 (st.byteNum - 3)
              if writeCmd = true then
                let w := WriteFlashBlockSafe host (st.fgAddress >>> 1) st.fgRegister st.data
                  dataLength log
                execLoop host goldenImage length fuel (nextLine goldenImage length st.index)
                  st.buf w.2 delays
              else
                let dataFromGauge := uninitialised host log dataLength
                let o := twiOpen host FUEL_GAUGE_TWI_SPEED log
                let r :=
                  if o.1 = true then
                    let rd := ReadFlashBlock host (st.fgAddress >>> 1) st.fgRegister
                      dataFromGauge dataLength o.2
                    (rd.2.1, twiClose rd.2.2)
                  else (dataFromGauge, o.2)
                if memcmp st.data r.1 dataLength ≠ 0 then ⟨some .ERROR_MEMCMP, r.2, delays⟩
                else
                  execLoop host goldenImage length fuel (nextLine goldenImage length st.index)
                    st.buf r.2 delays
      else if charAt goldenImage index = 'X' then
        let index := u16 (index + 1)
        if charAt goldenImage index ≠ ':' then ⟨some .ERROR_COLON, log, delays⟩
        else
          let index := u16 (index + 1)
          let d := delayLoop goldenImage length 15 index 0 buf
          let buf := d.2.2.set d.2.1 NUL
          let n := u8 (atoi (cString buf) % 256).toNat
          execLoop host goldenImage length fuel (nextLine goldenImage length d.1)
            buf log (delays ++ [n])
      else ⟨some .ERROR_DEFAULT, log, delays⟩
    else ⟨some .ERROR_NONE, log, delays⟩

/-- Source: `FuelGaugeExecuteGoldenImage`.  `length` is `strlen(goldenImage)`
stored in a `uint16_t`; `buf` is not initialised in the source and every use
writes its own terminator before reading it.  Every pass of the outer loop
that does not wrap `index` moves it forward, so `length + 1` passes are
enough for it to end. -/
def FuelGaugeExecuteGoldenImage (host : Host) (goldenImage : List Char)
    (log : List BusEvent) : ExecResult :=
  let length := u16 (strlen goldenImage)
  execLoop host goldenImage length (length + 1) 0 (List.replicate 16 NUL) log []

/-! ## Scripts and bookkeeping used in the statements -/

/-- Upper-case hexadecimal digit of a value below 16. -/
def hexDigit (n : Nat) : Char := if n < 10 then Char.ofNat (48 + n) else Char.ofNat (55 + n)

/-- Two-digit hex encoding of a byte, as the scripts write it. -/
def hexByte (b : Nat) : List Char := [hexDigit (b / 16), hexDigit (b % 16)]

/-- Hex encoding of a sequence of bytes. -/
def hexBytes : List Nat → List Char
  | [] => []
  | b :: bs => hexByte b ++ hexBytes bs

/-- One pass of the decode loop on the variables it assigns. -/
def decodeStore (st : DecodeState) (c0 c1 : Char) (v : Nat) : DecodeState :=
  ⟨st.index + 2, st.byteNum + 1,
    if st.byteNum > 2 then st.data.set (st.byteNum - 3) v else st.data,
    if st.byteNum = 1 then v else st.fgAddress,
    if st.byteNum = 2 then v else st.fgRegister,
    ((st.buf.set 0 c0).set 1 c1).set 2 NUL⟩

/-- The three assignments of one pass of the decode loop, on `fgAddress`, `fgRegister`
and `data`. -/
def storeByte (byteNum : Nat) (s : Nat × Nat × List Nat) (v : Nat) : Nat × Nat × List Nat :=
  (if byteNum = 1 then v else s.1, if byteNum = 2 then v else s.2.1,
    if byteNum > 2 then s.2.2.set (byteNum - 3) v else s.2.2)

/-- The assignments of successive passes of the decode loop, from pass `byteNum` on. -/
def storeBytes : Nat → Nat × Nat × List Nat → List Nat → Nat × Nat × List Nat
  | _, s, [] => s
  | n, s, v :: vs => storeBytes (n + 1) (storeByte n s v) vs

/-- The script line `W:` with device byte `d`, register byte `r` and payload `p`, without
its line feed. -/
def wLine (d r : Nat) (p : List Nat) : List Char := 'W' :: ':' :: hexBytes (d :: r :: p)

/-- The script line `C:` with device byte `d`, register byte `r` and expected bytes `p`,
without its line feed. -/
def cLine (d r : Nat) (p : List Nat) : List Char := 'C' :: ':' :: hexBytes (d :: r :: p)

/-- A host whose bus calls all succeed and whose reads deliver the leading bytes of `regs`. -/
def gaugeHolding (regs : List Nat) : Host where
  openResult := fun _ _ => true
  writeResult := fun _ _ _ _ => true
  readResult := fun _ _ _ size => (true, regs.take size)
  uninit := fun _ size => List.replicate size 0
  memory := fun _ => 0

/-- Number of payload bytes a bus call carries: the bytes handed to a write, the bytes asked
of a read. -/
def payloadSize : BusEvent → Nat
  | BusEvent.write _ _ data _ => data.length
  | BusEvent.read _ _ size _ => size
  | _ => 0

/-- Shape of the bus calls a run of the interpreter adds: a sequence of envelopes, each a
refused open, or an accepted open, one write or one read of at most 34 bytes, and a close. -/
inductive ScriptTrace : List BusEvent → Prop
  | done : ScriptTrace []
  | refused (t : List BusEvent) : ScriptTrace t →
      ScriptTrace (BusEvent.open FUEL_GAUGE_TWI_SPEED false :: t)
  | wrote (d r : Nat) (data : List Nat) (ok : Bool) (t : List BusEvent) : data.length ≤ 34 →
      ScriptTrace t →
      ScriptTrace (BusEvent.open FUEL_GAUGE_TWI_SPEED true :: BusEvent.write d r data ok
        :: BusEvent.close :: t)
  | compared (d r size : Nat) (ok : Bool) (t : List BusEvent) : size ≤ 34 → ScriptTrace t →
      ScriptTrace (BusEvent.open FUEL_GAUGE_TWI_SPEED true :: BusEvent.read d r size ok
        :: BusEvent.close :: t)

/-- Whether a sequence of bus calls is well bracketed, read from a state in which the bus is
held (`true`) or not (`false`): an accepted open takes the bus, a refused open leaves it,
reads and writes need the bus held, a close releases it, another open while it is held is
refused, and at the end the bus is released. -/
def bracketed : Bool → List BusEvent → Bool
  | inside, [] => !inside
  | false, BusEvent.open _ ok :: es => bracketed ok es
  | true, BusEvent.write _ _ _ _ :: es => bracketed true es
  | true, BusEvent.read _ _ _ _ :: es => bracketed true es
  | true, BusEvent.close :: es => bracketed false es
  | _, _ => false

/-- Well-bracketed sequence of bus calls, starting with the bus not held. -/
def wellBracketed (es : List BusEvent) : Bool := bracketed false es

/-- The public operations of `FuelGauge.h`; a getter built on `GetCommon` carries the value
its output variable holds before the call, the interpreter carries its script. -/
inductive PublicOperation
  | GetControlStatus (before : Nat)
  | GetVoltage (before : Nat)
  | GetBatteryStatus (before : Nat)
  | GetManufacturingStatus
  | GetOperationStatus
  | GetGaugingStatus
  | GetChargingStatus
  | GetChemId
  | GetUpdateStatus
  | GetCurrent (before : Nat)
  | GetRemainingCapacity (before : Nat)
  | GetFullChargeCapacity (before : Nat)
  | GetRelativeSoc (before : Nat)
  | GetSoh (before : Nat)
  | GetCapacity (before : Nat)
  | EnableImpedanceTracking
  | DisableImpedanceTracking
  | EnableLifetimeTracking
  | DisableLifetimeTracking
  | Reset
  | Unseal
  | FullAccess
  | Seal
  | ResetLifetimeHistory
  | ExitRomMode
  | ExecuteGoldenImage (goldenImage : List Char)

/-- The bus log after a public operation is called with the log `log`. -/
def PublicOperation.busLog (host : Host) (log : List BusEvent) : PublicOperation → List BusEvent
  | GetControlStatus v => (FuelGaugeGetControlStatus host v log).2.2
  | GetVoltage v => (FuelGaugeGetVoltage host v log).2.2
  | GetBatteryStatus v => (FuelGaugeGetBatteryStatus host v log).2.2
  | GetManufacturingStatus => (FuelGaugeGetManufacturingStatus host log).2.2
  | GetOperationStatus => (FuelGaugeGetOperationStatus host log).2.2
  | GetGaugingStatus => (FuelGaugeGetGaugingStatus host log).2.2
  | GetChargingStatus => (FuelGaugeGetChargingStatus host log).2.2
  | GetChemId => (FuelGaugeGetChemId host log).2.2
  | GetUpdateStatus => (FuelGaugeGetUpdateStatus host log).2.2
  | GetCurrent v => (FuelGaugeGetCurrent host v log).2.2
  | GetRemainingCapacity v => (FuelGaugeGetRemainingCapacity host v log).2.2
  | GetFullChargeCapacity v => (FuelGaugeGetFullChargeCapacity host v log).2.2
  | GetRelativeSoc v => (FuelGaugeGetRelativeSoc host v log).2.2
  | GetSoh v => (FuelGaugeGetSoh host v log).2.2
  | GetCapacity v => (FuelGaugeGetCapacity host v log).2.2
  | EnableImpedanceTracking => (FuelGaugeEnableImpedanceTracking host log).2
  | DisableImpedanceTracking => (FuelGaugeDisableImpedanceTracking host log).2
  | EnableLifetimeTracking => (FuelGaugeEnableLifetimeTracking host log).2
  | DisableLifetimeTracking => (FuelGaugeDisableLifetimeTracking host log).2
  | Reset => (FuelGaugeReset host log).2
  | Unseal => (FuelGaugeUnseal host log).2
  | FullAccess => (FuelGaugeFullAccess host log).2
  | Seal => (FuelGaugeSeal host log).2
  | ResetLifetimeHistory => (FuelGaugeResetLifetimeHistory host log).2
  | ExitRomMode => (FuelGaugeExitRomMode host log).2
  | ExecuteGoldenImage goldenImage => (FuelGaugeExecuteGoldenImage host goldenImage log).log

/-- The boolean a public operation returns; `none` for the interpreter, which returns a
`FuelGaugeConfigError`. -/
def PublicOperation.returned (host : Host) (log : List BusEvent) : PublicOperation → Option Bool
  | GetControlStatus v => some (FuelGaugeGetControlStatus host v log).1
  | GetVoltage v => some (FuelGaugeGetVoltage host v log).1
  | GetBatteryStatus v => some (FuelGaugeGetBatteryStatus host v log).1
  | GetManufacturingStatus => some (FuelGaugeGetManufacturingStatus host log).1
  | GetOperationStatus => some (FuelGaugeGetOperationStatus host log).1
  | GetGaugingStatus => some (FuelGaugeGetGaugingStatus host log).1
  | GetChargingStatus => some (FuelGaugeGetChargingStatus host log).1
  | GetChemId => some (FuelGaugeGetChemId host log).1
  | GetUpdateStatus => some (FuelGaugeGetUpdateStatus host log).1
  | GetCurrent v => some (FuelGaugeGetCurrent host v log).1
  | GetRemainingCapacity v => some (FuelGaugeGetRemainingCapacity host v log).1
  | GetFullChargeCapacity v => some (FuelGaugeGetFullChargeCapacity host v log).1
  | GetRelativeSoc v => some (FuelGaugeGetRelativeSoc host v log).1
  | GetSoh v => some (FuelGaugeGetSoh host v log).1
  | GetCapacity v => some (FuelGaugeGetCapacity host v log).1
  | EnableImpedanceTracking => some (FuelGaugeEnableImpedanceTracking host log).1
  | DisableImpedanceTracking => some (FuelGaugeDisableImpedanceTracking host log).1
  | EnableLifetimeTracking => some (FuelGaugeEnableLifetimeTracking host log).1
  | DisableLifetimeTracking => some (FuelGaugeDisableLifetimeTracking host log).1
  | Reset => some (FuelGaugeReset host log).1
  | Unseal => some (FuelGaugeUnseal host log).1
  | FullAccess => some (FuelGaugeFullAccess host log).1
  | Seal => some (FuelGaugeSeal host log).1
  | ResetLifetimeHistory => some (FuelGaugeResetLifetimeHistory host log).1
  | ExitRomMode => some (FuelGaugeExitRomMode host log).1
  | ExecuteGoldenImage _ => none

/-- Extension of the log by a well-bracketed sequence of calls. -/
def Extends (log result : List BusEvent) : Prop :=
  ∃ new, result = log ++ new ∧ wellBracketed new = true

/-- A host whose bus can never be opened: every call fails. -/
def deadBus : Host where
  openResult := fun _ _ => false
  writeResult := fun _ _ _ _ => false
  readResult := fun _ _ _ _ => (false, [])
  uninit := fun _ size => List.replicate size 0
  memory := fun _ => 0

/-- The hexadecimal digits. -/
def hexChars : List Char := "0123456789abcdefABCDEF".toList

/-- Pairs of characters that are rejected whatever `strtoul` accepts beyond two hexadecimal
digits: the second character is no hexadecimal digit, or the first is neither a hexadecimal
digit, a white-space character nor a sign. -/
def notHexPair (a b : Char) : Bool :=
  !(isDigitOf 16 b) || !(isDigitOf 16 a || isspace a || a == '+' || a == '-')

/-- The bus calls of a Manufacturing Status read in which every call succeeds: open, write
of the command `0x57 0x00` to register `0x3E` at device `0x55`, read of four bytes, close. -/
def statusReadCalls : List BusEvent :=
  [BusEvent.open FUEL_GAUGE_TWI_SPEED true,
    BusEvent.write FUEL_GAUGE_I2C_ADDRESS FUEL_GAUGE_REG_ALT_MNFG_ACCESS [0x57, 0x00] true,
    BusEvent.read FUEL_GAUGE_I2C_ADDRESS FUEL_GAUGE_REG_ALT_MNFG_ACCESS 4 true,
    BusEvent.close]

/-- The bus calls of a toggle command whose bus acquisition succeeds after the calls `log`:
open, one write of `cmd` to register `0x3E` at device `0x55`, close. -/
def toggleCalls (host : Host) (log : List BusEvent) (cmd : List Nat) : List BusEvent :=
  [BusEvent.open FUEL_GAUGE_TWI_SPEED true,
    BusEvent.write FUEL_GAUGE_I2C_ADDRESS FUEL_GAUGE_REG_ALT_MNFG_ACCESS cmd
      (host.writeResult (log ++ [BusEvent.open FUEL_GAUGE_TWI_SPEED true]) FUEL_GAUGE_I2C_ADDRESS
        FUEL_GAUGE_REG_ALT_MNFG_ACCESS cmd),
    BusEvent.close]

/-- A host whose bus is busy exactly once, at the call made after four calls; every other
call succeeds and every read delivers zero bytes. -/
def busyOnce : Host where
  openResult := fun log _ => decide (log.length ≠ 4)
  writeResult := fun _ _ _ _ => true
  readResult := fun _ _ _ size => (true, List.replicate size 0)
  uninit := fun _ size => List.replicate size 0
  memory := fun _ => 0

/-- Every line of the script starts with `W` or `X`: the first character of the script and
every character that follows a line feed, as far as the script goes, is one of the two. -/
def onlyWXLines (g : List Char) : Prop :=
  ∀ i, i < strlen g → (i = 0 ∨ charAt g (i - 1) = '\n') →
    (charAt g i = 'W' ∨ charAt g i = 'X')

/-- A line of a script made of writes and delays. -/
inductive ScriptLine
  | W (d r : Nat) (p : List Nat)
  | X (digits : List Char)

/-- The characters of a line, without its line feed. -/
def ScriptLine.chars : ScriptLine → List Char
  | ScriptLine.W d r p => wLine d r p
  | ScriptLine.X digits => 'X' :: ':' :: digits

/-- A well-formed line: a `W` line carries a device byte, a register byte and 1 to 31
payload bytes; an `X` line carries a non-empty string of decimal digits. -/
def ScriptLine.wellFormed : ScriptLine → Prop
  | ScriptLine.W d r p => d < 256 ∧ r < 256 ∧ (∀ b ∈ p, b < 256) ∧ 1 ≤ p.length ∧ p.length ≤ 31
  | ScriptLine.X digits => digits ≠ [] ∧ ∀ c ∈ digits, isDigitOf 10 c = true

/-- The script made of the given lines, each followed by a line feed. -/
def scriptOf : List ScriptLine → List Char
  | [] => []
  | l :: ls => l.chars ++ '\n' :: scriptOf ls

/-! ## One pass of the outer loop; array accesses and cursor values of a run -/

/-- State of the outer loop at the `break` that ends a `case`: the cursor, the scratch
buffer, the bus log and the delay counts. -/
structure LineEnd where
  index : Nat
  buf : List Char
  log : List BusEvent
  delays : List Nat

/-- The `switch (goldenImage[index])` statement of the outer loop, from the cursor `index`:
either a `return` with its code, or the state at the `break`. -/
def execLine (host : Host) (goldenImage : List Char) (length : Nat) (index : Nat)
    (buf : List Char) (log : List BusEvent) (delays : List Nat) : ExecResult ⊕ LineEnd :=
  if charAt goldenImage index = 'W' ∨ charAt goldenImage index = 'C' then
    let writeCmd := decide (charAt goldenImage index = 'W')
    let index := u16 (index + 1)
    let colon := charAt goldenImage index
    let index := u16 (index + 1)
    if colon ≠ ':' then Sum.inl ⟨some .ERROR_COLON, log, delays⟩
    else
      match decodeLoop goldenImage length 36
          ⟨index, 1, List.replicate 34 0, 0, 0, buf⟩ with
      | none => Sum.inl ⟨some .ERROR_CONV, log, delays⟩
      | some st =>
        if st.byteNum < 4 then Sum.inl ⟨some .ERROR_COUNT, log, delays⟩
        else
          let dataLength := u8 (st.byteNum - 3)
          if writeCmd = true then
            let w := WriteFlashBlockSafe host (st.fgAddress >>> 1) st.fgRegister st.data
              dataLength log
            Sum.inr ⟨st.index, st.buf, w.2, delays⟩
          else
            let dataFromGauge := uninitialised host log dataLength
            let o := twiOpen host FUEL_GAUGE_TWI_SPEED log
            let r :=
              if o.1 = true then
                let rd := ReadFlashBlock host (st.fgAddress >>> 1) st.fgRegister
                  dataFromGauge dataLength o.2
                (rd.2.1, twiClose rd.2.2)
              else (dataFromGauge, o.2)
            if memcmp st.data r.1 dataLength ≠ 0 then Sum.inl ⟨some .ERROR_MEMCMP, r.2, delays⟩
            else Sum.inr ⟨st.index, st.buf, r.2, delays⟩
  else if charAt goldenImage index = 'X' then
    let index := u16 (index + 1)
    if charAt goldenImage index ≠ ':' then Sum.inl ⟨some .ERROR_COLON, log, delays⟩
    else
      let index := u16 (index + 1)
      let d := delayLoop goldenImage length 15 index 0 buf
      let buf := d.2.2.set d.2.1 NUL
      let n := u8 (atoi (cString buf) % 256).toNat
      Sum.inr ⟨d.1, buf, log, delays ++ [n]⟩
  else Sum.inl ⟨some .ERROR_DEFAULT, log, delays⟩

/-- An array access of the interpreter: the evaluation of `goldenImage[i]`, a store to
`data[i]`, a store to `buf[i]`. -/
inductive Access
  | script (i : Nat)
  | data (i : Nat)
  | buf (i : Nat)
  deriving DecidableEq, Repr

/-- An access within the arrays, for a script of `n` characters: the script array holds
the `n` characters and the terminating NUL, `data` has 34 elements, `buf` has 16. -/
def Access.inBounds (n : Nat) : Access → Prop
  | Access.script i => i ≤ n
  | Access.data i => i < 34
  | Access.buf i => i < 16

/-- The array accesses of one pass of the decode loop (`decodePass`): the two characters
copied to `buf[0]` and `buf[1]`, the terminator stored to `buf[2]`, and, unless the pass
returns `ERROR_CONV`, the store to `data[byteNum - 3]` made when `byteNum > 2`. -/
def decodePassAccesses (goldenImage : List Char) (st : DecodeState) : List Access :=
  [Access.script st.index, Access.buf 0, Access.script (u16 (st.index + 1)), Access.buf 1,
    Access.buf 2] ++
    match decodePass goldenImage st with
    | none => []
    | some _ => if st.byteNum > 2 then [Access.data (st.byteNum - 3)] else []

/-- The array accesses of the decode loop.  The loop condition is evaluated left to right
and stops at the first false conjunct, so `goldenImage[index]` is read only when
`length - index > 2` and `byteNum < sizeof(data) + 3` hold. -/
def decodeLoopAccesses (goldenImage : List Char) (length : Nat) :
    Nat → DecodeState → List Access
  | 0, _ => []
  | fuel + 1, st =>
    if (length : Int) - (st.index : Int) > 2 ∧ st.byteNum < 34 + 3 then
      Access.script st.index ::
        (if charAt goldenImage st.index ≠ '\n' then
          decodePassAccesses goldenImage st ++
            match decodePass goldenImage st with
            | none => []
            | some st2 => decodeLoopAccesses goldenImage length fuel st2
        else [])
    else []

/-- The array accesses of the delay loop: `goldenImage[index]` is read by the condition when
`index < length`, and the body reads it again and stores it to `buf[n]`. -/
def delayLoopAccesses (goldenImage : List Char) (length : Nat) : Nat → Nat → Nat → List Access
  | 0, _, _ => []
  | fuel + 1, index, n =>
    if index < length then
      Access.script index ::
        (if charAt goldenImage index ≠ '\n' ∧ n < 16 - 1 then
          [Access.script index, Access.buf n] ++
            delayLoopAccesses goldenImage length fuel (u16 (index + 1)) (u8 (n + 1))
        else [])
    else []

/-- The array accesses of the loop that skips to the end of the line. -/
def skipLoopAccesses (goldenImage : List Char) (length : Nat) : Nat → Nat → List Access
  | 0, _ => []
  | fuel + 1, index =>
    if index < length then
      Access.script index ::
        (if charAt goldenImage index ≠ '\n' then
          skipLoopAccesses goldenImage length fuel (u16 (index + 1))
        else [])
    else []

/-- The array accesses of the `switch` statement (`execLine`) from the cursor `index`: the
opcode, the colon, then those of the decode loop, or those of the delay loop followed by
the store of the terminator `buf[n] = 0`. -/
def lineAccesses (goldenImage : List Char) (length : Nat) (index : Nat) (buf : List Char) :
    List Access :=
  Access.script index ::
    if charAt goldenImage index = 'W' ∨ charAt goldenImage index = 'C' then
      [Access.script index, Access.script (u16 (index + 1))] ++
        if charAt goldenImage (u16 (index + 1)) ≠ ':' then []
        else decodeLoopAccesses goldenImage length 36
          ⟨u16 (u16 (index + 1) + 1), 1, List.replicate 34 0, 0, 0, buf⟩
    else if charAt goldenImage index = 'X' then
      Access.script (u16 (index + 1)) ::
        if charAt goldenImage (u16 (index + 1)) ≠ ':' then []
        else
          delayLoopAccesses goldenImage length 16 (u16 (u16 (index + 1) + 1)) 0 ++
            [Access.buf (delayLoop goldenImage length 15 (u16 (u16 (index + 1) + 1)) 0 buf).2.1]
    else []

/-- The array accesses of a run of the outer loop, pass after pass, with the same budget of
passes as `execLoop`. -/
def runAccesses (host : Host) (goldenImage : List Char) (length : Nat) :
    Nat → Nat → List Char → List BusEvent → List Nat → List Access
  | 0, _, _, _, _ => []
  | fuel + 1, index, buf, log, delays =>
    if index < length then
      lineAccesses goldenImage length index buf ++
        match execLine host goldenImage length index buf log delays with
        | Sum.inl _ => []
        | Sum.inr e =>
          skipLoopAccesses goldenImage length (length + 1) e.index ++
            runAccesses host goldenImage length fuel (nextLine goldenImage length e.index)
              e.buf e.log e.delays
    else []

/-- The values of the cursor at the head of the successive passes of the outer loop, the
value at which the loop ends included. -/
def runCursors (host : Host) (goldenImage : List Char) (length : Nat) :
    Nat → Nat → List Char → List BusEvent → List Nat → List Nat
  | 0, index, _, _, _ => [index]
  | fuel + 1, index, buf, log, delays =>
    index ::
      if index < length then
        match execLine host goldenImage length index buf log delays with
        | Sum.inl _ => []
        | Sum.inr e =>
          runCursors host goldenImage length fuel (nextLine goldenImage length e.index)
            e.buf e.log e.delays
      else []

/-- The values assigned to `index` by the decode loop: the two post-increments of each
pass, made before the conversion is checked. -/
def decodeLoopIndexes (goldenImage : List Char) (length : Nat) :
    Nat → DecodeState → List Nat
  | 0, _ => []
  | fuel + 1, st =>
    if (length : Int) - (st.index : Int) > 2 ∧ st.byteNum < 34 + 3
        ∧ charAt goldenImage st.index ≠ '\n' then
      u16 (st.index + 1) :: u16 (u16 (st.index + 1) + 1) ::
        match decodePass goldenImage st with
        | none => []
        | some st2 => decodeLoopIndexes goldenImage length fuel st2
    else []

/-- The values assigned to `index` by the delay loop. -/
def delayLoopIndexes (goldenImage : List Char) (length : Nat) : Nat → Nat → Nat → List Nat
  | 0, _, _ => []
  | fuel + 1, index, n =>
    if index < length ∧ charAt goldenImage index ≠ '\n' ∧ n < 16 - 1 then
      u16 (index + 1) :: delayLoopIndexes goldenImage length fuel (u16 (index + 1)) (u8 (n + 1))
    else []

/-- The values assigned to `index` by the loop that skips to the end of the line. -/
def skipLoopIndexes (goldenImage : List Char) (length : Nat) : Nat → Nat → List Nat
  | 0, _ => []
  | fuel + 1, index =>
    if index < length ∧ charAt goldenImage index ≠ '\n' then
      u16 (index + 1) :: skipLoopIndexes goldenImage length fuel (u16 (index + 1))
    else []

/-- The values assigned to `index` by the `switch` statement (`execLine`) from the cursor
`index`.  In the `W`/`C` case both post-increments are made before the colon is tested;
in the `X` case the second increment follows the test. -/
def lineIndexes (goldenImage : List Char) (length : Nat) (index : Nat) (buf : List Char) :
    List Nat :=
  if charAt goldenImage index = 'W' ∨ charAt goldenImage index = 'C' then
    u16 (index + 1) :: u16 (u16 (index + 1) + 1) ::
      if charAt goldenImage (u16 (index + 1)) ≠ ':' then []
      else decodeLoopIndexes goldenImage length 36
        ⟨u16 (u16 (index + 1) + 1), 1, List.replicate 34 0, 0, 0, buf⟩
  else if charAt goldenImage index = 'X' then
    u16 (index + 1) ::
      if charAt goldenImage (u16 (index + 1)) ≠ ':' then []
      else
        u16 (u16 (index + 1) + 1) ::
          delayLoopIndexes goldenImage length 15 (u16 (u16 (index + 1) + 1)) 0
  else []

/-- Every value assigned to `index` during a run of the outer loop, in order, with the
same budget of passes as `execLoop`; the initial value is not listed. -/
def runIndexes (host : Host) (goldenImage : List Char) (length : Nat) :
    Nat → Nat → List Char → List BusEvent → List Nat → List Nat
  | 0, _, _, _, _ => []
  | fuel + 1, index, buf, log, delays =>
    if index < length then
      lineIndexes goldenImage length index buf ++
        match execLine host goldenImage length index buf log delays with
        | Sum.inl _ => []
        | Sum.inr e =>
          skipLoopIndexes goldenImage length length e.index ++
            (if skipLoop goldenImage length length e.index < length then
              [u16 (skipLoop goldenImage length length e.index + 1)] else []) ++
            runIndexes host goldenImage length fuel (nextLine goldenImage length e.index)
              e.buf e.log e.delays
    else []

/-! ## The decode loop on well-formed lines; write lines -/

set_option maxRecDepth 100000

theorem strtoul_hexByte_all : ∀ b, b < 256 →
    (strtoul (hexByte b) 16 = (b, 2) ∧ hexDigit (b / 16) ≠ NUL ∧ hexDigit (b % 16) ≠ NUL
      ∧ hexDigit (b / 16) ≠ '\n') := by
  decide

theorem cString_pair (c0 c1 : Char) (rest : List Char) (h0 : c0 ≠ NUL) (h1 : c1 ≠ NUL) :
    cString (c0 :: c1 :: NUL :: rest) = [c0, c1] := by
  have e0 : (c0 != NUL) = true := by simpa using h0
  have e1 : (c1 != NUL) = true := by simpa using h1
  have e2 : (NUL != NUL) = false := by simp
  simp [cString, List.takeWhile, e0, e1, e2]

theorem set_three (buf : List Char) (h : 3 ≤ buf.length) (c0 c1 c2 : Char) :
    ((buf.set 0 c0).set 1 c1).set 2 c2 = c0 :: c1 :: c2 :: buf.drop 3 := by
  match buf, h with
  | _ :: _ :: _ :: rest, _ => simp

/-- One pass of the decode loop over a pair that `strtoul` converts whole. -/
theorem decodeLoop_step (g : List Char) (length fuel : Nat) (st : DecodeState) (v : Nat)
    (hlen : length < 65536) (hidx : st.index + 2 < length) (hnum : st.byteNum < 37)
    (hbuf : 3 ≤ st.buf.length)
    (hnl : charAt g st.index ≠ '\n')
    (h0 : charAt g st.index ≠ NUL) (h1 : charAt g (st.index + 1) ≠ NUL)
    (hconv : strtoul [charAt g st.index, charAt g (st.index + 1)] 16 = (v, 2))
    (hv : v < 256) :
    decodeLoop g length (fuel + 1) st
      = decodeLoop g length fuel (decodeStore st (charAt g st.index) (charAt g (st.index + 1)) v) := by
  have e1 : u16 (st.index + 1) = st.index + 1 := by unfold u16; omega
  have e2 : u16 (st.index + 1 + 1) = st.index + 2 := by unfold u16; omega
  have e3 : u16 (st.byteNum + 1) = st.byteNum + 1 := by unfold u16; omega
  have e4 : u8 v = v := by unfold u8; omega
  have hc : (length : Int) - (st.index : Int) > 2 ∧ st.byteNum < 34 + 3
      ∧ charAt g st.index ≠ '\n' := ⟨by omega, by omega, hnl⟩
  have hpass : decodePass g st
      = some (decodeStore st (charAt g st.index) (charAt g (st.index + 1)) v) := by
    unfold decodePass
    simp only [e1, e2, e3]
    rw [set_three _ hbuf, cString_pair _ _ _ h0 h1, hconv]
    simp [e4, decodeStore, set_three _ hbuf]
  rw [decodeLoop, if_pos hc, hpass]

theorem hexBytes_length (bs : List Nat) : (hexBytes bs).length = 2 * bs.length := by
  induction bs with
  | nil => rfl
  | cons b bs ih => simp [hexBytes, hexByte, ih]; omega

theorem charAt_cons_succ (c : Char) (g : List Char) (k : Nat) :
    charAt (c :: g) (k + 1) = charAt g k := rfl

theorem charAt_append_left (g h : List Char) (k : Nat) (hk : k < g.length) :
    charAt (g ++ h) k = charAt g k := List.getD_append g h NUL k hk

theorem charAt_append_right (g h : List Char) (k : Nat) :
    charAt (g ++ h) (g.length + k) = charAt h k := by
  unfold charAt
  rw [List.getD_append_right g h NUL (g.length + k) (by omega)]
  congr 1
  omega

theorem decodeLoop_stop (g : List Char) (length fuel : Nat) (st : DecodeState)
    (h : ¬ ((length : Int) - (st.index : Int) > 2 ∧ st.byteNum < 34 + 3
      ∧ charAt g st.index ≠ '\n')) :
    decodeLoop g length fuel st = some st := by
  cases fuel with
  | zero => rfl
  | succ f => rw [decodeLoop, if_neg h]

theorem decodeLoop_hexBytes (g : List Char) (length : Nat) (hlen : length < 65536) (fuel : Nat) :
    ∀ (bs : List Nat) (st : DecodeState), (∀ b ∈ bs, b < 256) →
      (∀ k, k < 2 * bs.length → charAt g (st.index + k) = charAt (hexBytes bs) k) →
      st.index + 2 * bs.length < length → st.byteNum + bs.length ≤ 37 → 3 ≤ st.buf.length →
      ∃ st2, decodeLoop g length (fuel + bs.length) st = decodeLoop g length fuel st2
        ∧ st2.index = st.index + 2 * bs.length ∧ st2.byteNum = st.byteNum + bs.length
        ∧ (st2.fgAddress, st2.fgRegister, st2.data)
            = storeBytes st.byteNum (st.fgAddress, st.fgRegister, st.data) bs
        ∧ st2.buf.length = st.buf.length := by
  intro bs
  induction bs with
  | nil => intro st _ _ _ _ _; exact ⟨st, rfl, rfl, rfl, rfl, rfl⟩
  | cons b bs ih =>
    intro st hb hch hidx hnum hbuf
    have hb256 : b < 256 := hb b (List.mem_cons_self _ _)
    obtain ⟨hconv, hn0, hn1, hnl⟩ := strtoul_hexByte_all b hb256
    have c0 : charAt g st.index = hexDigit (b / 16) := by
      have := hch 0 (by simp only [List.length_cons]; omega)
      simpa [hexBytes, hexByte, charAt] using this
    have c1 : charAt g (st.index + 1) = hexDigit (b % 16) := by
      have := hch 1 (by simp only [List.length_cons]; omega)
      simpa [hexBytes, hexByte, charAt] using this
    simp only [List.length_cons] at hidx hnum hch
    have hstep := decodeLoop_step g length (fuel + bs.length) st b hlen (by omega) (by omega) hbuf
      (by rw [c0]; exact hnl) (by rw [c0]; exact hn0) (by rw [c1]; exact hn1)
      (by rw [c0, c1]; exact hconv) hb256
    obtain ⟨st2, h1, h2, h3, h4, h5⟩ := ih
      (decodeStore st (charAt g st.index) (charAt g (st.index + 1)) b)
      (fun x hx => hb x (List.mem_cons_of_mem _ hx))
      (by
        intro k hk
        have := hch (k + 2) (by omega)
        simp only [decodeStore]
        rw [show st.index + 2 + k = st.index + (k + 2) by omega, this]
        simp [hexBytes, hexByte, charAt])
      (by simp only [decodeStore]; omega) (by simp only [decodeStore]; omega)
      (by simp only [decodeStore, List.length_set]; exact hbuf)
    refine ⟨st2, ?_, ?_, ?_, ?_, ?_⟩
    · simp only [List.length_cons]
      rw [show fuel + (bs.length + 1) = (fuel + bs.length) + 1 by omega, hstep, h1]
    · rw [h2]; simp only [decodeStore, List.length_cons]; omega
    · rw [h3]; simp only [decodeStore, List.length_cons]; omega
    · rw [h4]; simp only [decodeStore, storeBytes, storeByte]
    · rw [h5]; simp only [decodeStore, List.length_set]

theorem storeBytes_data (a r : Nat) : ∀ (p done rest : List Nat), p.length ≤ rest.length →
    storeBytes (3 + done.length) (a, r, done ++ rest) p = (a, r, done ++ p ++ rest.drop p.length) := by
  intro p
  induction p with
  | nil => intro done rest _; simp [storeBytes]
  | cons v p ih =>
    intro done rest h
    match rest, h with
    | x :: rest, h =>
      have := ih (done ++ [v]) rest (by simpa using h)
      simp only [List.length_append, List.length_singleton, List.append_assoc,
        List.singleton_append] at this
      simp only [storeBytes, storeByte]
      have e1 : ¬ (3 + done.length = 1) := by omega
      have e2 : ¬ (3 + done.length = 2) := by omega
      have e3 : 3 + done.length > 2 := by omega
      simp only [e1, e2, e3, if_true, if_false]
      rw [show 3 + done.length - 3 = done.length by omega]
      rw [show 3 + done.length + 1 = 3 + (done.length + 1) by omega]
      simp [List.set_append_right, this]

theorem storeBytes_line (d r : Nat) (p : List Nat) (h : p.length ≤ 34) :
    storeBytes 1 (0, 0, List.replicate 34 0) (d :: r :: p)
      = (d, r, p ++ (List.replicate 34 0).drop p.length) := by
  have := storeBytes_data d r p [] (List.replicate 34 0) (by simpa using h)
  simp only [storeBytes, storeByte]
  simpa using this

theorem decodeLoop_line (g : List Char) (length : Nat) (hlen : length < 65536) (i d r : Nat)
    (p : List Nat) (buf : List Char) (hbuf : 3 ≤ buf.length) (hd : d < 256) (hr : r < 256)
    (hp : ∀ b ∈ p, b < 256) (hpl : p.length ≤ 34)
    (hch : ∀ k, k < 2 * (p.length + 2) → charAt g (i + k) = charAt (hexBytes (d :: r :: p)) k)
    (hend : charAt g (i + 2 * (p.length + 2)) = '\n') (hi : i + 2 * (p.length + 2) < length) :
    ∃ st, decodeLoop g length 36 ⟨i, 1, List.replicate 34 0, 0, 0, buf⟩ = some st
      ∧ st.index = i + 2 * (p.length + 2) ∧ st.byteNum = p.length + 3
      ∧ st.fgAddress = d ∧ st.fgRegister = r ∧ st.data.take p.length = p
      ∧ st.buf.length = buf.length := by
  have hall : ∀ b ∈ d :: r :: p, b < 256 := by
    intro b hb
    simp only [List.mem_cons] at hb
    rcases hb with h | h | h
    · omega
    · omega
    · exact hp b h
  obtain ⟨st, h1, h2, h3, h4, h5⟩ := decodeLoop_hexBytes g length hlen (36 - (p.length + 2))
    (d :: r :: p) ⟨i, 1, List.replicate 34 0, 0, 0, buf⟩ hall
    (by simpa using hch) (by simpa using hi) (by simp only [List.length_cons]; omega) hbuf
  simp only [List.length_cons] at h1 h2 h3
  rw [show 36 - (p.length + 2) + (p.length + 1 + 1) = 36 by omega] at h1
  have hstop := decodeLoop_stop g length (36 - (p.length + 2)) st (by
    rw [h2]
    intro hc
    exact hc.2.2 (by rw [show i + 2 * (p.length + 1 + 1) = i + 2 * (p.length + 2) by omega]; exact hend))
  rw [storeBytes_line d r p hpl] at h4
  simp only [Prod.mk.injEq] at h4
  refine ⟨st, by rw [h1, hstop], by rw [h2], by rw [h3]; omega, h4.1, h4.2.1, ?_, h5⟩
  rw [h4.2.2]
  simp

theorem skipLoop_stop (g : List Char) (length fuel index : Nat)
    (h : ¬ (index < length ∧ charAt g index ≠ '\n')) : skipLoop g length fuel index = index := by
  cases fuel with
  | zero => rfl
  | succ f => rw [skipLoop, if_neg h]

theorem nextLine_at_newline (g : List Char) (length index : Nat) (hlen : length < 65536)
    (h : charAt g index = '\n') (hi : index < length) : nextLine g length index = index + 1 := by
  unfold nextLine
  rw [skipLoop_stop g length length index (by simp [h])]
  simp only [hi, if_true]
  unfold u16
  omega

theorem WriteFlashBlockSafe_take (host : Host) (a r : Nat) (data : List Nat) (n : Nat)
    (log : List BusEvent) :
    WriteFlashBlockSafe host a r data n log = WriteFlashBlockSafe host a r (data.take n) n log := by
  simp [WriteFlashBlockSafe, twiWrite, List.take_take]

/-- A pass of the outer loop over a well-formed `W` line that ends in a line feed. -/
theorem execLoop_W_line (host : Host) (g : List Char) (length : Nat) (hlen : length < 65536)
    (fuel i d r : Nat) (p : List Nat) (buf : List Char) (log : List BusEvent) (delays : List Nat)
    (hbuf : 3 ≤ buf.length) (hd : d < 256) (hr : r < 256)
    (hp : ∀ b ∈ p, b < 256) (hp1 : 1 ≤ p.length) (hpl : p.length ≤ 34)
    (hW : charAt g i = 'W') (hcolon : charAt g (i + 1) = ':')
    (hch : ∀ k, k < 2 * (p.length + 2) → charAt g (i + 2 + k) = charAt (hexBytes (d :: r :: p)) k)
    (hend : charAt g (i + 2 + 2 * (p.length + 2)) = '\n')
    (hi : i + 2 + 2 * (p.length + 2) < length) :
    ∃ buf2, buf2.length = buf.length ∧
      execLoop host g length (fuel + 1) i buf log delays
        = execLoop host g length fuel (i + 2 + 2 * (p.length + 2) + 1) buf2
            (WriteFlashBlockSafe host (d >>> 1) r p p.length log).2 delays := by
  obtain ⟨st, h1, h2, h3, h4, h5, h6, h7⟩ := decodeLoop_line g length hlen (i + 2) d r p buf hbuf
    hd hr hp hpl hch hend hi
  refine ⟨st.buf, h7, ?_⟩
  have e1 : u16 (i + 1) = i + 1 := by unfold u16; omega
  have e2 : u16 (i + 1 + 1) = i + 2 := by unfold u16; omega
  have e3 : u8 (st.byteNum - 3) = p.length := by rw [h3]; unfold u8; omega
  have e4 : ¬ st.byteNum < 4 := by omega
  rw [execLoop, if_pos (by omega), if_pos (Or.inl hW)]
  simp only [e1, e2, hcolon, hW, ne_eq, not_true_eq_false, if_false, h1, e4, e3, decide_True,
    if_true]
  rw [h2, nextLine_at_newline g length _ hlen hend hi, WriteFlashBlockSafe_take, h6, h4, h5]

theorem cString_append (a b : List Char) (h : ∀ c ∈ a, c ≠ NUL) :
    cString (a ++ b) = a ++ cString b := by
  induction a with
  | nil => rfl
  | cons x a ih =>
    have hx : (x != NUL) = true := by simpa using h x (List.mem_cons_self _ _)
    have := ih (fun c hc => h c (List.mem_cons_of_mem _ hc))
    simp only [cString] at this ⊢
    simp [List.takeWhile, hx, this]

theorem hexBytes_ne_NUL (bs : List Nat) (h : ∀ b ∈ bs, b < 256) : ∀ c ∈ hexBytes bs, c ≠ NUL := by
  induction bs with
  | nil => intro c hc; simp [hexBytes] at hc
  | cons b bs ih =>
    intro c hc
    obtain ⟨_, h0, h1, _⟩ := strtoul_hexByte_all b (h b (List.mem_cons_self _ _))
    simp only [hexBytes, hexByte, List.cons_append, List.nil_append, List.mem_cons] at hc
    rcases hc with hc | hc | hc
    · rw [hc]; exact h0
    · rw [hc]; exact h1
    · exact ih (fun x hx => h x (List.mem_cons_of_mem _ hx)) c hc

/-- Length the interpreter sees for a script that starts with an opcode, a colon, the hex
encoding of `bs` and a line feed. -/
theorem strlen_line (op : Char) (bs : List Nat) (rest : List Char) (hop : op ≠ NUL)
    (h : ∀ b ∈ bs, b < 256) :
    strlen (op :: ':' :: (hexBytes bs ++ '\n' :: rest)) = 2 + 2 * bs.length + 1 + strlen rest := by
  have hn : ∀ c ∈ op :: ':' :: (hexBytes bs ++ ['\n']), c ≠ NUL := by
    intro c hc
    simp only [List.mem_cons, List.mem_append, List.mem_singleton, List.not_mem_nil, or_false] at hc
    rcases hc with hc | hc | hc | hc
    · rw [hc]; exact hop
    · rw [hc]; decide
    · exact hexBytes_ne_NUL bs h c hc
    · rw [hc]; decide
  have := cString_append (op :: ':' :: (hexBytes bs ++ ['\n'])) rest hn
  simp only [List.cons_append, List.append_assoc, List.singleton_append, List.nil_append] at this
  unfold strlen
  rw [this]
  simp only [List.length_cons, List.length_append, hexBytes_length]
  omega

theorem charAt_line_hex (op : Char) (bs : List Nat) (rest : List Char) (k : Nat)
    (hk : k < 2 * bs.length) :
    charAt (op :: ':' :: (hexBytes bs ++ '\n' :: rest)) (0 + 2 + k) = charAt (hexBytes bs) k := by
  rw [show 0 + 2 + k = k + 1 + 1 by omega, charAt_cons_succ, charAt_cons_succ,
    charAt_append_left _ _ _ (by rw [hexBytes_length]; exact hk)]

theorem charAt_line_end (op : Char) (bs : List Nat) (rest : List Char) :
    charAt (op :: ':' :: (hexBytes bs ++ '\n' :: rest)) (0 + 2 + 2 * bs.length) = '\n' := by
  rw [show 0 + 2 + 2 * bs.length = (hexBytes bs).length + 0 + 1 + 1 by rw [hexBytes_length]; omega,
    charAt_cons_succ, charAt_cons_succ]
  have := charAt_append_right (hexBytes bs) ('\n' :: rest) 0
  rw [Nat.add_zero] at this
  rw [this]
  rfl

theorem execLoop_end (host : Host) (g : List Char) (length fuel index : Nat) (buf : List Char)
    (log : List BusEvent) (delays : List Nat) (h : ¬ index < length) :
    execLoop host g length (fuel + 1) index buf log delays = ⟨some .ERROR_NONE, log, delays⟩ := by
  rw [execLoop, if_neg h]

/-- C1: for a device byte `d`, a register byte `r` and a payload `p` of 1 to 31 bytes, when
the bus opens, the script `"W:"` followed by the two-digit hex encodings of `d`, `r` and the
bytes of `p` and a line feed returns `ERROR_NONE` and makes exactly the bus calls open, one
write of the bytes `p` to register `r` at device `d >> 1`, close. -/
theorem write_line_one_envelope (host : Host) (log : List BusEvent) (d r : Nat) (p : List Nat)
    (hd : d < 256) (hr : r < 256) (hp : ∀ b ∈ p, b < 256) (hp1 : 1 ≤ p.length)
    (hp31 : p.length ≤ 31) (hopen : host.openResult log FUEL_GAUGE_TWI_SPEED = true) :
    FuelGaugeExecuteGoldenImage host (wLine d r p ++ ['\n']) log
      = ⟨some .ERROR_NONE,
          log ++ [BusEvent.open FUEL_GAUGE_TWI_SPEED true,
            BusEvent.write (d >>> 1) r p
              (host.writeResult (log ++ [BusEvent.open FUEL_GAUGE_TWI_SPEED true]) (d >>> 1) r p),
            BusEvent.close],
          []⟩ := by
  have hall : ∀ b ∈ d :: r :: p, b < 256 := by
    intro b hb
    simp only [List.mem_cons] at hb
    rcases hb with h | h | h
    · omega
    · omega
    · exact hp b h
  have hg : wLine d r p ++ ['\n'] = 'W' :: ':' :: (hexBytes (d :: r :: p) ++ '\n' :: []) := rfl
  have hs := strlen_line 'W' (d :: r :: p) [] (by decide) hall
  simp only [List.length_cons, show strlen [] = 0 from rfl] at hs
  unfold FuelGaugeExecuteGoldenImage
  rw [hg, hs]
  have hu : u16 (2 + 2 * (p.length + 1 + 1) + 1 + 0) = 2 * (p.length + 2) + 3 := by
    unfold u16; omega
  rw [hu]
  obtain ⟨buf2, _, hstep⟩ := execLoop_W_line host ('W' :: ':' :: (hexBytes (d :: r :: p) ++ '\n' :: []))
    (2 * (p.length + 2) + 3) (by omega) (2 * (p.length + 2) + 3) 0 d r p (List.replicate 16 NUL)
    log [] (by simp) hd hr hp hp1 (by omega) rfl rfl
    (fun k hk => charAt_line_hex 'W' (d :: r :: p) [] k (by simpa using hk))
    (by simpa using charAt_line_end 'W' (d :: r :: p) [])
    (by omega)
  rw [hstep, show 2 * (p.length + 2) + 3 = (2 * (p.length + 2) + 2) + 1 by omega,
    execLoop_end _ _ _ _ _ _ _ _ (by omega)]
  simp [WriteFlashBlockSafe, twiOpen, twiWrite, twiClose, hopen]

/-! ## Compare lines -/

theorem memcmp_eq_zero_iff : ∀ (n : Nat) (a b : List Nat), n ≤ a.length → n ≤ b.length →
    (memcmp a b n = 0 ↔ a.take n = b.take n) := by
  intro n
  induction n with
  | zero => intro a b _ _; cases a <;> cases b <;> simp [memcmp]
  | succ n ih =>
    intro a b ha hb
    match a, b, ha, hb with
    | x :: a, y :: b, ha, hb =>
      simp only [memcmp, List.take_succ_cons, List.cons.injEq]
      by_cases hxy : x = y
      · simp only [hxy, if_true, true_and]
        exact ih a b (by simpa using ha) (by simpa using hb)
      · simp only [hxy, if_false, false_and, iff_false]
        omega

theorem fillBuffer_exact (b old : List Nat) (n : Nat) (hb : b.length = n) (ho : old.length = n)
    (hb256 : ∀ x ∈ b, x < 256) : fillBuffer b old n = b := by
  unfold fillBuffer
  have h1 : b.take n = b := by rw [← hb]; exact List.take_length b
  have h2 : b.map u8 = b := by
    conv_rhs => rw [← List.map_id b]
    apply List.map_congr_left
    intro x hx
    have := hb256 x hx
    simp only [u8, id]
    omega
  rw [h1, h2, hb, ← ho, List.drop_length, List.append_nil]

theorem uninitialised_length (host : Host) (log : List BusEvent) (n : Nat) :
    (uninitialised host log n).length = n := by
  simp [uninitialised]

/-- A pass of the outer loop over a well-formed `C` line that ends in a line feed, when the
bus opens and the read leaves `b` in the buffer. -/
theorem execLoop_C_line (host : Host) (g : List Char) (length : Nat) (hlen : length < 65536)
    (fuel i d r : Nat) (p b : List Nat) (buf : List Char) (log : List BusEvent) (delays : List Nat)
    (hbuf : 3 ≤ buf.length) (hd : d < 256) (hr : r < 256)
    (hp : ∀ x ∈ p, x < 256) (hp1 : 1 ≤ p.length) (hpl : p.length ≤ 34)
    (hC : charAt g i = 'C') (hcolon : charAt g (i + 1) = ':')
    (hch : ∀ k, k < 2 * (p.length + 2) → charAt g (i + 2 + k) = charAt (hexBytes (d :: r :: p)) k)
    (hend : charAt g (i + 2 + 2 * (p.length + 2)) = '\n')
    (hi : i + 2 + 2 * (p.length + 2) < length)
    (hbl : b.length = p.length) (hb256 : ∀ x ∈ b, x < 256)
    (hopen : host.openResult log FUEL_GAUGE_TWI_SPEED = true)
    (hread : (host.readResult (log ++ [BusEvent.open FUEL_GAUGE_TWI_SPEED true]) (d >>> 1) r
      p.length).2 = b) :
    ∃ buf2, buf2.length = buf.length ∧
      execLoop host g length (fuel + 1) i buf log delays
        = if b = p then
            execLoop host g length fuel (i + 2 + 2 * (p.length + 2) + 1) buf2
              (log ++ [BusEvent.open FUEL_GAUGE_TWI_SPEED true,
                BusEvent.read (d >>> 1) r p.length
                  (host.readResult (log ++ [BusEvent.open FUEL_GAUGE_TWI_SPEED true]) (d >>> 1) r
                    p.length).1,
                BusEvent.close]) delays
          else
            ⟨some .ERROR_MEMCMP,
              log ++ [BusEvent.open FUEL_GAUGE_TWI_SPEED true,
                BusEvent.read (d >>> 1) r p.length
                  (host.readResult (log ++ [BusEvent.open FUEL_GAUGE_TWI_SPEED true]) (d >>> 1) r
                    p.length).1,
                BusEvent.close], delays⟩ := by
  obtain ⟨st, h1, h2, h3, h4, h5, h6, h7⟩ := decodeLoop_line g length hlen (i + 2) d r p buf hbuf
    hd hr hp hpl hch hend hi
  refine ⟨st.buf, h7, ?_⟩
  have e1 : u16 (i + 1) = i + 1 := by unfold u16; omega
  have e2 : u16 (i + 1 + 1) = i + 2 := by unfold u16; omega
  have e3 : u8 (st.byteNum - 3) = p.length := by rw [h3]; unfold u8; omega
  have e4 : ¬ st.byteNum < 4 := by omega
  have hW : charAt g i ≠ 'W' := by rw [hC]; decide
  have hfill : fillBuffer b (uninitialised host log p.length) p.length = b :=
    fillBuffer_exact b _ p.length hbl (uninitialised_length host log p.length) hb256
  have hdl : p.length ≤ st.data.length := by
    have := congrArg List.length h6
    simp only [List.length_take] at this
    omega
  have hcmp : memcmp st.data b p.length = 0 ↔ b = p := by
    rw [memcmp_eq_zero_iff p.length st.data b hdl (by omega), h6, ← hbl, List.take_length]
    exact eq_comm
  rw [execLoop, if_pos (by omega), if_pos (Or.inr hC)]
  simp only [e1, e2, hcolon, hW, ne_eq, not_true_eq_false, if_false, h1, e4, e3, decide_False,
    twiOpen, hopen, if_true, ReadFlashBlock, twiRead, twiClose, hread, hfill, h4, h5,
    Bool.false_eq_true]
  rw [h2, nextLine_at_newline g length _ hlen hend hi]
  by_cases hbp : b = p
  · have : memcmp st.data b p.length = 0 := hcmp.2 hbp
    rw [if_neg (not_not_intro this), if_pos hbp]
    simp
  · have : ¬ memcmp st.data b p.length = 0 := fun h => hbp (hcmp.1 h)
    rw [if_pos this, if_neg hbp]
    simp

theorem bytes_lt_of_line (d r : Nat) (p : List Nat) (hd : d < 256) (hr : r < 256)
    (hp : ∀ x ∈ p, x < 256) : ∀ x ∈ d :: r :: p, x < 256 := by
  intro x hx
  simp only [List.mem_cons] at hx
  rcases hx with h | h | h
  · omega
  · omega
  · exact hp x h

/-- C1 on the script `"W:AA0B0102\n"`, with a bus whose calls all succeed. -/
theorem write_line_one_envelope_witness :
    FuelGaugeExecuteGoldenImage (gaugeHolding []) "W:AA0B0102\n".toList []
      = ⟨some .ERROR_NONE,
          [BusEvent.open .TWI_100KHZ true, BusEvent.write 0x55 0x0B [0x01, 0x02] true,
            BusEvent.close], []⟩ :=
  write_line_one_envelope (gaugeHolding []) [] 0xAA 0x0B [0x01, 0x02] (by decide) (by decide) (by decide)
    (by decide) (by decide) rfl

/-! ## Missing colon, delay lines, input end -/

theorem strlen_pos_of_first (g : List Char) (h : charAt g 0 ≠ NUL) : 0 < strlen g := by
  cases g with
  | nil => exact absurd rfl h
  | cons c g =>
    have hc : (c != NUL) = true := by simpa [charAt] using h
    simp [strlen, cString, List.takeWhile, hc]

/-- C3 (amended): for every script of fewer than 65536 characters whose first character is
`W`, `C` or `X` and whose next character is not `:` (the script may end right after the
opcode), the interpreter returns `ERROR_COLON` and makes no bus call. -/
theorem missing_colon_no_bus_traffic (host : Host) (g : List Char) (log : List BusEvent)
    (hfit : strlen g < 65536)
    (hop : charAt g 0 = 'W' ∨ charAt g 0 = 'C' ∨ charAt g 0 = 'X')
    (hcolon : charAt g 1 ≠ ':') :
    FuelGaugeExecuteGoldenImage host g log = ⟨some .ERROR_COLON, log, []⟩ := by
  have hpos : 0 < strlen g := strlen_pos_of_first g (by
    rcases hop with h | h | h <;> rw [h] <;> decide)
  have hu : u16 (strlen g) = strlen g := by unfold u16; omega
  have e1 : u16 (0 + 1) = 1 := rfl
  unfold FuelGaugeExecuteGoldenImage
  rw [hu, execLoop, if_pos hpos]
  rcases hop with h | h | h
  · rw [if_pos (Or.inl h)]
    simp only [e1, hcolon, ne_eq, not_false_eq_true, if_true]
  · rw [if_pos (Or.inr h)]
    simp only [e1, hcolon, ne_eq, not_false_eq_true, if_true]
  · have hW : ¬ (charAt g 0 = 'W' ∨ charAt g 0 = 'C') := by rw [h]; decide
    rw [if_neg hW, if_pos h]
    simp only [e1, hcolon, ne_eq, not_false_eq_true, if_true]

/-- C3 (amended) on the script `"W0102\n"`. -/
theorem missing_colon_no_bus_traffic_witness :
    FuelGaugeExecuteGoldenImage (gaugeHolding []) "W0102\n".toList []
      = ⟨some .ERROR_COLON, [], []⟩ :=
  missing_colon_no_bus_traffic (gaugeHolding []) "W0102\n".toList [] (by decide)
    (Or.inl rfl) (by decide)

theorem exec_length_zero (host : Host) (g : List Char) (log : List BusEvent)
    (h : u16 (strlen g) = 0) :
    FuelGaugeExecuteGoldenImage host g log = ⟨some .ERROR_NONE, log, []⟩ := by
  unfold FuelGaugeExecuteGoldenImage
  rw [h]
  rfl

theorem strlen_opcode_filler (n : Nat) : strlen ('W' :: List.replicate n 'A') = n + 1 := by
  have hn : ∀ c ∈ 'W' :: List.replicate n 'A', c ≠ NUL := by
    intro c hc
    simp only [List.mem_cons, List.mem_replicate] at hc
    rcases hc with h | ⟨_, h⟩ <;> rw [h] <;> decide
  have := cString_append ('W' :: List.replicate n 'A') [] hn
  rw [List.append_nil] at this
  unfold strlen
  rw [this]
  simp [cString]

theorem charAt_opcode_filler (n : Nat) : charAt ('W' :: List.replicate (n + 1) 'A') 1 = 'A' := by
  rw [List.replicate_succ]
  rfl

/-- C3 as stated fails on a script of 65536 characters: `length` is a `uint16_t`, it is 0
there, the loop is never entered and the result is `ERROR_NONE`. -/
theorem missing_colon_counterexample :
    charAt ('W' :: List.replicate 65535 'A') 0 = 'W'
      ∧ charAt ('W' :: List.replicate 65535 'A') 1 ≠ ':'
      ∧ FuelGaugeExecuteGoldenImage (gaugeHolding []) ('W' :: List.replicate 65535 'A') []
          = ⟨some .ERROR_NONE, [], []⟩ := by
  refine ⟨rfl, ?_, ?_⟩
  · rw [charAt_opcode_filler 65534]
    decide
  · exact exec_length_zero _ _ _ (by rw [strlen_opcode_filler]; rfl)

/-- C4 fails on the code: on the script `"X:256\n"` the value of `n` at the place of the
delay call is 0, not 256, because `atoi`'s result is stored in the `uint8_t n`; no bus call
is made.  On `"X:100\n"` the value is 100. -/
theorem delay_count_truncated_to_byte (host : Host) (log : List BusEvent) :
    FuelGaugeExecuteGoldenImage host "X:256\n".toList log = ⟨some .ERROR_NONE, log, [0]⟩
      ∧ FuelGaugeExecuteGoldenImage host "X:100\n".toList log
          = ⟨some .ERROR_NONE, log, [100]⟩ := by
  constructor <;> rfl

/-- C7 fails on the code: without the final line feed the last hex pair of the line is not
decoded, because the decode loop asks for more than two characters to be left.  The script
`"W:AA0B0102"` writes the single byte `0x01`, the same line with a line feed writes
`0x01 0x02`, and `"W:AA0B01"` returns `ERROR_COUNT` without any bus call. -/
theorem last_pair_dropped_without_line_feed (host : Host) (log : List BusEvent) :
    FuelGaugeExecuteGoldenImage host "W:AA0B0102".toList log
        = ⟨some .ERROR_NONE, (WriteFlashBlockSafe host 0x55 0x0B [0x01] 1 log).2, []⟩
      ∧ FuelGaugeExecuteGoldenImage host "W:AA0B0102\n".toList log
        = ⟨some .ERROR_NONE, (WriteFlashBlockSafe host 0x55 0x0B [0x01, 0x02] 2 log).2, []⟩
      ∧ FuelGaugeExecuteGoldenImage host "W:AA0B01".toList log
        = ⟨some .ERROR_COUNT, log, []⟩ := by
  refine ⟨?_, ?_, ?_⟩
  · rfl
  · rfl
  · rfl

/-! ## Shape of the bus calls of a run -/

theorem decodePass_fields (g : List Char) (st st2 : DecodeState)
    (h : decodePass g st = some st2) :
    st2.byteNum = u16 (st.byteNum + 1) ∧ st2.index = u16 (u16 (st.index + 1) + 1)
      ∧ st2.buf.length = st.buf.length := by
  unfold decodePass at h
  dsimp only at h
  split at h
  · exact absurd h (by simp)
  · simp only [Option.some.injEq] at h
    rw [← h]
    simp

theorem decodeLoop_byteNum_le (g : List Char) (length : Nat) :
    ∀ (fuel : Nat) (st st2 : DecodeState), decodeLoop g length fuel st = some st2 →
      st.byteNum ≤ 37 → st2.byteNum ≤ 37 := by
  intro fuel
  induction fuel with
  | zero =>
    intro st st2 h hb
    simp only [decodeLoop, Option.some.injEq] at h
    rw [← h]; exact hb
  | succ f ih =>
    intro st st2 h hb
    rw [decodeLoop] at h
    split at h
    · rename_i hc
      split at h
      · exact absurd h (by simp)
      · rename_i st1 hst1
        refine ih st1 st2 h ?_
        rw [(decodePass_fields g st st1 hst1).1]
        simp only [u16]
        omega
    · simp only [Option.some.injEq] at h
      rw [← h]; exact hb

theorem WriteFlashBlockSafe_trace (host : Host) (a r : Nat) (data : List Nat) (n : Nat)
    (log t : List BusEvent) (hn : n ≤ 34) (ht : ScriptTrace t) :
    ∃ env, (WriteFlashBlockSafe host a r data n log).2 = log ++ env ∧ ScriptTrace (env ++ t) := by
  unfold WriteFlashBlockSafe twiOpen twiWrite twiClose
  by_cases ho : host.openResult log FUEL_GAUGE_TWI_SPEED = true
  · simp only [ho, if_true]
    refine ⟨[BusEvent.open FUEL_GAUGE_TWI_SPEED true,
      BusEvent.write a r (data.take n)
        (host.writeResult (log ++ [BusEvent.open FUEL_GAUGE_TWI_SPEED true]) a r (data.take n)),
      BusEvent.close], by simp, ?_⟩
    exact ScriptTrace.wrote _ _ _ _ _ (by rw [List.length_take]; omega) ht
  · rw [Bool.not_eq_true] at ho
    simp only [ho, Bool.false_eq_true, if_false]
    exact ⟨[BusEvent.open FUEL_GAUGE_TWI_SPEED false], rfl, ScriptTrace.refused _ ht⟩

theorem execLoop_trace (host : Host) (g : List Char) (length : Nat) :
    ∀ (fuel index : Nat) (buf : List Char) (log : List BusEvent) (delays : List Nat),
      ∃ new, (execLoop host g length fuel index buf log delays).log = log ++ new
        ∧ ScriptTrace new := by
  intro fuel
  induction fuel with
  | zero => intro index buf log delays; exact ⟨[], by simp [execLoop], ScriptTrace.done⟩
  | succ f ih =>
    intro index buf log delays
    rw [execLoop]
    split
    · split
      · dsimp only
        split
        · exact ⟨[], by simp, ScriptTrace.done⟩
        · split
          · exact ⟨[], by simp, ScriptTrace.done⟩
          · rename_i st hst
            have hnum : st.byteNum ≤ 37 := decodeLoop_byteNum_le g length 36 _ st hst (by simp)
            have hlen : u8 (st.byteNum - 3) ≤ 34 := by unfold u8; omega
            split
            · exact ⟨[], by simp, ScriptTrace.done⟩
            · split
              · obtain ⟨new, h1, h2⟩ := ih (nextLine g length st.index) st.buf
                  (WriteFlashBlockSafe host (st.fgAddress >>> 1) st.fgRegister st.data
                    (u8 (st.byteNum - 3)) log).2 delays
                obtain ⟨env, h3, h4⟩ := WriteFlashBlockSafe_trace host (st.fgAddress >>> 1)
                  st.fgRegister st.data (u8 (st.byteNum - 3)) log new hlen h2
                rw [h1, h3]
                exact ⟨env ++ new, by simp, h4⟩
              · unfold twiOpen ReadFlashBlock twiRead twiClose
                by_cases ho : host.openResult log FUEL_GAUGE_TWI_SPEED = true
                · simp only [ho, if_true]
                  split
                  · refine ⟨[BusEvent.open FUEL_GAUGE_TWI_SPEED true,
                      BusEvent.read (st.fgAddress >>> 1) st.fgRegister (u8 (st.byteNum - 3))
                        (host.readResult (log ++ [BusEvent.open FUEL_GAUGE_TWI_SPEED true])
                          (st.fgAddress >>> 1) st.fgRegister (u8 (st.byteNum - 3))).1,
                      BusEvent.close], by simp, ?_⟩
                    exact ScriptTrace.compared _ _ _ _ _ hlen ScriptTrace.done
                  · obtain ⟨new, h1, h2⟩ := ih (nextLine g length st.index) st.buf
                      (log ++ [BusEvent.open FUEL_GAUGE_TWI_SPEED true] ++
                        [BusEvent.read (st.fgAddress >>> 1) st.fgRegister (u8 (st.byteNum - 3))
                          (host.readResult (log ++ [BusEvent.open FUEL_GAUGE_TWI_SPEED true])
                            (st.fgAddress >>> 1) st.fgRegister (u8 (st.byteNum - 3))).1] ++
                        [BusEvent.close]) delays
                    rw [h1]
                    refine ⟨[BusEvent.open FUEL_GAUGE_TWI_SPEED true,
                      BusEvent.read (st.fgAddress >>> 1) st.fgRegister (u8 (st.byteNum - 3))
                        (host.readResult (log ++ [BusEvent.open FUEL_GAUGE_TWI_SPEED true])
                          (st.fgAddress >>> 1) st.fgRegister (u8 (st.byteNum - 3))).1,
                      BusEvent.close] ++ new, by simp, ?_⟩
                    exact ScriptTrace.compared _ _ _ _ _ hlen h2
                · rw [Bool.not_eq_true] at ho
                  simp only [ho, Bool.false_eq_true, if_false]
                  split
                  · exact ⟨[BusEvent.open FUEL_GAUGE_TWI_SPEED false], rfl,
                      ScriptTrace.refused _ ScriptTrace.done⟩
                  · obtain ⟨new, h1, h2⟩ := ih (nextLine g length st.index) st.buf
                      (log ++ [BusEvent.open FUEL_GAUGE_TWI_SPEED false]) delays
                    rw [h1]
                    exact ⟨[BusEvent.open FUEL_GAUGE_TWI_SPEED false] ++ new, by simp,
                      ScriptTrace.refused _ h2⟩
      · split
        · dsimp only
          split
          · exact ⟨[], by simp, ScriptTrace.done⟩
          · exact ih _ _ _ _
        · exact ⟨[], by simp, ScriptTrace.done⟩
    · exact ⟨[], by simp, ScriptTrace.done⟩

theorem ScriptTrace_payload (t : List BusEvent) (h : ScriptTrace t) :
    ∀ e ∈ t, payloadSize e ≤ 34 := by
  induction h with
  | done => intro e he; simp at he
  | refused t _ ih =>
    intro e he
    simp only [List.mem_cons] at he
    rcases he with h | h
    · rw [h]; simp [payloadSize]
    · exact ih e h
  | wrote d r data ok t hd _ ih =>
    intro e he
    simp only [List.mem_cons] at he
    rcases he with h | h | h | h
    · rw [h]; simp [payloadSize]
    · rw [h]; simpa [payloadSize] using hd
    · rw [h]; simp [payloadSize]
    · exact ih e h
  | compared d r size ok t hs _ ih =>
    intro e he
    simp only [List.mem_cons] at he
    rcases he with h | h | h | h
    · rw [h]; simp [payloadSize]
    · rw [h]; simpa [payloadSize] using hs
    · rw [h]; simp [payloadSize]
    · exact ih e h

/-- C5 (amended): for every script and every bus behaviour, every write and every compare
read that `FuelGaugeExecuteGoldenImage` dispatches carries at most 34 bytes, and the decode
loop leaves `byteNum - 3` at most 34, however many hex pairs the line holds. -/
theorem payload_at_most_34_bytes (host : Host) (g : List Char) (log : List BusEvent) :
    (∃ new, (FuelGaugeExecuteGoldenImage host g log).log = log ++ new
        ∧ ∀ e ∈ new, payloadSize e ≤ 34)
      ∧ ∀ (index : Nat) (buf : List Char) (st : DecodeState),
          decodeLoop g (u16 (strlen g)) 36 ⟨index, 1, List.replicate 34 0, 0, 0, buf⟩ = some st →
            st.byteNum - 3 ≤ 34 := by
  constructor
  · obtain ⟨new, h1, h2⟩ := execLoop_trace host g (u16 (strlen g)) (u16 (strlen g) + 1) 0
      (List.replicate 16 NUL) log []
    exact ⟨new, h1, ScriptTrace_payload new h2⟩
  · intro index buf st h
    have := decodeLoop_byteNum_le g (u16 (strlen g)) 36 _ st h (by simp)
    omega

/-- C5 (amended) on a `W` line that holds 36 hex pairs. -/
theorem payload_at_most_34_bytes_witness :
    ∃ new, (FuelGaugeExecuteGoldenImage (gaugeHolding [])
        (wLine 0xAA 0x0B (List.replicate 34 0x11) ++ ['\n']) []).log = [] ++ new
      ∧ ∀ e ∈ new, payloadSize e ≤ 34 :=
  (payload_at_most_34_bytes (gaugeHolding [])
    (wLine 0xAA 0x0B (List.replicate 34 0x11) ++ ['\n']) []).1

/-- C5 as stated fails: a `W` line with 36 hex pairs (device, register and 34 payload
bytes) makes a write of 34 bytes, more than 31. -/
theorem payload_cap_counterexample :
    (FuelGaugeExecuteGoldenImage (gaugeHolding [])
        (wLine 0xAA 0x0B (List.replicate 34 0x11) ++ ['\n']) []).log.map payloadSize
      = [0, 34, 0] := by
  decide

/-! ## Bracketing of the bus calls of the public operations -/

theorem bracketed_append (b : List BusEvent) :
    ∀ (a : List BusEvent) (s : Bool), bracketed s a = true →
      bracketed s (a ++ b) = bracketed false b := by
  intro a
  induction a with
  | nil => intro s h; cases s <;> simp_all [bracketed]
  | cons e a ih =>
    intro s h
    rcases e with ⟨sp, ok⟩ | ⟨d, r, data, ok⟩ | ⟨d, r, n, ok⟩ | _ <;> cases s <;>
      simp only [bracketed, List.cons_append, Bool.false_eq_true] at h ⊢ <;> exact ih _ h

theorem wellBracketed_append (a b : List BusEvent) (ha : wellBracketed a = true)
    (hb : wellBracketed b = true) : wellBracketed (a ++ b) = true := by
  unfold wellBracketed at *
  rw [bracketed_append b a false ha, hb]

theorem Extends.trans {a b c : List BusEvent} (h1 : Extends a b) (h2 : Extends b c) :
    Extends a c := by
  obtain ⟨n1, e1, w1⟩ := h1
  obtain ⟨n2, e2, w2⟩ := h2
  exact ⟨n1 ++ n2, by rw [e2, e1, List.append_assoc], wellBracketed_append n1 n2 w1 w2⟩

theorem WriteFlashBlockSafe_extends (host : Host) (a r : Nat) (data : List Nat) (n : Nat)
    (log : List BusEvent) : Extends log (WriteFlashBlockSafe host a r data n log).2 := by
  unfold WriteFlashBlockSafe twiOpen twiWrite twiClose
  by_cases ho : host.openResult log FUEL_GAUGE_TWI_SPEED = true
  · simp only [ho, if_true]
    exact ⟨[BusEvent.open FUEL_GAUGE_TWI_SPEED true, BusEvent.write a r (data.take n)
      (host.writeResult (log ++ [BusEvent.open FUEL_GAUGE_TWI_SPEED true]) a r (data.take n)),
      BusEvent.close], by simp, rfl⟩
  · rw [Bool.not_eq_true] at ho
    simp only [ho, Bool.false_eq_true, if_false]
    exact ⟨[BusEvent.open FUEL_GAUGE_TWI_SPEED false], rfl, rfl⟩

theorem GetCommon_extends (host : Host) (reg v : Nat) (log : List BusEvent) :
    Extends log (GetCommon host reg v log).2.2 := by
  unfold GetCommon twiOpen twiRead twiClose
  by_cases ho : host.openResult log FUEL_GAUGE_TWI_SPEED = true
  · simp only [ho, if_true]
    exact ⟨[BusEvent.open FUEL_GAUGE_TWI_SPEED true, BusEvent.read FUEL_GAUGE_I2C_ADDRESS reg 2
      (host.readResult (log ++ [BusEvent.open FUEL_GAUGE_TWI_SPEED true])
        FUEL_GAUGE_I2C_ADDRESS reg 2).1, BusEvent.close], by simp, rfl⟩
  · rw [Bool.not_eq_true] at ho
    simp only [ho, Bool.false_eq_true, if_false]
    exact ⟨[BusEvent.open FUEL_GAUGE_TWI_SPEED false], rfl, rfl⟩

theorem PrimedReadOperation_extends (host : Host) (reg : Nat) (cmd : List Nat) (n : Nat)
    (data : List Nat) (m : Nat) (log : List BusEvent) :
    Extends log (PrimedReadOperation host reg cmd n data m log).2.2 := by
  unfold PrimedReadOperation WriteFlashBlock ReadFlashBlock twiOpen twiWrite twiRead twiClose
  by_cases ho : host.openResult log FUEL_GAUGE_TWI_SPEED = true
  · simp only [ho, if_true, List.append_assoc, List.cons_append, List.nil_append]
    exact ⟨_, rfl, rfl⟩
  · rw [Bool.not_eq_true] at ho
    simp only [ho, Bool.false_eq_true, if_false]
    exact ⟨[BusEvent.open FUEL_GAUGE_TWI_SPEED false], rfl, rfl⟩

theorem ScriptTrace_wellBracketed (t : List BusEvent) (h : ScriptTrace t) :
    wellBracketed t = true := by
  induction h with
  | done => rfl
  | refused t _ ih => simpa [wellBracketed, bracketed] using ih
  | wrote d r data ok t _ _ ih => simpa [wellBracketed, bracketed] using ih
  | compared d r size ok t _ _ ih => simpa [wellBracketed, bracketed] using ih

theorem IsImpedanceTrackingEnabled_extends (host : Host) (log : List BusEvent) :
    Extends log (IsImpedanceTrackingEnabled host log).2 :=
  PrimedReadOperation_extends host _ _ _ _ _ log

theorem IsLifetimeTrackingEnabled_extends (host : Host) (log : List BusEvent) :
    Extends log (IsLifetimeTrackingEnabled host log).2 :=
  PrimedReadOperation_extends host _ _ _ _ _ log

theorem sendKey_extends (host : Host) (k1 k2 : List Nat) (log : List BusEvent) :
    Extends log
      (if (twiOpen host FUEL_GAUGE_TWI_SPEED log).1 = true then
        ((WriteFlashBlock host FUEL_GAUGE_REG_ALT_MNFG_ACCESS k1 2
            (twiOpen host FUEL_GAUGE_TWI_SPEED log).2).1
          && (WriteFlashBlock host FUEL_GAUGE_REG_ALT_MNFG_ACCESS k2 2
            (WriteFlashBlock host FUEL_GAUGE_REG_ALT_MNFG_ACCESS k1 2
              (twiOpen host FUEL_GAUGE_TWI_SPEED log).2).2).1,
          twiClose (WriteFlashBlock host FUEL_GAUGE_REG_ALT_MNFG_ACCESS k2 2
            (WriteFlashBlock host FUEL_GAUGE_REG_ALT_MNFG_ACCESS k1 2
              (twiOpen host FUEL_GAUGE_TWI_SPEED log).2).2).2)
      else (false, (twiOpen host FUEL_GAUGE_TWI_SPEED log).2)).2 := by
  unfold WriteFlashBlock twiOpen twiWrite twiClose
  by_cases ho : host.openResult log FUEL_GAUGE_TWI_SPEED = true
  · simp only [ho, if_true, List.append_assoc, List.cons_append, List.nil_append]
    exact ⟨_, rfl, rfl⟩
  · rw [Bool.not_eq_true] at ho
    simp only [ho, Bool.false_eq_true, if_false]
    exact ⟨[BusEvent.open FUEL_GAUGE_TWI_SPEED false], rfl, rfl⟩

theorem FuelGaugeExitRomMode_extends (host : Host) (log : List BusEvent) :
    Extends log (FuelGaugeExitRomMode host log).2 := by
  unfold FuelGaugeExitRomMode twiOpen twiWrite twiClose
  by_cases ho : host.openResult log TwiSpeed.TWI_400KHZ = true
  · simp only [ho, if_true, List.append_assoc, List.cons_append, List.nil_append]
    exact ⟨_, rfl, rfl⟩
  · rw [Bool.not_eq_true] at ho
    simp only [ho, Bool.false_eq_true, if_false]
    exact ⟨[BusEvent.open TwiSpeed.TWI_400KHZ false], rfl, rfl⟩

theorem toggles_extend (host : Host) (log : List BusEvent) :
    Extends log (FuelGaugeEnableImpedanceTracking host log).2
      ∧ Extends log (FuelGaugeDisableImpedanceTracking host log).2
      ∧ Extends log (FuelGaugeEnableLifetimeTracking host log).2
      ∧ Extends log (FuelGaugeDisableLifetimeTracking host log).2 := by
  have hI := IsImpedanceTrackingEnabled_extends host
  have hL := IsLifetimeTrackingEnabled_extends host
  have hW := WriteFlashBlockSafe_extends host
  refine ⟨?_, ?_, ?_, ?_⟩
  · unfold FuelGaugeEnableImpedanceTracking
    dsimp only
    split
    · exact hI log
    · exact ((hI log).trans (hW _ _ _ _ _)).trans (hI _)
  · unfold FuelGaugeDisableImpedanceTracking
    dsimp only
    split
    · exact ((hI log).trans (hW _ _ _ _ _)).trans (hI _)
    · exact (hI log).trans (hI _)
  · unfold FuelGaugeEnableLifetimeTracking
    dsimp only
    split
    · exact hL log
    · exact ((hL log).trans (hW _ _ _ _ _)).trans (hL _)
  · unfold FuelGaugeDisableLifetimeTracking
    dsimp only
    split
    · exact ((hI log).trans (hW _ _ _ _ _)).trans (hL _)
    · exact (hI log).trans (hL _)

/-- C8: for every public operation and every bus behaviour, the bus calls the operation
adds to the log are well bracketed: reads and writes happen only between an accepted open
and its close, every accepted open is closed exactly once whatever the inner call returned,
and a refused open is followed by no read, write or close of its own. -/
theorem public_operations_well_bracketed (op : PublicOperation) (host : Host)
    (log : List BusEvent) :
    ∃ new, op.busLog host log = log ++ new ∧ wellBracketed new = true := by
  have hT := toggles_extend host log
  cases op with
  | GetControlStatus v => exact GetCommon_extends host _ v log
  | GetVoltage v => exact GetCommon_extends host _ v log
  | GetBatteryStatus v => exact GetCommon_extends host _ v log
  | GetManufacturingStatus => exact PrimedReadOperation_extends host _ _ _ _ _ log
  | GetOperationStatus => exact PrimedReadOperation_extends host _ _ _ _ _ log
  | GetGaugingStatus => exact PrimedReadOperation_extends host _ _ _ _ _ log
  | GetChargingStatus => exact PrimedReadOperation_extends host _ _ _ _ _ log
  | GetChemId => exact PrimedReadOperation_extends host _ _ _ _ _ log
  | GetUpdateStatus => exact PrimedReadOperation_extends host _ _ _ _ _ log
  | GetCurrent v => exact GetCommon_extends host _ v log
  | GetRemainingCapacity v => exact GetCommon_extends host _ v log
  | GetFullChargeCapacity v => exact GetCommon_extends host _ v log
  | GetRelativeSoc v => exact GetCommon_extends host _ v log
  | GetSoh v => exact GetCommon_extends host _ v log
  | GetCapacity v => exact GetCommon_extends host _ v log
  | EnableImpedanceTracking => exact hT.1
  | DisableImpedanceTracking => exact hT.2.1
  | EnableLifetimeTracking => exact hT.2.2.1
  | DisableLifetimeTracking => exact hT.2.2.2
  | Reset => exact WriteFlashBlockSafe_extends host _ _ _ _ log
  | Unseal => exact sendKey_extends host _ _ log
  | FullAccess => exact sendKey_extends host _ _ log
  | Seal => exact WriteFlashBlockSafe_extends host _ _ _ _ log
  | ResetLifetimeHistory => exact WriteFlashBlockSafe_extends host _ _ _ _ log
  | ExitRomMode => exact FuelGaugeExitRomMode_extends host log
  | ExecuteGoldenImage g =>
    obtain ⟨new, h1, h2⟩ := execLoop_trace host g (u16 (strlen g)) (u16 (strlen g) + 1) 0
      (List.replicate 16 NUL) log []
    exact ⟨new, h1, ScriptTrace_wellBracketed new h2⟩

/-! ## A bus that never opens; unseal -/

theorem IsImpedanceTrackingEnabled_dead (host : Host)
    (h : ∀ l s, host.openResult l s = false) (log : List BusEvent) :
    IsImpedanceTrackingEnabled host log = (true, log ++ [BusEvent.open FUEL_GAUGE_TWI_SPEED false]) := by
  simp [IsImpedanceTrackingEnabled, FuelGaugeGetManufacturingStatus, PrimedReadOperation, twiOpen, h]
  decide

theorem IsLifetimeTrackingEnabled_dead (host : Host)
    (h : ∀ l s, host.openResult l s = false) (log : List BusEvent) :
    IsLifetimeTrackingEnabled host log = (true, log ++ [BusEvent.open FUEL_GAUGE_TWI_SPEED false]) := by
  simp [IsLifetimeTrackingEnabled, FuelGaugeGetManufacturingStatus, PrimedReadOperation, twiOpen, h]
  decide

/-- C9 fails on the code: when every bus acquisition fails, the four tracking toggles
return `true`, because the status they test is assembled from the `0xff` bytes the buffer
was initialised with; every other boolean operation returns `false`. -/
theorem toggles_return_true_on_dead_bus (host : Host)
    (h : ∀ l s, host.openResult l s = false) (log : List BusEvent) (op : PublicOperation) :
    op.returned host log =
      match op with
      | PublicOperation.EnableImpedanceTracking => some true
      | PublicOperation.DisableImpedanceTracking => some true
      | PublicOperation.EnableLifetimeTracking => some true
      | PublicOperation.DisableLifetimeTracking => some true
      | PublicOperation.ExecuteGoldenImage _ => none
      | _ => some false := by
  have hI := IsImpedanceTrackingEnabled_dead host h
  have hL := IsLifetimeTrackingEnabled_dead host h
  cases op <;>
    simp [PublicOperation.returned, FuelGaugeGetControlStatus, FuelGaugeGetVoltage,
      FuelGaugeGetBatteryStatus, FuelGaugeGetManufacturingStatus, FuelGaugeGetOperationStatus,
      FuelGaugeGetGaugingStatus, FuelGaugeGetChargingStatus, FuelGaugeGetChemId,
      FuelGaugeGetUpdateStatus, FuelGaugeGetCurrent, FuelGaugeGetRemainingCapacity,
      FuelGaugeGetFullChargeCapacity, FuelGaugeGetRelativeSoc, FuelGaugeGetSoh,
      FuelGaugeGetCapacity, FuelGaugeEnableImpedanceTracking, FuelGaugeDisableImpedanceTracking,
      FuelGaugeEnableLifetimeTracking, FuelGaugeDisableLifetimeTracking, FuelGaugeReset,
      FuelGaugeUnseal, FuelGaugeFullAccess, FuelGaugeSeal, FuelGaugeResetLifetimeHistory,
      FuelGaugeExitRomMode, GetCommon, PrimedReadOperation, WriteFlashBlockSafe, twiOpen, h, hI, hL]

/-- C9 on a bus that never opens: `FuelGaugeEnableImpedanceTracking` returns `true`. -/
theorem toggles_return_true_on_dead_bus_witness :
    (FuelGaugeEnableImpedanceTracking deadBus []).1 = true :=
  Option.some.inj (toggles_return_true_on_dead_bus deadBus (fun _ _ => rfl) []
    PublicOperation.EnableImpedanceTracking)

/-- C10: `FuelGaugeUnseal` opens the bus once; when the open is accepted it issues exactly two
writes to register `0x3E` at device `0x55`, first the bytes `0x04 0x14`, then `0x36 0x72`,
closes once and returns the conjunction of the two write results; when the open is refused
it makes no other call and returns `false`.  So it returns `true` exactly when the open and
both writes succeeded. -/
theorem unseal_two_writes_one_envelope (host : Host) (log : List BusEvent) :
    FuelGaugeUnseal host log =
        (if host.openResult log TwiSpeed.TWI_100KHZ = true then
          (host.writeResult (log ++ [BusEvent.open TwiSpeed.TWI_100KHZ true]) 0x55 0x3E [0x04, 0x14]
            && host.writeResult (log ++ [BusEvent.open TwiSpeed.TWI_100KHZ true,
                BusEvent.write 0x55 0x3E [0x04, 0x14]
                  (host.writeResult (log ++ [BusEvent.open TwiSpeed.TWI_100KHZ true]) 0x55 0x3E
                    [0x04, 0x14])]) 0x55 0x3E [0x36, 0x72],
            log ++ [BusEvent.open TwiSpeed.TWI_100KHZ true,
              BusEvent.write 0x55 0x3E [0x04, 0x14]
                (host.writeResult (log ++ [BusEvent.open TwiSpeed.TWI_100KHZ true]) 0x55 0x3E
                  [0x04, 0x14]),
              BusEvent.write 0x55 0x3E [0x36, 0x72]
                (host.writeResult (log ++ [BusEvent.open TwiSpeed.TWI_100KHZ true,
                  BusEvent.write 0x55 0x3E [0x04, 0x14]
                    (host.writeResult (log ++ [BusEvent.open TwiSpeed.TWI_100KHZ true]) 0x55 0x3E
                      [0x04, 0x14])]) 0x55 0x3E [0x36, 0x72]),
              BusEvent.close])
        else (false, log ++ [BusEvent.open TwiSpeed.TWI_100KHZ false]))
      ∧ ((FuelGaugeUnseal host log).1 = true ↔
          (host.openResult log TwiSpeed.TWI_100KHZ = true
            ∧ host.writeResult (log ++ [BusEvent.open TwiSpeed.TWI_100KHZ true]) 0x55 0x3E
                [0x04, 0x14] = true
            ∧ host.writeResult (log ++ [BusEvent.open TwiSpeed.TWI_100KHZ true,
                BusEvent.write 0x55 0x3E [0x04, 0x14] true]) 0x55 0x3E [0x36, 0x72] = true)) := by
  have heq : FuelGaugeUnseal host log =
        (if host.openResult log TwiSpeed.TWI_100KHZ = true then
          (host.writeResult (log ++ [BusEvent.open TwiSpeed.TWI_100KHZ true]) 0x55 0x3E [0x04, 0x14]
            && host.writeResult (log ++ [BusEvent.open TwiSpeed.TWI_100KHZ true,
                BusEvent.write 0x55 0x3E [0x04, 0x14]
                  (host.writeResult (log ++ [BusEvent.open TwiSpeed.TWI_100KHZ true]) 0x55 0x3E
                    [0x04, 0x14])]) 0x55 0x3E [0x36, 0x72],
            log ++ [BusEvent.open TwiSpeed.TWI_100KHZ true,
              BusEvent.write 0x55 0x3E [0x04, 0x14]
                (host.writeResult (log ++ [BusEvent.open TwiSpeed.TWI_100KHZ true]) 0x55 0x3E
                  [0x04, 0x14]),
              BusEvent.write 0x55 0x3E [0x36, 0x72]
                (host.writeResult (log ++ [BusEvent.open TwiSpeed.TWI_100KHZ true,
                  BusEvent.write 0x55 0x3E [0x04, 0x14]
                    (host.writeResult (log ++ [BusEvent.open TwiSpeed.TWI_100KHZ true]) 0x55 0x3E
                      [0x04, 0x14])]) 0x55 0x3E [0x36, 0x72]),
              BusEvent.close])
        else (false, log ++ [BusEvent.open TwiSpeed.TWI_100KHZ false])) := by
    by_cases ho : host.openResult log TwiSpeed.TWI_100KHZ = true
    · simp [FuelGaugeUnseal, WriteFlashBlock, twiOpen, twiWrite, twiClose, unsealKey,
        FUEL_GAUGE_TWI_SPEED, FUEL_GAUGE_I2C_ADDRESS, FUEL_GAUGE_REG_ALT_MNFG_ACCESS, ho]
    · rw [Bool.not_eq_true] at ho
      simp [FuelGaugeUnseal, twiOpen, FUEL_GAUGE_TWI_SPEED, ho]
  refine ⟨heq, ?_⟩
  rw [heq]
  by_cases ho : host.openResult log TwiSpeed.TWI_100KHZ = true
  · cases hw : host.writeResult (log ++ [BusEvent.open TwiSpeed.TWI_100KHZ true]) 0x55 0x3E
      [0x04, 0x14] <;> simp [ho, hw]
  · rw [Bool.not_eq_true] at ho
    simp [ho]

/-! ## Malformed hex pairs -/

theorem hex_mem_hexChars (c : Char) (v : Nat) (h : digitValue c = some v) (hv : v < 16) :
    c ∈ hexChars := by
  have hc : c = Char.ofNat c.toNat := (Char.ofNat_toNat c).symm
  unfold digitValue at h
  simp only [show '0'.toNat = 48 from rfl, show '9'.toNat = 57 from rfl,
    show 'a'.toNat = 97 from rfl, show 'z'.toNat = 122 from rfl,
    show 'A'.toNat = 65 from rfl, show 'Z'.toNat = 90 from rfl] at h
  generalize c.toNat = n at h hc
  subst hc
  split at h
  · rename_i hr
    obtain ⟨h1, h2⟩ := hr
    interval_cases n <;> decide
  · split at h
    · rename_i hr
      simp only [Option.some.injEq] at h
      have : n ≤ 102 := by omega
      obtain ⟨h1, h2⟩ := hr
      interval_cases n <;> decide
    · split at h
      · rename_i hr
        simp only [Option.some.injEq] at h
        have : n ≤ 70 := by omega
        obtain ⟨h1, h2⟩ := hr
        interval_cases n <;> decide
      · exact absurd h (by simp)

theorem strtoul_hexChars : ∀ h ∈ hexChars, ∀ l ∈ hexChars,
    strtoul [h, l] 16 = (16 * (digitValue h).getD 0 + (digitValue l).getD 0, 2)
      ∧ h ≠ NUL ∧ l ≠ NUL := by
  decide

theorem isDigitOf_NUL : isDigitOf 16 NUL = false := by decide

theorem strtoul_consumed_lt (a b : Char) (hbad : notHexPair a b = true) :
    (strtoul [a, b] 16).2 < 2 := by
  unfold notHexPair at hbad
  have hN := isDigitOf_NUL
  unfold strtoul
  by_cases hsa : isspace a = true
  · by_cases hsb : isspace b = true
    · simp [List.takeWhile, hsa, hsb]
    · rw [Bool.not_eq_true] at hsb
      by_cases hb1 : b = '-'
      · simp [List.takeWhile, hsa, hsb, hb1]
      · by_cases hb2 : b = '+'
        · simp [List.takeWhile, hsa, hsb, hb2]
        · by_cases hhb : isDigitOf 16 b = true
          · simp [hsa, hhb] at hbad
          · rw [Bool.not_eq_true] at hhb
            simp [List.takeWhile, hsa, hsb, hb1, hb2, hhb]
  · rw [Bool.not_eq_true] at hsa
    by_cases hhb : isDigitOf 16 b = true
    · by_cases ha1 : a = '-'
      · simp [ha1, hhb] at hbad
      · by_cases ha2 : a = '+'
        · simp [ha2, hhb] at hbad
        · by_cases hha : isDigitOf 16 a = true
          · simp [hha, hhb] at hbad
          · rw [Bool.not_eq_true] at hha
            simp [List.takeWhile, hsa, ha1, ha2, hha, hN]
    · rw [Bool.not_eq_true] at hhb
      by_cases ha1 : a = '-'
      · simp [List.takeWhile, hsa, ha1, hhb, hN]
      · by_cases ha2 : a = '+'
        · simp [List.takeWhile, hsa, ha2, hhb, hN]
        · by_cases hha : isDigitOf 16 a = true
          · simp [List.takeWhile, hsa, ha1, ha2, hha, hhb, hN]
          · rw [Bool.not_eq_true] at hha
            simp [List.takeWhile, hsa, ha1, ha2, hha, hN]

/-- A pass of the decode loop over a pair that is not of the accepted form returns
`ERROR_CONV`. -/
theorem decodePass_rejects (g : List Char) (st : DecodeState) (hidx : st.index + 1 < 65536)
    (hbuf : 3 ≤ st.buf.length) (h0 : charAt g st.index ≠ NUL)
    (h1 : charAt g (st.index + 1) ≠ NUL)
    (hbad : notHexPair (charAt g st.index) (charAt g (st.index + 1)) = true) :
    decodePass g st = none := by
  have e1 : u16 (st.index + 1) = st.index + 1 := by unfold u16; omega
  have hlt := strtoul_consumed_lt _ _ hbad
  unfold decodePass
  simp only [e1]
  rw [set_three _ hbuf, cString_pair _ _ _ h0 h1]
  have hne : (charAt g st.index :: charAt g (st.index + 1) :: NUL :: List.drop 3 st.buf).getD
      (strtoul [charAt g st.index, charAt g (st.index + 1)] 16).2 NUL ≠ NUL := by
    generalize (strtoul [charAt g st.index, charAt g (st.index + 1)] 16).2 = k at hlt
    interval_cases k
    · exact h0
    · exact h1
  rw [if_pos hne]

/-- A pass of the decode loop over two hexadecimal digits stores the byte
`16 * high + low`. -/
theorem decodePass_hex (g : List Char) (st : DecodeState) (hv lv : Nat)
    (hidx : st.index + 2 < 65536) (hnum : st.byteNum < 65535) (hbuf : 3 ≤ st.buf.length)
    (hh : digitValue (charAt g st.index) = some hv) (hhv : hv < 16)
    (hl : digitValue (charAt g (st.index + 1)) = some lv) (hlv : lv < 16) :
    decodePass g st
      = some (decodeStore st (charAt g st.index) (charAt g (st.index + 1)) (16 * hv + lv)) := by
  obtain ⟨hconv, h0, h1⟩ := strtoul_hexChars _ (hex_mem_hexChars _ hv hh hhv) _
    (hex_mem_hexChars _ lv hl hlv)
  rw [hh, hl] at hconv
  simp only [Option.getD_some] at hconv
  have e1 : u16 (st.index + 1) = st.index + 1 := by unfold u16; omega
  have e2 : u16 (st.index + 1 + 1) = st.index + 2 := by unfold u16; omega
  have e3 : u16 (st.byteNum + 1) = st.byteNum + 1 := by unfold u16; omega
  have e4 : u8 (16 * hv + lv) = 16 * hv + lv := by unfold u8; omega
  unfold decodePass
  simp only [e1, e2, e3]
  rw [set_three _ hbuf, cString_pair _ _ _ h0 h1, hconv]
  simp [e4, decodeStore, set_three _ hbuf]

/-- The decode loop returns `ERROR_CONV` when, after `n` pairs, it meets a pair that is not
of the accepted form. -/
theorem decodeLoop_rejects (g : List Char) (length : Nat) (hlen : length < 65536) :
    ∀ (n fuel : Nat) (st : DecodeState), n < fuel → st.byteNum + n < 37 → 3 ≤ st.buf.length →
      st.index + 2 * n + 2 < length →
      (∀ j, j ≤ 2 * n → charAt g (st.index + j) ≠ '\n') →
      charAt g (st.index + 2 * n) ≠ NUL → charAt g (st.index + 2 * n + 1) ≠ NUL →
      notHexPair (charAt g (st.index + 2 * n)) (charAt g (st.index + 2 * n + 1)) = true →
      decodeLoop g length fuel st = none := by
  intro n
  induction n with
  | zero =>
    intro fuel st hf hnum hbuf hidx hnl h0 h1 hbad
    obtain ⟨f, rfl⟩ : ∃ f, fuel = f + 1 := ⟨fuel - 1, by omega⟩
    have hc : (length : Int) - (st.index : Int) > 2 ∧ st.byteNum < 34 + 3
        ∧ charAt g st.index ≠ '\n' := ⟨by omega, by omega, hnl 0 (by omega)⟩
    rw [decodeLoop, if_pos hc, decodePass_rejects g st (by omega) hbuf (by simpa using h0)
      (by simpa using h1) (by simpa using hbad)]
  | succ n ih =>
    intro fuel st hf hnum hbuf hidx hnl h0 h1 hbad
    obtain ⟨f, rfl⟩ : ∃ f, fuel = f + 1 := ⟨fuel - 1, by omega⟩
    have hc : (length : Int) - (st.index : Int) > 2 ∧ st.byteNum < 34 + 3
        ∧ charAt g st.index ≠ '\n' := ⟨by omega, by omega, hnl 0 (by omega)⟩
    rw [decodeLoop, if_pos hc]
    cases hp : decodePass g st with
    | none => rfl
    | some st2 =>
      obtain ⟨p1, p2, p3⟩ := decodePass_fields g st st2 hp
      have e1 : st2.index = st.index + 2 := by rw [p2]; unfold u16; omega
      have e2 : st2.byteNum = st.byteNum + 1 := by rw [p1]; unfold u16; omega
      have e3 : st2.index + 2 * n = st.index + 2 * (n + 1) := by omega
      have e4 : st2.index + 2 * n + 1 = st.index + 2 * (n + 1) + 1 := by omega
      refine ih f st2 (by omega) (by omega) (by omega) (by omega) ?_ (by rw [e3]; exact h0)
        (by rw [e4]; exact h1) (by rw [e4, e3]; exact hbad)
      intro j hj
      rw [e1, show st.index + 2 + j = st.index + (j + 2) by omega]
      exact hnl (j + 2) (by omega)

theorem charAt_mem (g : List Char) (k : Nat) (hk : k < g.length) : charAt g k ∈ g := by
  unfold charAt
  rw [List.getD_eq_getElem _ _ hk]
  exact List.getElem_mem hk

/-- C6 fails on the code: the check after `strtoul(buf, &pError, 16)` looks at `*pError`
only, and `strtoul` skips a leading white-space character and takes a sign.  The pairs
`" 5"`, `"-1"` and `"+A"` are not made of two hexadecimal digits, yet each is converted
whole: the lines `"W:AA0B 5\n"`, `"W:AA0B-1\n"` and `"W:AA0B+A\n"` return `ERROR_NONE` and
write the bytes `0x05`, `0xFF` and `0x0A` to the gauge, where a pair such as `"ZZ"` gives
`ERROR_CONV` and no bus call. -/
theorem lenient_pair_written_to_gauge :
    isDigitOf 16 ' ' = false ∧ isDigitOf 16 '-' = false ∧ isDigitOf 16 '+' = false
      ∧ FuelGaugeExecuteGoldenImage (gaugeHolding []) "W:AA0B 5\n".toList []
          = ⟨some .ERROR_NONE,
              [BusEvent.open .TWI_100KHZ true, BusEvent.write 0x55 0x0B [0x05] true,
                BusEvent.close], []⟩
      ∧ FuelGaugeExecuteGoldenImage (gaugeHolding []) "W:AA0B-1\n".toList []
          = ⟨some .ERROR_NONE,
              [BusEvent.open .TWI_100KHZ true, BusEvent.write 0x55 0x0B [0xFF] true,
                BusEvent.close], []⟩
      ∧ FuelGaugeExecuteGoldenImage (gaugeHolding []) "W:AA0B+A\n".toList []
          = ⟨some .ERROR_NONE,
              [BusEvent.open .TWI_100KHZ true, BusEvent.write 0x55 0x0B [0x0A] true,
                BusEvent.close], []⟩
      ∧ FuelGaugeExecuteGoldenImage (gaugeHolding []) "W:AA0BZZ\n".toList []
          = ⟨some .ERROR_CONV, [], []⟩ := by
  decide

/-! ## Lines anywhere in the script -/

theorem strlen_append (pre t : List Char) (h : ∀ c ∈ pre, c ≠ NUL) :
    strlen (pre ++ t) = pre.length + strlen t := by
  unfold strlen
  rw [cString_append pre t h, List.length_append]

/-- A pass of the outer loop with the cursor on a well-formed `C` line, wherever the line
stands in the script: the run halts there with `ERROR_MEMCMP` when the bytes read differ
from the expected ones, and otherwise goes on from the first character of the next line. -/
theorem exec_compare_line_at (host : Host) (log : List BusEvent) (d r : Nat) (p b : List Nat)
    (pre rest buf : List Char) (delays : List Nat) (fuel : Nat)
    (hd : d < 256) (hr : r < 256) (hp : ∀ x ∈ p, x < 256)
    (hp1 : 1 ≤ p.length) (hp31 : p.length ≤ 31) (hbl : b.length = p.length)
    (hb256 : ∀ x ∈ b, x < 256) (hpre : ∀ c ∈ pre, c ≠ NUL) (hbuf : buf.length = 16)
    (hfit : strlen (pre ++ (cLine d r p ++ '\n' :: rest)) < 65536)
    (hopen : host.openResult log FUEL_GAUGE_TWI_SPEED = true)
    (hread : (host.readResult (log ++ [BusEvent.open FUEL_GAUGE_TWI_SPEED true]) (d >>> 1) r
      p.length).2 = b) :
    ∃ buf2, buf2.length = 16 ∧
      execLoop host (pre ++ (cLine d r p ++ '\n' :: rest))
          (strlen (pre ++ (cLine d r p ++ '\n' :: rest))) (fuel + 1) pre.length buf log delays
        = if b = p then
            execLoop host (pre ++ (cLine d r p ++ '\n' :: rest))
              (strlen (pre ++ (cLine d r p ++ '\n' :: rest))) fuel
              (pre.length + (cLine d r p).length + 1) buf2
              (log ++ [BusEvent.open FUEL_GAUGE_TWI_SPEED true,
                BusEvent.read (d >>> 1) r p.length
                  (host.readResult (log ++ [BusEvent.open FUEL_GAUGE_TWI_SPEED true]) (d >>> 1) r
                    p.length).1,
                BusEvent.close]) delays
          else
            ⟨some .ERROR_MEMCMP,
              log ++ [BusEvent.open FUEL_GAUGE_TWI_SPEED true,
                BusEvent.read (d >>> 1) r p.length
                  (host.readResult (log ++ [BusEvent.open FUEL_GAUGE_TWI_SPEED true]) (d >>> 1) r
                    p.length).1,
                BusEvent.close], delays⟩ := by
  have hall := bytes_lt_of_line d r p hd hr hp
  have hg : cLine d r p ++ '\n' :: rest = 'C' :: ':' :: (hexBytes (d :: r :: p) ++ '\n' :: rest) :=
    rfl
  have hs := strlen_line 'C' (d :: r :: p) rest (by decide) hall
  have hcl : (cLine d r p).length = 2 + 2 * (p.length + 2) := by
    simp [cLine, hexBytes_length]; omega
  simp only [List.length_cons] at hs
  have hsl := strlen_append pre (cLine d r p ++ '\n' :: rest) hpre
  rw [hg] at hsl
  rw [hs] at hsl
  rw [hcl, hg] at *
  have hat : ∀ k, charAt (pre ++ 'C' :: ':' :: (hexBytes (d :: r :: p) ++ '\n' :: rest))
      (pre.length + k) = charAt ('C' :: ':' :: (hexBytes (d :: r :: p) ++ '\n' :: rest)) k :=
    fun k => charAt_append_right pre _ k
  obtain ⟨buf2, hb2, hstep⟩ := execLoop_C_line host
    (pre ++ 'C' :: ':' :: (hexBytes (d :: r :: p) ++ '\n' :: rest))
    (strlen (pre ++ 'C' :: ':' :: (hexBytes (d :: r :: p) ++ '\n' :: rest))) hfit
    fuel pre.length d r p b buf log delays (by omega) hd hr hp hp1 (by omega)
    (by have := hat 0; rw [Nat.add_zero] at this; rw [this]; rfl)
    (by rw [hat 1]; rfl)
    (by
      intro k hk
      rw [show pre.length + 2 + k = pre.length + (0 + 2 + k) by omega, hat]
      exact charAt_line_hex 'C' (d :: r :: p) rest k (by simpa using hk))
    (by
      rw [show pre.length + 2 + 2 * (p.length + 2) = pre.length + (0 + 2 + 2 * (p.length + 2))
        by omega, hat]
      simpa using charAt_line_end 'C' (d :: r :: p) rest)
    (by omega) hbl hb256 hopen hread
  refine ⟨buf2, by omega, ?_⟩
  rw [hstep]
  rw [show pre.length + 2 + 2 * (p.length + 2) + 1 = pre.length + (2 + 2 * (p.length + 2)) + 1
    by omega]

/-- A script whose first line is a well-formed `C` line: the run halts there with
`ERROR_MEMCMP` when the bytes read differ from the expected ones, and otherwise is the run
of the loop from the first character of the next line. -/
theorem exec_compare_first_line (host : Host) (log : List BusEvent) (d r : Nat) (p b : List Nat)
    (rest : List Char) (hd : d < 256) (hr : r < 256) (hp : ∀ x ∈ p, x < 256)
    (hp1 : 1 ≤ p.length) (hp31 : p.length ≤ 31) (hbl : b.length = p.length)
    (hb256 : ∀ x ∈ b, x < 256)
    (hfit : strlen (cLine d r p ++ '\n' :: rest) < 65536)
    (hopen : host.openResult log FUEL_GAUGE_TWI_SPEED = true)
    (hread : (host.readResult (log ++ [BusEvent.open FUEL_GAUGE_TWI_SPEED true]) (d >>> 1) r
      p.length).2 = b) :
    ∃ buf,
      FuelGaugeExecuteGoldenImage host (cLine d r p ++ '\n' :: rest) log
        = if b = p then
            execLoop host (cLine d r p ++ '\n' :: rest) (strlen (cLine d r p ++ '\n' :: rest))
              (strlen (cLine d r p ++ '\n' :: rest)) ((cLine d r p).length + 1) buf
              (log ++ [BusEvent.open FUEL_GAUGE_TWI_SPEED true,
                BusEvent.read (d >>> 1) r p.length
                  (host.readResult (log ++ [BusEvent.open FUEL_GAUGE_TWI_SPEED true]) (d >>> 1) r
                    p.length).1,
                BusEvent.close]) []
          else
            ⟨some .ERROR_MEMCMP,
              log ++ [BusEvent.open FUEL_GAUGE_TWI_SPEED true,
                BusEvent.read (d >>> 1) r p.length
                  (host.readResult (log ++ [BusEvent.open FUEL_GAUGE_TWI_SPEED true]) (d >>> 1) r
                    p.length).1,
                BusEvent.close], []⟩ := by
  obtain ⟨buf2, _, h⟩ := exec_compare_line_at host log d r p b [] rest (List.replicate 16 NUL) []
    (strlen (cLine d r p ++ '\n' :: rest)) hd hr hp hp1 hp31 hbl hb256
    (by intro c hc; simp at hc) (by simp) (by simpa using hfit) hopen hread
  simp only [List.nil_append, List.length_nil, Nat.zero_add] at h
  refine ⟨buf2, ?_⟩
  unfold FuelGaugeExecuteGoldenImage
  rw [show u16 (strlen (cLine d r p ++ '\n' :: rest)) = strlen (cLine d r p ++ '\n' :: rest)
    by unfold u16; omega]
  exact h

/-- C2: a `C` line with device byte `d`, register byte `r` and 1 to 31 expected bytes `p`,
ended by a line feed, in a script that fits the 16-bit length.  When the bus opens and the
read of `p.length` bytes at device `d >> 1`, register `r` leaves the bytes `b`: wherever the
line stands in the script, the pass of the outer loop that starts on it halts with
`ERROR_MEMCMP` after that one envelope if `b` differs from `p`, and goes on from the first
character of the next line if `b` equals `p`; the same holds of `FuelGaugeExecuteGoldenImage`
on a script that starts with the line; and on the one-line script the code returned is
`ERROR_MEMCMP` exactly when `b` differs from `p`. -/
theorem compare_line_halts_iff_mismatch (host : Host) (log : List BusEvent) (d r : Nat)
    (p b : List Nat) (pre rest buf : List Char) (delays : List Nat) (fuel : Nat)
    (hd : d < 256) (hr : r < 256) (hp : ∀ x ∈ p, x < 256)
    (hp1 : 1 ≤ p.length) (hp31 : p.length ≤ 31) (hbl : b.length = p.length)
    (hb256 : ∀ x ∈ b, x < 256) (hpre : ∀ c ∈ pre, c ≠ NUL) (hbuf : buf.length = 16)
    (hfit : strlen (pre ++ (cLine d r p ++ '\n' :: rest)) < 65536)
    (hopen : host.openResult log FUEL_GAUGE_TWI_SPEED = true)
    (hread : (host.readResult (log ++ [BusEvent.open FUEL_GAUGE_TWI_SPEED true]) (d >>> 1) r
      p.length).2 = b) :
    (∃ buf2, buf2.length = 16 ∧
      execLoop host (pre ++ (cLine d r p ++ '\n' :: rest))
          (strlen (pre ++ (cLine d r p ++ '\n' :: rest))) (fuel + 1) pre.length buf log delays
        = if b = p then
            execLoop host (pre ++ (cLine d r p ++ '\n' :: rest))
              (strlen (pre ++ (cLine d r p ++ '\n' :: rest))) fuel
              (pre.length + (cLine d r p).length + 1) buf2
              (log ++ [BusEvent.open FUEL_GAUGE_TWI_SPEED true,
                BusEvent.read (d >>> 1) r p.length
                  (host.readResult (log ++ [BusEvent.open FUEL_GAUGE_TWI_SPEED true]) (d >>> 1) r
                    p.length).1,
                BusEvent.close]) delays
          else
            ⟨some .ERROR_MEMCMP,
              log ++ [BusEvent.open FUEL_GAUGE_TWI_SPEED true,
                BusEvent.read (d >>> 1) r p.length
                  (host.readResult (log ++ [BusEvent.open FUEL_GAUGE_TWI_SPEED true]) (d >>> 1) r
                    p.length).1,
                BusEvent.close], delays⟩)
    ∧ (∃ buf2,
      FuelGaugeExecuteGoldenImage host (cLine d r p ++ '\n' :: rest) log
        = if b = p then
            execLoop host (cLine d r p ++ '\n' :: rest) (strlen (cLine d r p ++ '\n' :: rest))
              (strlen (cLine d r p ++ '\n' :: rest)) ((cLine d r p).length + 1) buf2
              (log ++ [BusEvent.open FUEL_GAUGE_TWI_SPEED true,
                BusEvent.read (d >>> 1) r p.length
                  (host.readResult (log ++ [BusEvent.open FUEL_GAUGE_TWI_SPEED true]) (d >>> 1) r
                    p.length).1,
                BusEvent.close]) []
          else
            ⟨some .ERROR_MEMCMP,
              log ++ [BusEvent.open FUEL_GAUGE_TWI_SPEED true,
                BusEvent.read (d >>> 1) r p.length
                  (host.readResult (log ++ [BusEvent.open FUEL_GAUGE_TWI_SPEED true]) (d >>> 1) r
                    p.length).1,
                BusEvent.close], []⟩)
    ∧ ((FuelGaugeExecuteGoldenImage host (cLine d r p ++ ['\n']) log).code
        = some .ERROR_MEMCMP ↔ b ≠ p) := by
  have hfit2 : strlen (cLine d r p ++ '\n' :: rest) < 65536 := by
    have := strlen_append pre (cLine d r p ++ '\n' :: rest) hpre
    omega
  refine ⟨exec_compare_line_at host log d r p b pre rest buf delays fuel hd hr hp hp1 hp31 hbl
    hb256 hpre hbuf hfit hopen hread,
    exec_compare_first_line host log d r p b rest hd hr hp hp1 hp31 hbl hb256 hfit2 hopen
    hread, ?_⟩
  have hs : strlen (cLine d r p ++ ['\n']) = 2 + 2 * (p.length + 2) + 1 := by
    have := strlen_line 'C' (d :: r :: p) [] (by decide) (bytes_lt_of_line d r p hd hr hp)
    simpa [strlen, cString] using this
  obtain ⟨buf3, h⟩ := exec_compare_first_line host log d r p b [] hd hr hp hp1 hp31 hbl hb256
    (by rw [hs]; omega) hopen hread
  rw [h]
  by_cases hbp : b = p
  · rw [if_pos hbp, hs]
    have hcl : (cLine d r p).length = 2 + 2 * (p.length + 2) := by
      simp [cLine, hexBytes_length]; omega
    rw [hcl, execLoop_end _ _ _ _ _ _ _ _ (by omega)]
    simp [hbp]
  · rw [if_neg hbp]
    simp [hbp]

/-- C2 on the script `"C:AA0BFF\n"` against a register that holds `0x01`. -/
theorem compare_line_halts_iff_mismatch_witness :
    (FuelGaugeExecuteGoldenImage (gaugeHolding [0x01]) "C:AA0BFF\n".toList []).code
      = some .ERROR_MEMCMP :=
  (compare_line_halts_iff_mismatch (gaugeHolding [0x01]) [] 0xAA 0x0B [0xFF] [0x01] [] []
    (List.replicate 16 NUL) [] 0
    (by decide) (by decide) (by decide) (by decide) (by decide) rfl (by decide) (by decide)
    rfl (by decide) rfl rfl).2.2.2 (by decide)

/-- A pass of the outer loop with the cursor on a `W` or `C` line that holds, after `n`
pairs, a pair that is not of the accepted form, with at least one more character of the
script behind it: `ERROR_CONV`, and no bus call. -/
theorem exec_malformed_line_at (host : Host) (log : List BusEvent) (op a b : Char)
    (before pre tail buf : List Char) (delays : List Nat) (fuel n : Nat)
    (hop : op = 'W' ∨ op = 'C') (hn : pre.length = 2 * n)
    (hn36 : n < 36) (hbefore : ∀ c ∈ before, c ≠ NUL) (hbuf : buf.length = 16)
    (hpre : ∀ c ∈ pre, c ≠ NUL ∧ c ≠ '\n') (ha : a ≠ NUL) (hanl : a ≠ '\n')
    (hb : b ≠ NUL) (hbad : notHexPair a b = true) (htail : 1 ≤ strlen tail)
    (hfit : strlen (before ++ op :: ':' :: (pre ++ a :: b :: tail)) < 65536) :
    execLoop host (before ++ op :: ':' :: (pre ++ a :: b :: tail))
        (strlen (before ++ op :: ':' :: (pre ++ a :: b :: tail))) (fuel + 1)
        before.length buf log delays
      = ⟨some .ERROR_CONV, log, delays⟩ := by
  have hopN : op ≠ NUL := by rcases hop with h | h <;> rw [h] <;> decide
  have hnn : ∀ c ∈ op :: ':' :: (pre ++ [a, b]), c ≠ NUL := by
    intro c hc
    simp only [List.mem_cons, List.mem_append, List.not_mem_nil, or_false] at hc
    rcases hc with h | h | h | h | h
    · rw [h]; exact hopN
    · rw [h]; decide
    · exact (hpre c h).1
    · rw [h]; exact ha
    · rw [h]; exact hb
  have hs : strlen (op :: ':' :: (pre ++ a :: b :: tail))
      = 2 + 2 * n + 2 + strlen tail := by
    have := cString_append (op :: ':' :: (pre ++ [a, b])) (tail) hnn
    simp only [List.cons_append, List.append_assoc, List.nil_append] at this
    unfold strlen
    rw [this]
    simp only [List.length_cons, List.length_append, hn]
    omega
  have hsl := strlen_append before (op :: ':' :: (pre ++ a :: b :: tail)) hbefore
  rw [hs] at hsl
  have hat : ∀ j, charAt (before ++ op :: ':' :: (pre ++ a :: b :: tail))
      (before.length + 2 + j) = charAt (pre ++ a :: b :: tail) j := by
    intro j
    rw [show before.length + 2 + j = before.length + (j + 1 + 1) by omega,
      charAt_append_right, charAt_cons_succ, charAt_cons_succ]
  have hA : charAt (pre ++ a :: b :: tail) (2 * n) = a := by
    have := charAt_append_right pre (a :: b :: tail) 0
    rw [Nat.add_zero, hn] at this
    rw [this]; rfl
  have hB : charAt (pre ++ a :: b :: tail) (2 * n + 1) = b := by
    have := charAt_append_right pre (a :: b :: tail) 1
    rw [hn] at this
    rw [this]; rfl
  have hdec := decodeLoop_rejects (before ++ op :: ':' :: (pre ++ a :: b :: tail))
    (strlen (before ++ op :: ':' :: (pre ++ a :: b :: tail))) hfit n 36
    ⟨before.length + 2, 1, List.replicate 34 0, 0, 0, buf⟩ hn36 (by simp only; omega)
    (by simp only; omega) (by simp only; omega)
    (by
      intro j hj
      simp only
      rw [hat]
      by_cases hjn : j < pre.length
      · rw [charAt_append_left _ _ _ hjn]
        exact (hpre _ (charAt_mem pre j hjn)).2
      · have : j = 2 * n := by omega
        rw [this, hA]
        exact hanl)
    (by simp only; rw [hat, hA]; exact ha)
    (by
      simp only
      rw [show before.length + 2 + 2 * n + 1 = before.length + 2 + (2 * n + 1) by omega, hat, hB]
      exact hb)
    (by
      simp only
      rw [show before.length + 2 + 2 * n + 1 = before.length + 2 + (2 * n + 1) by omega, hat,
        hat, hA, hB]
      exact hbad)
  have h0 : charAt (before ++ op :: ':' :: (pre ++ a :: b :: tail)) before.length
      = op := by
    have := charAt_append_right before (op :: ':' :: (pre ++ a :: b :: tail)) 0
    rw [Nat.add_zero] at this
    rw [this]; rfl
  have h1 : charAt (before ++ op :: ':' :: (pre ++ a :: b :: tail))
      (before.length + 1) = ':' := by
    rw [charAt_append_right]; rfl
  have hWC : charAt (before ++ op :: ':' :: (pre ++ a :: b :: tail)) before.length = 'W'
      ∨ charAt (before ++ op :: ':' :: (pre ++ a :: b :: tail)) before.length = 'C' := by
    rw [h0]; exact hop
  have e1 : u16 (before.length + 1) = before.length + 1 := by unfold u16; omega
  have e2 : u16 (before.length + 1 + 1) = before.length + 2 := by unfold u16; omega
  rw [execLoop, if_pos (by omega), if_pos hWC]
  simp only [e1, e2, h1, ne_eq, not_true_eq_false, if_false, hdec]

/-- What the conversion check does reject.  In a script of fewer than 65536 characters, a
`W` or `C` line that holds, anywhere among its first 36 two-character pairs before the line
feed, a pair whose second character is no hexadecimal digit or whose first character is
neither a hexadecimal digit, a white-space character nor a sign, makes the pass of the outer
loop that starts on it return `ERROR_CONV` without any bus call, wherever the line stands in
the script and whatever follows the pair on the line; so does `FuelGaugeExecuteGoldenImage`
on a script that starts with the line; and a pass of the decode loop over two hexadecimal
digits never returns `ERROR_CONV` and stores the byte `16 * high + low`. -/
theorem malformed_pair_rejected (host : Host) (log : List BusEvent) (op a b : Char)
    (before pre post rest buf : List Char) (delays : List Nat) (fuel n : Nat)
    (hop : op = 'W' ∨ op = 'C') (hn : pre.length = 2 * n)
    (hn36 : n < 36) (hbefore : ∀ c ∈ before, c ≠ NUL) (hbuf : buf.length = 16)
    (hpre : ∀ c ∈ pre, c ≠ NUL ∧ c ≠ '\n') (ha : a ≠ NUL) (hanl : a ≠ '\n')
    (hb : b ≠ NUL) (hbad : notHexPair a b = true) (hpost : ∀ c ∈ post, c ≠ NUL)
    (hfit : strlen (before ++ op :: ':' :: (pre ++ a :: b :: (post ++ '\n' :: rest))) < 65536) :
    execLoop host (before ++ op :: ':' :: (pre ++ a :: b :: (post ++ '\n' :: rest)))
        (strlen (before ++ op :: ':' :: (pre ++ a :: b :: (post ++ '\n' :: rest)))) (fuel + 1)
        before.length buf log delays
        = ⟨some .ERROR_CONV, log, delays⟩
      ∧ FuelGaugeExecuteGoldenImage host
          (op :: ':' :: (pre ++ a :: b :: (post ++ '\n' :: rest))) log
        = ⟨some .ERROR_CONV, log, []⟩
      ∧ ∀ (g : List Char) (st : DecodeState) (hv lv : Nat), st.index + 2 < 65536 →
          st.byteNum < 37 → 3 ≤ st.buf.length →
          digitValue (charAt g st.index) = some hv → hv < 16 →
          digitValue (charAt g (st.index + 1)) = some lv → lv < 16 →
          decodePass g st = some (decodeStore st (charAt g st.index) (charAt g (st.index + 1))
            (16 * hv + lv)) := by
  have htail : 1 ≤ strlen (post ++ '\n' :: rest) := by
    have h1 := cString_append post ('\n' :: rest) hpost
    have h2 := cString_append ['\n'] rest (by intro c hc; simp at hc; rw [hc]; decide)
    simp only [List.cons_append, List.nil_append] at h2
    unfold strlen
    rw [h1, h2]
    simp only [List.length_append, List.length_cons]
    omega
  refine ⟨exec_malformed_line_at host log op a b before pre (post ++ '\n' :: rest) buf delays
    fuel n hop hn hn36 hbefore hbuf hpre ha hanl hb hbad htail hfit, ?_,
    fun g st hv lv h1 h2 h3 h4 h5 h6 h7 =>
      decodePass_hex g st hv lv h1 (by omega) h3 h4 h5 h6 h7⟩
  have hfit2 : strlen (op :: ':' :: (pre ++ a :: b :: (post ++ '\n' :: rest))) < 65536 := by
    have := strlen_append before (op :: ':' :: (pre ++ a :: b :: (post ++ '\n' :: rest)))
      hbefore
    omega
  have h := exec_malformed_line_at host log op a b [] pre (post ++ '\n' :: rest)
    (List.replicate 16 NUL) []
    (strlen (op :: ':' :: (pre ++ a :: b :: (post ++ '\n' :: rest)))) n hop hn hn36
    (by intro c hc; simp at hc) (by simp) hpre ha hanl hb hbad htail (by simpa using hfit2)
  simp only [List.nil_append, List.length_nil] at h
  unfold FuelGaugeExecuteGoldenImage
  rw [show u16 (strlen (op :: ':' :: (pre ++ a :: b :: (post ++ '\n' :: rest))))
    = strlen (op :: ':' :: (pre ++ a :: b :: (post ++ '\n' :: rest))) by unfold u16; omega]
  exact h

/-- The check at work on the script `"W:ZZ0B01\n"`, whose first pair is no hexadecimal
byte. -/
theorem malformed_pair_rejected_witness :
    FuelGaugeExecuteGoldenImage (gaugeHolding []) "W:ZZ0B01\n".toList []
      = ⟨some .ERROR_CONV, [], []⟩ :=
  (malformed_pair_rejected (gaugeHolding []) [] 'W' 'Z' 'Z' [] [] "0B01".toList []
    (List.replicate 16 NUL) [] 0 0 (Or.inl rfl) rfl
    (by decide) (by decide) (by decide) (by decide) (by decide) (by decide) (by decide)
    (by decide) (by decide) (by decide)).2.1

/-! ## Tracking toggles -/

theorem statusRead_log (host : Host) (log : List BusEvent)
    (h : (FuelGaugeGetManufacturingStatus host log).1 = true) :
    (FuelGaugeGetManufacturingStatus host log).2.2 = log ++ statusReadCalls := by
  unfold FuelGaugeGetManufacturingStatus PrimedReadOperation WriteFlashBlock ReadFlashBlock
    twiOpen twiWrite twiRead twiClose at h ⊢
  by_cases ho : host.openResult log FUEL_GAUGE_TWI_SPEED = true
  · simp only [ho, if_true, Bool.and_eq_true] at h ⊢
    simp only [manufacturingStatusCommand, List.length_cons, List.length_nil, List.take] at h ⊢
    obtain ⟨hw, hr⟩ := h
    rw [hw] at hr ⊢
    rw [hr]
    simp [statusReadCalls]
  · rw [Bool.not_eq_true] at ho
    simp [ho] at h

theorem WriteFlashBlockSafe_open (host : Host) (log : List BusEvent) (cmd : List Nat)
    (h : host.openResult log FUEL_GAUGE_TWI_SPEED = true) :
    (WriteFlashBlockSafe host FUEL_GAUGE_I2C_ADDRESS FUEL_GAUGE_REG_ALT_MNFG_ACCESS cmd
      cmd.length log).2 = log ++ toggleCalls host log cmd := by
  simp [WriteFlashBlockSafe, twiOpen, twiWrite, twiClose, h, toggleCalls]

/-- C11 (amended): when the Manufacturing Status reads succeed, `FuelGaugeEnableImpedanceTracking`
(bit 3, command `0x21 0x00`) and `FuelGaugeEnableLifetimeTracking` (bit 5, command
`0x23 0x00`) make no call beyond the status read and return `true` if the bit is already
set; if the bit is clear and the bus acquisition for the toggle command succeeds, they issue
exactly one toggle-command write to register `0x3E` at device `0x55`, then exactly one
confirming Manufacturing Status read, and return the bit of that read. -/
theorem enable_toggles_idempotent (host : Host) (log : List BusEvent)
    (hread : (FuelGaugeGetManufacturingStatus host log).1 = true) :
    (BIT_IS_SET (FuelGaugeGetManufacturingStatus host log).2.1 3 = true →
        FuelGaugeEnableImpedanceTracking host log = (true, log ++ statusReadCalls))
    ∧ (BIT_IS_SET (FuelGaugeGetManufacturingStatus host log).2.1 3 = false →
        host.openResult (log ++ statusReadCalls) FUEL_GAUGE_TWI_SPEED = true →
        (FuelGaugeGetManufacturingStatus host
          (log ++ statusReadCalls ++ toggleCalls host (log ++ statusReadCalls) [0x21, 0x00])).1
          = true →
        FuelGaugeEnableImpedanceTracking host log
          = (BIT_IS_SET (FuelGaugeGetManufacturingStatus host
              (log ++ statusReadCalls
                ++ toggleCalls host (log ++ statusReadCalls) [0x21, 0x00])).2.1 3,
            log ++ statusReadCalls ++ toggleCalls host (log ++ statusReadCalls) [0x21, 0x00]
              ++ statusReadCalls))
    ∧ (BIT_IS_SET (FuelGaugeGetManufacturingStatus host log).2.1 5 = true →
        FuelGaugeEnableLifetimeTracking host log = (true, log ++ statusReadCalls))
    ∧ (BIT_IS_SET (FuelGaugeGetManufacturingStatus host log).2.1 5 = false →
        host.openResult (log ++ statusReadCalls) FUEL_GAUGE_TWI_SPEED = true →
        (FuelGaugeGetManufacturingStatus host
          (log ++ statusReadCalls ++ toggleCalls host (log ++ statusReadCalls) [0x23, 0x00])).1
          = true →
        FuelGaugeEnableLifetimeTracking host log
          = (BIT_IS_SET (FuelGaugeGetManufacturingStatus host
              (log ++ statusReadCalls
                ++ toggleCalls host (log ++ statusReadCalls) [0x23, 0x00])).2.1 5,
            log ++ statusReadCalls ++ toggleCalls host (log ++ statusReadCalls) [0x23, 0x00]
              ++ statusReadCalls)) := by
  have hl := statusRead_log host log hread
  refine ⟨?_, ?_, ?_, ?_⟩
  · intro hb
    simp only [FuelGaugeEnableImpedanceTracking, IsImpedanceTrackingEnabled,
      FUEL_GAUGE_IT_ENABLED_BIT, hb, if_true, hl]
  · intro hb ho hr2
    have hw := WriteFlashBlockSafe_open host (log ++ statusReadCalls) [0x21, 0x00] ho
    have hl2 := statusRead_log host _ hr2
    simp only [FuelGaugeEnableImpedanceTracking, IsImpedanceTrackingEnabled,
      FUEL_GAUGE_IT_ENABLED_BIT, hb, Bool.false_eq_true, if_false, hl,
      enableImpedanceTrackingCommand] at hw ⊢
    rw [hw, hl2]
  · intro hb
    simp only [FuelGaugeEnableLifetimeTracking, IsLifetimeTrackingEnabled,
      FUEL_GAUGE_LF_ENABLED_BIT, hb, if_true, hl]
  · intro hb ho hr2
    have hw := WriteFlashBlockSafe_open host (log ++ statusReadCalls) [0x23, 0x00] ho
    have hl2 := statusRead_log host _ hr2
    simp only [FuelGaugeEnableLifetimeTracking, IsLifetimeTrackingEnabled,
      FUEL_GAUGE_LF_ENABLED_BIT, hb, Bool.false_eq_true, if_false, hl,
      lifetimeTrackingCommand] at hw ⊢
    rw [hw, hl2]

/-- C11 (amended) on a bus whose calls all succeed and whose status reads zero: one write of
`0x21 0x00` between two status reads, and `false` returned. -/
theorem enable_toggles_idempotent_witness :
    FuelGaugeEnableImpedanceTracking (gaugeHolding [0, 0, 0, 0]) []
      = (false, [] ++ statusReadCalls
          ++ toggleCalls (gaugeHolding [0, 0, 0, 0]) ([] ++ statusReadCalls) [0x21, 0x00]
          ++ statusReadCalls) :=
  (enable_toggles_idempotent (gaugeHolding [0, 0, 0, 0]) [] rfl).2.1 rfl rfl rfl

/-- C11 as stated fails: with the status reads succeeding and bit 3 clear, a bus that is
busy when the toggle command is to be sent makes `FuelGaugeEnableImpedanceTracking` issue no
toggle-command write at all. -/
theorem enable_toggle_counterexample :
    (FuelGaugeGetManufacturingStatus busyOnce []).1 = true
      ∧ BIT_IS_SET (FuelGaugeGetManufacturingStatus busyOnce []).2.1 3 = false
      ∧ FuelGaugeEnableImpedanceTracking busyOnce []
          = (false, statusReadCalls ++ [BusEvent.open FUEL_GAUGE_TWI_SPEED false]
              ++ statusReadCalls) := by
  decide

/-- C12 fails on the code: `FuelGaugeDisableLifetimeTracking` guards its write with
`IsImpedanceTrackingEnabled` (bit 3), not with bit 5.  With every call succeeding and
Manufacturing Status `0x0008` (impedance tracking on, lifetime tracking off) it issues the
flipping command `0x23 0x00`; with status `0x0020` (lifetime tracking on, impedance tracking
off) it issues no toggle write.  `FuelGaugeDisableImpedanceTracking` tests bit 3, its own
bit. -/
theorem disable_lifetime_guard_tests_impedance_bit :
    FuelGaugeDisableLifetimeTracking (gaugeHolding [0, 0, 0x08, 0]) []
        = (false, statusReadCalls
            ++ toggleCalls (gaugeHolding [0, 0, 0x08, 0]) statusReadCalls [0x23, 0x00]
            ++ statusReadCalls)
      ∧ FuelGaugeDisableLifetimeTracking (gaugeHolding [0, 0, 0x20, 0]) []
        = (true, statusReadCalls ++ statusReadCalls)
      ∧ FuelGaugeDisableImpedanceTracking (gaugeHolding [0, 0, 0x08, 0]) []
        = (true, statusReadCalls
            ++ toggleCalls (gaugeHolding [0, 0, 0x08, 0]) statusReadCalls [0x21, 0x00]
            ++ statusReadCalls)
      ∧ FuelGaugeDisableImpedanceTracking (gaugeHolding [0, 0, 0x20, 0]) []
        = (false, statusReadCalls ++ statusReadCalls) := by
  decide

/-- C13 fails on the code: both disable functions end with `return Is...TrackingEnabled()`,
so for every bus behaviour they return the capability bit of the confirming Manufacturing
Status read itself: `false` when the capability is disabled at the end of the call
(status `0x0000`), `true` when it is still enabled (status `0x0028`). -/
theorem disable_toggles_return_enabled_bit (host : Host) (log : List BusEvent) :
    (∃ before,
        (FuelGaugeDisableImpedanceTracking host log).1
          = BIT_IS_SET (FuelGaugeGetManufacturingStatus host before).2.1 3
        ∧ (FuelGaugeDisableImpedanceTracking host log).2
          = (FuelGaugeGetManufacturingStatus host before).2.2)
      ∧ (∃ before,
        (FuelGaugeDisableLifetimeTracking host log).1
          = BIT_IS_SET (FuelGaugeGetManufacturingStatus host before).2.1 5
        ∧ (FuelGaugeDisableLifetimeTracking host log).2
          = (FuelGaugeGetManufacturingStatus host before).2.2)
      ∧ (FuelGaugeDisableImpedanceTracking (gaugeHolding [0, 0, 0, 0]) []).1 = false
      ∧ (FuelGaugeDisableLifetimeTracking (gaugeHolding [0, 0, 0, 0]) []).1 = false
      ∧ (FuelGaugeDisableImpedanceTracking (gaugeHolding [0, 0, 0x28, 0]) []).1 = true
      ∧ (FuelGaugeDisableLifetimeTracking (gaugeHolding [0, 0, 0x28, 0]) []).1 = true := by
  refine ⟨?_, ?_, by decide, by decide, by decide, by decide⟩
  · unfold FuelGaugeDisableImpedanceTracking
    dsimp only
    split
    · exact ⟨_, rfl, rfl⟩
    · exact ⟨_, rfl, rfl⟩
  · unfold FuelGaugeDisableLifetimeTracking
    dsimp only
    split
    · exact ⟨_, rfl, rfl⟩
    · exact ⟨_, rfl, rfl⟩

/-! ## Scripts of write and delay lines -/

theorem skipLoop_result (g : List Char) (length : Nat) (hlen : length ≤ 65535) :
    ∀ (fuel i : Nat), length ≤ fuel + i →
      length ≤ skipLoop g length fuel i ∨ charAt g (skipLoop g length fuel i) = '\n' := by
  intro fuel
  induction fuel with
  | zero => intro i h; left; simp only [skipLoop]; omega
  | succ f ih =>
    intro i h
    rw [skipLoop]
    split
    · rename_i hc
      have e : u16 (i + 1) = i + 1 := by unfold u16; omega
      rw [e]
      exact ih (i + 1) (by omega)
    · rename_i hc
      by_cases hi : i < length
      · right
        by_contra hn
        exact hc ⟨hi, hn⟩
      · left; omega

theorem nextLine_lineStart (g : List Char) (length : Nat) (hlen : length ≤ 65535) (i : Nat)
    (h : nextLine g length i < length) :
    nextLine g length i ≠ 0 ∧ charAt g (nextLine g length i - 1) = '\n' := by
  unfold nextLine at h ⊢
  dsimp only at h ⊢
  have hs := skipLoop_result g length hlen length i (by omega)
  by_cases hlt : skipLoop g length length i < length
  · rw [if_pos hlt] at h ⊢
    have e : u16 (skipLoop g length length i + 1) = skipLoop g length length i + 1 := by
      unfold u16; omega
    rw [e]
    rcases hs with hs | hs
    · omega
    · exact ⟨by omega, by simpa using hs⟩
  · rw [if_neg hlt] at h
    exact absurd h hlt

/-- The code and the delay counts of a run that only meets `W` and `X` lines do not depend
on the host. -/
theorem execLoop_code_host_independent (g : List Char) (length : Nat) (hlen : length ≤ 65535)
    (hls : length ≤ strlen g) (hwx : onlyWXLines g) :
    ∀ (fuel i : Nat) (buf : List Char) (h1 h2 : Host) (l1 l2 : List BusEvent) (d : List Nat),
      (i < length → (i = 0 ∨ charAt g (i - 1) = '\n')) →
      (execLoop h1 g length fuel i buf l1 d).code = (execLoop h2 g length fuel i buf l2 d).code
        ∧ (execLoop h1 g length fuel i buf l1 d).delays
            = (execLoop h2 g length fuel i buf l2 d).delays := by
  intro fuel
  induction fuel with
  | zero => intro i buf h1 h2 l1 l2 d _; exact ⟨rfl, rfl⟩
  | succ f ih =>
    intro i buf h1 h2 l1 l2 d hstart
    by_cases hi : i < length
    · have hop := hwx i (by omega) (hstart hi)
      rcases hop with hW | hX
      · have hcond : charAt g i = 'W' ∨ charAt g i = 'C' := Or.inl hW
        rw [execLoop, execLoop, if_pos hi, if_pos hi, if_pos hcond, if_pos hcond]
        dsimp only
        by_cases hcol : charAt g (u16 (i + 1)) ≠ ':'
        · rw [if_pos hcol, if_pos hcol]
          exact ⟨rfl, rfl⟩
        · rw [if_neg hcol, if_neg hcol]
          cases hdec : decodeLoop g length 36
              ⟨u16 (u16 (i + 1) + 1), 1, List.replicate 34 0, 0, 0, buf⟩ with
          | none => exact ⟨rfl, rfl⟩
          | some st =>
            dsimp only
            by_cases hnum : st.byteNum < 4
            · rw [if_pos hnum, if_pos hnum]
              exact ⟨rfl, rfl⟩
            · rw [if_neg hnum, if_neg hnum]
              have hw : decide (charAt g i = 'W') = true := by simp [hW]
              rw [if_pos hw, if_pos hw]
              exact ih _ _ _ _ _ _ _ (fun hlt => Or.inr (nextLine_lineStart g length hlen _ hlt).2)
      · have hcond : ¬ (charAt g i = 'W' ∨ charAt g i = 'C') := by rw [hX]; decide
        rw [execLoop, execLoop, if_pos hi, if_pos hi, if_neg hcond, if_neg hcond, if_pos hX,
          if_pos hX]
        dsimp only
        by_cases hcol : charAt g (u16 (i + 1)) ≠ ':'
        · rw [if_pos hcol, if_pos hcol]
          exact ⟨rfl, rfl⟩
        · rw [if_neg hcol, if_neg hcol]
          exact ih _ _ _ _ _ _ _ (fun hlt => Or.inr (nextLine_lineStart g length hlen _ hlt).2)
    · rw [execLoop, execLoop, if_neg hi, if_neg hi]
      exact ⟨rfl, rfl⟩

theorem skipLoop_to_newline (g : List Char) (length : Nat) (hlen : length ≤ 65535) (e : Nat)
    (he : e < length) (hnl : charAt g e = '\n') :
    ∀ (fuel j : Nat), j ≤ e → (∀ k, j ≤ k → k < e → charAt g k ≠ '\n') → e - j ≤ fuel →
      skipLoop g length fuel j = e := by
  intro fuel
  induction fuel with
  | zero => intro j hj _ hf; simp only [skipLoop]; omega
  | succ f ih =>
    intro j hj hch hf
    rw [skipLoop]
    by_cases hje : j = e
    · rw [if_neg (by rw [hje]; simp [hnl]), hje]
    · have hlt : j < e := by omega
      rw [if_pos ⟨by omega, hch j (le_refl j) hlt⟩]
      have e1 : u16 (j + 1) = j + 1 := by unfold u16; omega
      rw [e1]
      exact ih (j + 1) (by omega) (fun k hk1 hk2 => hch k (by omega) hk2) (by omega)

theorem nextLine_to_newline (g : List Char) (length : Nat) (hlen : length ≤ 65535) (j e : Nat)
    (he : e < length) (hnl : charAt g e = '\n') (hj : j ≤ e)
    (hch : ∀ k, j ≤ k → k < e → charAt g k ≠ '\n') : nextLine g length j = e + 1 := by
  unfold nextLine
  rw [skipLoop_to_newline g length hlen e he hnl length j hj hch (by omega)]
  simp only [he, if_true]
  unfold u16
  omega

theorem delayLoop_result (g : List Char) (length : Nat) (hlen : length ≤ 65535) (e : Nat)
    (hnl : charAt g e = '\n') :
    ∀ (fuel j n : Nat) (buf : List Char), j ≤ e →
      j ≤ (delayLoop g length fuel j n buf).1 ∧ (delayLoop g length fuel j n buf).1 ≤ e
        ∧ (delayLoop g length fuel j n buf).2.2.length = buf.length := by
  intro fuel
  induction fuel with
  | zero => intro j n buf hj; rw [delayLoop]; exact ⟨le_refl j, hj, rfl⟩
  | succ f ih =>
    intro j n buf hj
    rw [delayLoop]
    split
    · rename_i hc
      have hje : j ≠ e := by
        intro h
        rw [h] at hc
        exact hc.2.1 hnl
      have e1 : u16 (j + 1) = j + 1 := by unfold u16; omega
      rw [e1]
      obtain ⟨h1, h2, h3⟩ := ih (j + 1) (u8 (n + 1)) (buf.set n (charAt g j)) (by omega)
      exact ⟨by omega, h2, by rw [h3, List.length_set]⟩
    · exact ⟨le_refl j, hj, rfl⟩

/-- A pass of the outer loop with the cursor on an `X` line that ends in a line feed: no bus
call, one more delay count, and the cursor on the first character of the next line. -/
theorem execLoop_X_line (host : Host) (g : List Char) (length : Nat) (hlen : length ≤ 65535)
    (fuel i e : Nat) (buf : List Char) (log : List BusEvent) (delays : List Nat)
    (hX : charAt g i = 'X') (hcolon : charAt g (i + 1) = ':') (hie : i + 2 ≤ e)
    (hch : ∀ k, i + 2 ≤ k → k < e → charAt g k ≠ '\n')
    (hend : charAt g e = '\n') (he : e < length) :
    ∃ buf2 n, buf2.length = buf.length ∧
      execLoop host g length (fuel + 1) i buf log delays
        = execLoop host g length fuel (e + 1) buf2 log (delays ++ [n]) := by
  have e1 : u16 (i + 1) = i + 1 := by unfold u16; omega
  have e2 : u16 (i + 1 + 1) = i + 2 := by unfold u16; omega
  have hWC : ¬ (charAt g i = 'W' ∨ charAt g i = 'C') := by rw [hX]; decide
  obtain ⟨d1, d2, d3⟩ := delayLoop_result g length hlen e hend 15 (i + 2) 0 buf hie
  have hnext := nextLine_to_newline g length hlen (delayLoop g length 15 (i + 2) 0 buf).1 e he
    hend d2 (fun k hk1 hk2 => hch k (by omega) hk2)
  rw [execLoop, if_pos (by omega), if_neg hWC, if_pos hX]
  simp only [e1, e2, hcolon, ne_eq, not_true_eq_false, if_false, hnext]
  exact ⟨_, _, by rw [List.length_set, d3], rfl⟩

theorem strlen_eq_length (g : List Char) (h : ∀ c ∈ g, c ≠ NUL) : strlen g = g.length := by
  have := cString_append g [] h
  rw [List.append_nil] at this
  unfold strlen
  rw [this]
  simp [cString]

theorem isDigitOf_ten_ne (c : Char) (h : isDigitOf 10 c = true) : c ≠ NUL ∧ c ≠ '\n' := by
  constructor
  · rintro rfl
    revert h
    decide
  · rintro rfl
    revert h
    decide

theorem chars_ne_NUL (l : ScriptLine) (h : l.wellFormed) : ∀ c ∈ l.chars, c ≠ NUL := by
  cases l with
  | W d r p =>
    obtain ⟨hd, hr, hp, _, _⟩ := h
    intro c hc
    simp only [ScriptLine.chars, wLine, List.mem_cons] at hc
    rcases hc with hc | hc | hc
    · rw [hc]; decide
    · rw [hc]; decide
    · exact hexBytes_ne_NUL _ (bytes_lt_of_line d r p hd hr hp) c hc
  | X digits =>
    intro c hc
    simp only [ScriptLine.chars, List.mem_cons] at hc
    rcases hc with hc | hc | hc
    · rw [hc]; decide
    · rw [hc]; decide
    · exact (isDigitOf_ten_ne c (h.2 c hc)).1

theorem scriptOf_ne_NUL (lines : List ScriptLine) (h : ∀ l ∈ lines, l.wellFormed) :
    ∀ c ∈ scriptOf lines, c ≠ NUL := by
  induction lines with
  | nil => intro c hc; simp [scriptOf] at hc
  | cons l ls ih =>
    intro c hc
    simp only [scriptOf, List.mem_append, List.mem_cons] at hc
    rcases hc with hc | hc | hc
    · exact chars_ne_NUL l (h l (List.mem_cons_self _ _)) c hc
    · rw [hc]; decide
    · exact ih (fun x hx => h x (List.mem_cons_of_mem _ hx)) c hc

/-- A pass of the outer loop with the cursor on a well-formed line of a script that fits the
16-bit length: no error, and the cursor on the first character after the line feed. -/
theorem execLoop_wellFormed_line (host : Host) (l : ScriptLine) (hl : l.wellFormed)
    (pre rest buf : List Char) (log : List BusEvent) (delays : List Nat) (fuel : Nat)
    (hpre : ∀ c ∈ pre, c ≠ NUL) (hrest : ∀ c ∈ rest, c ≠ NUL) (hbuf : buf.length = 16)
    (hfit : (pre ++ (l.chars ++ '\n' :: rest)).length < 65536) :
    ∃ buf2 log2 delays2, buf2.length = 16 ∧
      execLoop host (pre ++ (l.chars ++ '\n' :: rest))
          (strlen (pre ++ (l.chars ++ '\n' :: rest))) (fuel + 1) pre.length buf log delays
        = execLoop host (pre ++ (l.chars ++ '\n' :: rest))
            (strlen (pre ++ (l.chars ++ '\n' :: rest))) fuel (pre.length + l.chars.length + 1)
            buf2 log2 delays2 := by
  have hall : ∀ c ∈ pre ++ (l.chars ++ '\n' :: rest), c ≠ NUL := by
    intro c hc
    simp only [List.mem_append, List.mem_cons] at hc
    rcases hc with hc | hc | hc | hc
    · exact hpre c hc
    · exact chars_ne_NUL l hl c hc
    · rw [hc]; decide
    · exact hrest c hc
  have hs := strlen_eq_length _ hall
  rw [hs]
  have hlen : (pre ++ (l.chars ++ '\n' :: rest)).length
      = pre.length + l.chars.length + 1 + rest.length := by
    simp only [List.length_append, List.length_cons]; omega
  have hat : ∀ k, charAt (pre ++ (l.chars ++ '\n' :: rest)) (pre.length + k)
      = charAt (l.chars ++ '\n' :: rest) k := fun k => charAt_append_right pre _ k
  cases l with
  | W d r p =>
    obtain ⟨hd, hr, hp, hp1, hp31⟩ := hl
    have hg : (ScriptLine.W d r p).chars ++ '\n' :: rest
        = 'W' :: ':' :: (hexBytes (d :: r :: p) ++ '\n' :: rest) := rfl
    have hcl : (ScriptLine.W d r p).chars.length = 2 + 2 * (p.length + 2) := by
      simp [ScriptLine.chars, wLine, hexBytes_length]; omega
    rw [hcl] at hlen ⊢
    rw [hg] at hat hfit hlen ⊢
    obtain ⟨buf2, hb2, hstep⟩ := execLoop_W_line host
      (pre ++ 'W' :: ':' :: (hexBytes (d :: r :: p) ++ '\n' :: rest))
      (pre ++ 'W' :: ':' :: (hexBytes (d :: r :: p) ++ '\n' :: rest)).length hfit
      fuel pre.length d r p buf log delays (by omega) hd hr hp hp1 (by omega)
      (by have := hat 0; rw [Nat.add_zero] at this; rw [this]; rfl)
      (by rw [hat 1]; rfl)
      (by
        intro k hk
        rw [show pre.length + 2 + k = pre.length + (0 + 2 + k) by omega, hat]
        exact charAt_line_hex 'W' (d :: r :: p) rest k (by simpa using hk))
      (by
        rw [show pre.length + 2 + 2 * (p.length + 2) = pre.length + (0 + 2 + 2 * (p.length + 2))
          by omega, hat]
        simpa using charAt_line_end 'W' (d :: r :: p) rest)
      (by omega)
    refine ⟨buf2, (WriteFlashBlockSafe host (d >>> 1) r p p.length log).2, delays, by omega, ?_⟩
    rw [hstep]
    rw [show pre.length + 2 + 2 * (p.length + 2) + 1 = pre.length + (2 + 2 * (p.length + 2)) + 1
      by omega]
  | X digits =>
    have hcl : (ScriptLine.X digits).chars.length = 2 + digits.length := by
      simp [ScriptLine.chars]; omega
    have hg : (ScriptLine.X digits).chars ++ '\n' :: rest
        = 'X' :: ':' :: (digits ++ '\n' :: rest) := rfl
    rw [hcl] at hlen ⊢
    rw [hg] at hat hfit hlen ⊢
    have hat2 : ∀ k, charAt (pre ++ 'X' :: ':' :: (digits ++ '\n' :: rest)) (pre.length + 2 + k)
        = charAt (digits ++ '\n' :: rest) k := by
      intro k
      rw [show pre.length + 2 + k = pre.length + (k + 1 + 1) by omega, hat, charAt_cons_succ,
        charAt_cons_succ]
    obtain ⟨buf2, n, hb2, hstep⟩ := execLoop_X_line host
      (pre ++ 'X' :: ':' :: (digits ++ '\n' :: rest))
      (pre ++ 'X' :: ':' :: (digits ++ '\n' :: rest)).length (by omega)
      fuel pre.length (pre.length + 2 + digits.length) buf log delays
      (by have := hat 0; rw [Nat.add_zero] at this; rw [this]; rfl)
      (by rw [hat 1]; rfl) (by omega)
      (by
        intro k hk1 hk2
        obtain ⟨j, rfl⟩ : ∃ j, k = pre.length + 2 + j := ⟨k - (pre.length + 2), by omega⟩
        rw [hat2, charAt_append_left _ _ _ (by omega)]
        exact (isDigitOf_ten_ne _ (hl.2 _ (charAt_mem digits j (by omega)))).2)
      (by
        rw [hat2]
        have := charAt_append_right digits ('\n' :: rest) 0
        rw [Nat.add_zero] at this
        rw [this]; rfl)
      (by omega)
    refine ⟨buf2, log, delays ++ [n], by omega, ?_⟩
    rw [hstep]
    rw [show pre.length + 2 + digits.length + 1 = pre.length + (2 + digits.length) + 1 by omega]

theorem execLoop_wellFormed_script (host : Host) :
    ∀ (lines : List ScriptLine) (pre buf : List Char) (log : List BusEvent) (delays : List Nat)
      (fuel : Nat), (∀ l ∈ lines, l.wellFormed) → (∀ c ∈ pre, c ≠ NUL) → buf.length = 16 →
      (pre ++ scriptOf lines).length < 65536 → lines.length < fuel →
      (execLoop host (pre ++ scriptOf lines) (strlen (pre ++ scriptOf lines)) fuel pre.length
        buf log delays).code = some .ERROR_NONE := by
  intro lines
  induction lines with
  | nil =>
    intro pre buf log delays fuel _ hpre _ _ hf
    obtain ⟨f, rfl⟩ : ∃ f, fuel = f + 1 := ⟨fuel - 1, by omega⟩
    have hs : strlen (pre ++ scriptOf []) = pre.length := by
      rw [strlen_eq_length _ (by simpa [scriptOf] using hpre)]
      simp [scriptOf]
    rw [hs, execLoop_end _ _ _ _ _ _ _ _ (by omega)]
  | cons l ls ih =>
    intro pre buf log delays fuel hwf hpre hbuf hfit hf
    obtain ⟨f, rfl⟩ : ∃ f, fuel = f + 1 := ⟨fuel - 1, by omega⟩
    have hl := hwf l (List.mem_cons_self _ _)
    have hls : ∀ x ∈ ls, x.wellFormed := fun x hx => hwf x (List.mem_cons_of_mem _ hx)
    simp only [scriptOf] at hfit ⊢
    obtain ⟨buf2, log2, delays2, hb2, hstep⟩ := execLoop_wellFormed_line host l hl pre
      (scriptOf ls) buf log delays f hpre (scriptOf_ne_NUL ls hls) hbuf hfit
    rw [hstep]
    have hg : pre ++ (l.chars ++ '\n' :: scriptOf ls) = (pre ++ l.chars ++ ['\n']) ++ scriptOf ls := by
      simp
    have hpl : pre.length + l.chars.length + 1 = (pre ++ l.chars ++ ['\n']).length := by
      simp only [List.length_append, List.length_singleton]
    rw [hg] at hfit ⊢
    rw [hpl]
    refine ih (pre ++ l.chars ++ ['\n']) buf2 log2 delays2 f hls ?_ hb2 hfit
      (by simp only [List.length_cons] at hf; omega)
    intro c hc
    simp only [List.mem_append, List.mem_singleton] at hc
    rcases hc with (hc | hc) | hc
    · exact hpre c hc
    · exact chars_ne_NUL l hl c hc
    · rw [hc]; decide

theorem scriptOf_length_ge (lines : List ScriptLine) : lines.length ≤ (scriptOf lines).length := by
  induction lines with
  | nil => simp
  | cons l ls ih => simp only [scriptOf, List.length_cons, List.length_append]; omega

/-- On a bus that never opens, every call a run of the interpreter adds is a refused open. -/
theorem execLoop_dead_log (host : Host) (hdead : ∀ l s, host.openResult l s = false)
    (g : List Char) (length : Nat) :
    ∀ (fuel index : Nat) (buf : List Char) (log : List BusEvent) (delays : List Nat),
      ∃ k, (execLoop host g length fuel index buf log delays).log
        = log ++ List.replicate k (BusEvent.open FUEL_GAUGE_TWI_SPEED false) := by
  intro fuel
  induction fuel with
  | zero => intro index buf log delays; exact ⟨0, by simp [execLoop]⟩
  | succ f ih =>
    intro index buf log delays
    rw [execLoop]
    split
    · split
      · dsimp only
        split
        · exact ⟨0, by simp⟩
        · split
          · exact ⟨0, by simp⟩
          · rename_i st hst
            split
            · exact ⟨0, by simp⟩
            · split
              · obtain ⟨k, hk⟩ := ih (nextLine g length st.index) st.buf
                  (WriteFlashBlockSafe host (st.fgAddress >>> 1) st.fgRegister st.data
                    (u8 (st.byteNum - 3)) log).2 delays
                rw [hk]
                refine ⟨k + 1, ?_⟩
                simp [WriteFlashBlockSafe, twiOpen, hdead, List.replicate_succ]
              · simp only [twiOpen, hdead, Bool.false_eq_true, if_false]
                split
                · exact ⟨1, by simp⟩
                · obtain ⟨k, hk⟩ := ih (nextLine g length st.index) st.buf
                    (log ++ [BusEvent.open FUEL_GAUGE_TWI_SPEED false]) delays
                  rw [hk]
                  exact ⟨k + 1, by simp [List.replicate_succ]⟩
      · split
        · dsimp only
          split
          · exact ⟨0, by simp⟩
          · exact ih _ _ _ _
        · exact ⟨0, by simp⟩
    · exact ⟨0, by simp⟩

/-- C14: for every script whose lines all start with `W` or `X`, the code returned by
`FuelGaugeExecuteGoldenImage` (and the delay counts) is the same under any two bus
behaviours and prior logs: the result of a `W` line's guarded write is discarded.  A script
of well-formed `W` and `X` lines that fits the 16-bit length returns `ERROR_NONE` under every
bus behaviour, also on a bus that never opens, where the run adds nothing to the log but
refused opens, so that no byte reaches the device. -/
theorem write_outcome_discarded (g : List Char) (lines : List ScriptLine) (h1 h2 : Host)
    (l1 l2 : List BusEvent) :
    (onlyWXLines g →
        (FuelGaugeExecuteGoldenImage h1 g l1).code = (FuelGaugeExecuteGoldenImage h2 g l2).code
          ∧ (FuelGaugeExecuteGoldenImage h1 g l1).delays
              = (FuelGaugeExecuteGoldenImage h2 g l2).delays)
      ∧ ((∀ l ∈ lines, l.wellFormed) → (scriptOf lines).length < 65536 →
          (FuelGaugeExecuteGoldenImage h1 (scriptOf lines) l1).code = some .ERROR_NONE
            ∧ ((∀ l s, h1.openResult l s = false) →
                ∃ k, (FuelGaugeExecuteGoldenImage h1 (scriptOf lines) l1).log
                  = l1 ++ List.replicate k (BusEvent.open FUEL_GAUGE_TWI_SPEED false))) := by
  constructor
  · intro hwx
    unfold FuelGaugeExecuteGoldenImage
    exact execLoop_code_host_independent g (u16 (strlen g)) (by unfold u16; omega)
      (by unfold u16; exact Nat.mod_le _ _) hwx _ 0 _ h1 h2 l1 l2 [] (fun _ => Or.inl rfl)
  · intro hwf hfit
    constructor
    · have hs := strlen_eq_length _ (scriptOf_ne_NUL lines hwf)
      have h := execLoop_wellFormed_script h1 lines [] (List.replicate 16 NUL) l1 []
        ((scriptOf lines).length + 1) hwf (by intro c hc; simp at hc) (by simp)
        (by simpa using hfit) (by have := scriptOf_length_ge lines; omega)
      simp only [List.nil_append, List.length_nil] at h
      unfold FuelGaugeExecuteGoldenImage
      rw [show u16 (strlen (scriptOf lines)) = strlen (scriptOf lines) by
        rw [hs]; unfold u16; omega]
      rw [hs] at h ⊢
      exact h
    · intro hdead
      unfold FuelGaugeExecuteGoldenImage
      exact execLoop_dead_log h1 hdead _ _ _ _ _ _ _

/-- C14 on the script `"W:AA0B01\nX:100\n"`: the same code on a bus whose calls all succeed
and on a bus that never opens. -/
theorem write_outcome_discarded_witness :
    (FuelGaugeExecuteGoldenImage (gaugeHolding []) "W:AA0B01\nX:100\n".toList []).code
        = (FuelGaugeExecuteGoldenImage deadBus "W:AA0B01\nX:100\n".toList []).code
      ∧ (FuelGaugeExecuteGoldenImage deadBus
          (scriptOf [ScriptLine.W 0xAA 0x0B [0x01], ScriptLine.X "100".toList]) []).code
        = some .ERROR_NONE :=
  ⟨((write_outcome_discarded "W:AA0B01\nX:100\n".toList [] (gaugeHolding []) deadBus [] []).1
      (by
        intro i hi h
        rw [show strlen "W:AA0B01\nX:100\n".toList = 15 by decide] at hi
        interval_cases i <;> revert h <;> decide)).1,
    ((write_outcome_discarded [] [ScriptLine.W 0xAA 0x0B [0x01], ScriptLine.X "100".toList]
      deadBus deadBus [] []).2
      (by
        intro l hl
        simp only [List.mem_cons, List.mem_singleton, List.not_mem_nil, or_false] at hl
        rcases hl with rfl | rfl
        · exact ⟨by decide, by decide, by decide, by decide, by decide⟩
        · exact ⟨by decide, by decide⟩)
      (by decide)).1⟩

/-! ## Termination and bounds of the interpreter -/

/-- The outer loop is the iteration of `execLine` and `nextLine`. -/
theorem execLoop_succ (host : Host) (g : List Char) (length fuel index : Nat) (buf : List Char)
    (log : List BusEvent) (delays : List Nat) :
    execLoop host g length (fuel + 1) index buf log delays
      = if index < length then
          match execLine host g length index buf log delays with
          | Sum.inl r => r
          | Sum.inr e => execLoop host g length fuel (nextLine g length e.index) e.buf e.log
              e.delays
        else ⟨some .ERROR_NONE, log, delays⟩ := by
  rw [execLoop]
  unfold execLine
  by_cases hi : index < length
  · rw [if_pos hi, if_pos hi]
    by_cases hwc : charAt g index = 'W' ∨ charAt g index = 'C'
    · rw [if_pos hwc, if_pos hwc]
      dsimp only
      by_cases hcol : charAt g (u16 (index + 1)) ≠ ':'
      · rw [if_pos hcol, if_pos hcol]
      · rw [if_neg hcol, if_neg hcol]
        cases hdec : decodeLoop g length 36
            ⟨u16 (u16 (index + 1) + 1), 1, List.replicate 34 0, 0, 0, buf⟩ with
        | none => rfl
        | some st =>
          dsimp only
          by_cases hnum : st.byteNum < 4
          · rw [if_pos hnum, if_pos hnum]
          · rw [if_neg hnum, if_neg hnum]
            by_cases hw : decide (charAt g index = 'W') = true
            · rw [if_pos hw, if_pos hw]
            · rw [if_neg hw, if_neg hw]
              generalize (if (twiOpen host FUEL_GAUGE_TWI_SPEED log).1 = true then
                ((ReadFlashBlock host (st.fgAddress >>> 1) st.fgRegister
                    (uninitialised host log (u8 (st.byteNum - 3))) (u8 (st.byteNum - 3))
                    (twiOpen host FUEL_GAUGE_TWI_SPEED log).2).2.1,
                  twiClose (ReadFlashBlock host (st.fgAddress >>> 1) st.fgRegister
                    (uninitialised host log (u8 (st.byteNum - 3))) (u8 (st.byteNum - 3))
                    (twiOpen host FUEL_GAUGE_TWI_SPEED log).2).2.2)
                else (uninitialised host log (u8 (st.byteNum - 3)),
                  (twiOpen host FUEL_GAUGE_TWI_SPEED log).2)) = R
              by_cases hm : memcmp st.data R.1 (u8 (st.byteNum - 3)) ≠ 0
              · rw [if_pos hm, if_pos hm]
              · rw [if_neg hm, if_neg hm]
    · rw [if_neg hwc, if_neg hwc]
      by_cases hx : charAt g index = 'X'
      · rw [if_pos hx, if_pos hx]
        dsimp only
        by_cases hcol : charAt g (u16 (index + 1)) ≠ ':'
        · rw [if_pos hcol, if_pos hcol]
        · rw [if_neg hcol, if_neg hcol]
      · rw [if_neg hx, if_neg hx]
  · rw [if_neg hi, if_neg hi]

theorem u16_le (x : Nat) : u16 x ≤ x := Nat.mod_le _ _

theorem charAt_strlen (g : List Char) : charAt g (strlen g) = NUL := by
  induction g with
  | nil => rfl
  | cons c g ih =>
    by_cases hc : (c != NUL) = true
    · have : strlen (c :: g) = strlen g + 1 := by
        simp [strlen, cString, List.takeWhile, hc]
      rw [this, charAt_cons_succ, ih]
    · have : strlen (c :: g) = 0 := by
        simp [strlen, cString, List.takeWhile, hc]
      rw [this]
      simpa [charAt] using hc

theorem lt_strlen_of_ne_NUL (g : List Char) (k : Nat) (hk : k ≤ strlen g)
    (h : charAt g k ≠ NUL) : k < strlen g := by
  rcases Nat.lt_or_ge k (strlen g) with h1 | h1
  · exact h1
  · have : k = strlen g := by omega
    rw [this, charAt_strlen] at h
    exact absurd rfl h

theorem decodeLoop_index (g : List Char) (length : Nat) (hlen : length < 65536) :
    ∀ (fuel : Nat) (st st2 : DecodeState), decodeLoop g length fuel st = some st2 →
      st.index ≤ st2.index ∧ (st.index ≤ length → st2.index ≤ length) := by
  intro fuel
  induction fuel with
  | zero =>
    intro st st2 h
    simp only [decodeLoop, Option.some.injEq] at h
    rw [← h]
    exact ⟨le_refl _, fun h => h⟩
  | succ f ih =>
    intro st st2 h
    rw [decodeLoop] at h
    split at h
    · rename_i hc
      split at h
      · exact absurd h (by simp)
      · rename_i st1 hst1
        obtain ⟨_, p2, _⟩ := decodePass_fields g st st1 hst1
        have hi : st1.index = st.index + 2 := by rw [p2]; unfold u16; omega
        obtain ⟨h1, h2⟩ := ih st1 st2 h
        exact ⟨by omega, fun _ => h2 (by omega)⟩
    · simp only [Option.some.injEq] at h
      rw [← h]
      exact ⟨le_refl _, fun h => h⟩

theorem decodeLoopAccesses_inBounds (g : List Char) (length : Nat) :
    ∀ (fuel : Nat) (st : DecodeState), ∀ a ∈ decodeLoopAccesses g length fuel st,
      a.inBounds length := by
  intro fuel
  induction fuel with
  | zero => intro st a ha; simp [decodeLoopAccesses] at ha
  | succ f ih =>
    intro st a ha
    rw [decodeLoopAccesses] at ha
    split at ha
    · rename_i hc
      have h1 := u16_le (st.index + 1)
      simp only [List.mem_cons] at ha
      rcases ha with ha | ha
      · rw [ha]; simp only [Access.inBounds]; omega
      · split at ha
        · simp only [decodePassAccesses, List.mem_append, List.mem_cons, List.not_mem_nil,
            or_false] at ha
          rcases ha with (ha | ha) | ha
          · rcases ha with ha | ha | ha | ha | ha <;> rw [ha] <;> simp only [Access.inBounds] <;>
              omega
          · split at ha
            · simp at ha
            · split at ha
              · simp only [List.mem_singleton] at ha
                rw [ha]; simp only [Access.inBounds]; omega
              · simp at ha
          · split at ha
            · simp at ha
            · exact ih _ a ha
        · simp at ha
    · simp at ha

theorem delayLoopAccesses_inBounds (g : List Char) (length : Nat) :
    ∀ (fuel index n : Nat), ∀ a ∈ delayLoopAccesses g length fuel index n,
      a.inBounds length := by
  intro fuel
  induction fuel with
  | zero => intro index n a ha; simp [delayLoopAccesses] at ha
  | succ f ih =>
    intro index n a ha
    rw [delayLoopAccesses] at ha
    split at ha
    · rename_i hi
      simp only [List.mem_cons] at ha
      rcases ha with ha | ha
      · rw [ha]; simp only [Access.inBounds]; omega
      · split at ha
        · rename_i hc
          simp only [List.cons_append, List.nil_append, List.mem_cons] at ha
          rcases ha with ha | ha | ha
          · rw [ha]; simp only [Access.inBounds]; omega
          · rw [ha]; simp only [Access.inBounds]; omega
          · exact ih _ _ a ha
        · simp at ha
    · simp at ha

theorem skipLoopAccesses_inBounds (g : List Char) (length : Nat) :
    ∀ (fuel index : Nat), ∀ a ∈ skipLoopAccesses g length fuel index, a.inBounds length := by
  intro fuel
  induction fuel with
  | zero => intro index a ha; simp [skipLoopAccesses] at ha
  | succ f ih =>
    intro index a ha
    rw [skipLoopAccesses] at ha
    split at ha
    · rename_i hi
      simp only [List.mem_cons] at ha
      rcases ha with ha | ha
      · rw [ha]; simp only [Access.inBounds]; omega
      · split at ha
        · exact ih _ a ha
        · simp at ha
    · simp at ha

theorem delayLoop_bounds (g : List Char) (length : Nat) (hlen : length < 65536) :
    ∀ (fuel index n : Nat) (buf : List Char), n ≤ 15 →
      (delayLoop g length fuel index n buf).2.1 ≤ 15
        ∧ index ≤ (delayLoop g length fuel index n buf).1
        ∧ (index ≤ length → (delayLoop g length fuel index n buf).1 ≤ length) := by
  intro fuel
  induction fuel with
  | zero => intro index n buf hn; rw [delayLoop]; exact ⟨hn, le_refl _, fun h => h⟩
  | succ f ih =>
    intro index n buf hn
    rw [delayLoop]
    split
    · rename_i hc
      have e1 : u16 (index + 1) = index + 1 := by unfold u16; omega
      have e2 : u8 (n + 1) = n + 1 := by unfold u8; omega
      rw [e1, e2]
      obtain ⟨h1, h2, h3⟩ := ih (index + 1) (n + 1) (buf.set n (charAt g index)) (by omega)
      exact ⟨h1, by omega, fun _ => h3 (by omega)⟩
    · exact ⟨hn, le_refl _, fun h => h⟩

theorem skipLoop_bounds (g : List Char) (length : Nat) (hlen : length < 65536) :
    ∀ (fuel index : Nat), index ≤ skipLoop g length fuel index
      ∧ (index ≤ length → skipLoop g length fuel index ≤ length) := by
  intro fuel
  induction fuel with
  | zero => intro index; rw [skipLoop]; exact ⟨le_refl _, fun h => h⟩
  | succ f ih =>
    intro index
    rw [skipLoop]
    split
    · rename_i hc
      have e1 : u16 (index + 1) = index + 1 := by unfold u16; omega
      rw [e1]
      obtain ⟨h1, h2⟩ := ih (index + 1)
      exact ⟨by omega, fun _ => h2 (by omega)⟩
    · exact ⟨le_refl _, fun h => h⟩

theorem nextLine_bounds (g : List Char) (length : Nat) (hlen : length < 65536) (index : Nat) :
    index ≤ nextLine g length index ∧ (index ≤ length → nextLine g length index ≤ length) := by
  unfold nextLine
  dsimp only
  obtain ⟨h1, h2⟩ := skipLoop_bounds g length hlen length index
  split
  · rename_i hlt
    have e1 : u16 (skipLoop g length length index + 1) = skipLoop g length length index + 1 := by
      unfold u16; omega
    rw [e1]
    exact ⟨by omega, fun _ => by omega⟩
  · exact ⟨h1, h2⟩

theorem colon_lt_strlen (g : List Char) (index : Nat) (hi : index < strlen g)
    (hcol : charAt g (index + 1) = ':') : index + 1 < strlen g := by
  apply lt_strlen_of_ne_NUL g (index + 1) (by omega)
  rw [hcol]
  decide

theorem lineAccesses_inBounds (g : List Char) (hlen : strlen g < 65536) (index : Nat)
    (buf : List Char) (hi : index < strlen g) :
    ∀ a ∈ lineAccesses g (strlen g) index buf, a.inBounds (strlen g) := by
  intro a ha
  have e1 : u16 (index + 1) = index + 1 := by unfold u16; omega
  unfold lineAccesses at ha
  rw [e1] at ha
  simp only [List.mem_cons] at ha
  rcases ha with ha | ha
  · rw [ha]; simp only [Access.inBounds]; omega
  · split at ha
    · simp only [List.cons_append, List.nil_append, List.mem_cons] at ha
      rcases ha with ha | ha | ha
      · rw [ha]; simp only [Access.inBounds]; omega
      · rw [ha]; simp only [Access.inBounds]; omega
      · split at ha
        · simp at ha
        · exact decodeLoopAccesses_inBounds g (strlen g) 36 _ a ha
    · split at ha
      · simp only [List.mem_cons] at ha
        rcases ha with ha | ha
        · rw [ha]; simp only [Access.inBounds]; omega
        · split at ha
          · simp at ha
          · simp only [List.mem_append, List.mem_singleton] at ha
            rcases ha with ha | ha
            · exact delayLoopAccesses_inBounds g (strlen g) 16 _ 0 a ha
            · rw [ha]
              simp only [Access.inBounds]
              have := (delayLoop_bounds g (strlen g) hlen 15 (u16 (index + 1 + 1)) 0 buf
                (by omega)).1
              omega
      · simp at ha

theorem execLine_progress (host : Host) (g : List Char) (hlen : strlen g < 65536)
    (index : Nat) (buf : List Char) (log : List BusEvent) (delays : List Nat)
    (hi : index < strlen g) (e : LineEnd)
    (h : execLine host g (strlen g) index buf log delays = Sum.inr e) :
    index + 2 ≤ e.index ∧ e.index ≤ strlen g := by
  have e1 : u16 (index + 1) = index + 1 := by unfold u16; omega
  unfold execLine at h
  dsimp only at h
  rw [e1] at h
  split at h
  · split at h
    · exact absurd h (by simp)
    · rename_i hcol
      have hc : index + 1 < strlen g := colon_lt_strlen g index hi (by simpa using hcol)
      have e2 : u16 (index + 1 + 1) = index + 2 := by unfold u16; omega
      rw [e2] at h
      split at h
      · exact absurd h (by simp)
      · rename_i st hst
        obtain ⟨b1, b2⟩ := decodeLoop_index g (strlen g) hlen 36 _ st hst
        dsimp only at b1 b2
        have b3 := b2 (by omega)
        split at h
        · exact absurd h (by simp)
        · split at h
          · simp only [Sum.inr.injEq] at h
            rw [← h]
            exact ⟨b1, b3⟩
          · generalize (if (twiOpen host FUEL_GAUGE_TWI_SPEED log).1 = true then _ else _ :
              List Nat × List BusEvent) = R at h
            by_cases hm : memcmp st.data R.1 (u8 (st.byteNum - 3)) ≠ 0
            · rw [if_pos hm] at h
              exact absurd h (by simp)
            · rw [if_neg hm] at h
              simp only [Sum.inr.injEq] at h
              rw [← h]
              exact ⟨b1, b3⟩
  · split at h
    · split at h
      · exact absurd h (by simp)
      · rename_i hcol
        have hc : index + 1 < strlen g := colon_lt_strlen g index hi (by simpa using hcol)
        have e2 : u16 (index + 1 + 1) = index + 2 := by unfold u16; omega
        rw [e2] at h
        simp only [Sum.inr.injEq] at h
        rw [← h]
        obtain ⟨_, b1, b2⟩ := delayLoop_bounds g (strlen g) hlen 15 (index + 2) 0 buf (by omega)
        exact ⟨b1, b2 (by omega)⟩
    · exact absurd h (by simp)

theorem execLine_next (host : Host) (g : List Char) (hlen : strlen g < 65536)
    (index : Nat) (buf : List Char) (log : List BusEvent) (delays : List Nat)
    (hi : index < strlen g) (e : LineEnd)
    (h : execLine host g (strlen g) index buf log delays = Sum.inr e) :
    index < nextLine g (strlen g) e.index ∧ nextLine g (strlen g) e.index ≤ strlen g
      ∧ e.index ≤ strlen g := by
  obtain ⟨h1, h2⟩ := execLine_progress host g hlen index buf log delays hi e h
  obtain ⟨h3, h4⟩ := nextLine_bounds g (strlen g) hlen e.index
  exact ⟨by omega, h4 h2, h2⟩

theorem execLoop_terminates (host : Host) (g : List Char) (hlen : strlen g < 65536) :
    ∀ (fuel index : Nat) (buf : List Char) (log : List BusEvent) (delays : List Nat),
      index ≤ strlen g → strlen g - index < fuel →
      (execLoop host g (strlen g) fuel index buf log delays).code ≠ none := by
  intro fuel
  induction fuel with
  | zero => intro index buf log delays _ h; omega
  | succ f ih =>
    intro index buf log delays hle hf
    rw [execLoop_succ]
    by_cases hi : index < strlen g
    · rw [if_pos hi]
      cases hl : execLine host g (strlen g) index buf log delays with
      | inl r =>
        dsimp only
        unfold execLine at hl
        dsimp only at hl
        repeat' split at hl
        all_goals first
          | (simp only [Sum.inl.injEq] at hl; rw [← hl]; simp)
          | exact absurd hl (by simp)
      | inr e =>
        dsimp only
        obtain ⟨h1, h2, _⟩ := execLine_next host g hlen index buf log delays hi e hl
        exact ih _ _ _ _ h2 (by omega)
    · rw [if_neg hi]
      simp

theorem runAccesses_inBounds (host : Host) (g : List Char) (hlen : strlen g < 65536) :
    ∀ (fuel index : Nat) (buf : List Char) (log : List BusEvent) (delays : List Nat),
      ∀ a ∈ runAccesses host g (strlen g) fuel index buf log delays,
        a.inBounds (strlen g) := by
  intro fuel
  induction fuel with
  | zero => intro index buf log delays a ha; simp [runAccesses] at ha
  | succ f ih =>
    intro index buf log delays a ha
    rw [runAccesses] at ha
    split at ha
    · rename_i hi
      simp only [List.mem_append] at ha
      rcases ha with ha | ha
      · exact lineAccesses_inBounds g hlen index buf hi a ha
      · split at ha
        · simp at ha
        · simp only [List.mem_append] at ha
          rcases ha with ha | ha
          · exact skipLoopAccesses_inBounds g (strlen g) _ _ a ha
          · exact ih _ _ _ _ a ha
    · simp at ha

theorem runCursors_bounds (host : Host) (g : List Char) (hlen : strlen g < 65536) :
    ∀ (fuel index : Nat) (buf : List Char) (log : List BusEvent) (delays : List Nat),
      index ≤ strlen g →
      (∀ c ∈ runCursors host g (strlen g) fuel index buf log delays,
          index ≤ c ∧ c ≤ strlen g)
        ∧ List.Pairwise (fun a b => a < b)
            (runCursors host g (strlen g) fuel index buf log delays) := by
  intro fuel
  induction fuel with
  | zero =>
    intro index buf log delays hle
    simp only [runCursors, List.mem_singleton, List.pairwise_cons, List.not_mem_nil,
      List.Pairwise.nil, and_true]
    exact ⟨fun c hc => by rw [hc]; exact ⟨le_refl _, hle⟩, fun _ h => absurd h (by simp)⟩
  | succ f ih =>
    intro index buf log delays hle
    rw [runCursors]
    by_cases hi : index < strlen g
    · rw [if_pos hi]
      cases hl : execLine host g (strlen g) index buf log delays with
      | inl r =>
        dsimp only
        simp only [List.mem_singleton, List.pairwise_cons, List.not_mem_nil,
          List.Pairwise.nil, and_true]
        exact ⟨fun c hc => by rw [hc]; exact ⟨le_refl _, hle⟩, fun _ h => absurd h (by simp)⟩
      | inr e =>
        dsimp only
        obtain ⟨h1, h2, _⟩ := execLine_next host g hlen index buf log delays hi e hl
        obtain ⟨i1, i2⟩ := ih (nextLine g (strlen g) e.index) e.buf e.log e.delays h2
        refine ⟨?_, ?_⟩
        · intro c hc
          simp only [List.mem_cons] at hc
          rcases hc with hc | hc
          · rw [hc]; exact ⟨le_refl _, hle⟩
          · have := i1 c hc
            omega
        · rw [List.pairwise_cons]
          refine ⟨fun c hc => ?_, i2⟩
          have := i1 c hc
          omega
    · rw [if_neg hi]
      simp only [List.mem_singleton, List.pairwise_cons, List.not_mem_nil,
        List.Pairwise.nil, and_true]
      exact ⟨fun c hc => by rw [hc]; exact ⟨le_refl _, hle⟩, fun _ h => absurd h (by simp)⟩

theorem decodeLoopIndexes_le (g : List Char) (length : Nat) :
    ∀ (fuel : Nat) (st : DecodeState), ∀ v ∈ decodeLoopIndexes g length fuel st,
      v ≤ length := by
  intro fuel
  induction fuel with
  | zero => intro st v hv; simp [decodeLoopIndexes] at hv
  | succ f ih =>
    intro st v hv
    rw [decodeLoopIndexes] at hv
    split at hv
    · rename_i hc
      have h1 := u16_le (st.index + 1)
      have h2 := u16_le (u16 (st.index + 1) + 1)
      simp only [List.mem_cons] at hv
      rcases hv with hv | hv | hv
      · omega
      · omega
      · split at hv
        · simp at hv
        · exact ih _ v hv
    · simp at hv

theorem delayLoopIndexes_le (g : List Char) (length : Nat) :
    ∀ (fuel index n : Nat), ∀ v ∈ delayLoopIndexes g length fuel index n, v ≤ length := by
  intro fuel
  induction fuel with
  | zero => intro index n v hv; simp [delayLoopIndexes] at hv
  | succ f ih =>
    intro index n v hv
    rw [delayLoopIndexes] at hv
    split at hv
    · rename_i hc
      have h1 := u16_le (index + 1)
      simp only [List.mem_cons] at hv
      rcases hv with hv | hv
      · omega
      · exact ih _ _ v hv
    · simp at hv

theorem skipLoopIndexes_le (g : List Char) (length : Nat) :
    ∀ (fuel index : Nat), ∀ v ∈ skipLoopIndexes g length fuel index, v ≤ length := by
  intro fuel
  induction fuel with
  | zero => intro index v hv; simp [skipLoopIndexes] at hv
  | succ f ih =>
    intro index v hv
    rw [skipLoopIndexes] at hv
    split at hv
    · rename_i hc
      have h1 := u16_le (index + 1)
      simp only [List.mem_cons] at hv
      rcases hv with hv | hv
      · omega
      · exact ih _ v hv
    · simp at hv

theorem lineIndexes_le_succ (g : List Char) (index : Nat)
    (buf : List Char) (hi : index < strlen g) :
    ∀ v ∈ lineIndexes g (strlen g) index buf, v ≤ strlen g + 1 := by
  intro v hv
  have h1 := u16_le (index + 1)
  have h2 := u16_le (u16 (index + 1) + 1)
  unfold lineIndexes at hv
  split at hv
  · simp only [List.mem_cons] at hv
    rcases hv with hv | hv | hv
    · omega
    · omega
    · split at hv
      · simp at hv
      · have := decodeLoopIndexes_le g (strlen g) 36 _ v hv
        omega
  · split at hv
    · simp only [List.mem_cons] at hv
      rcases hv with hv | hv
      · omega
      · split at hv
        · simp at hv
        · simp only [List.mem_cons] at hv
          rcases hv with hv | hv
          · omega
          · have := delayLoopIndexes_le g (strlen g) 15 _ 0 v hv
            omega
    · simp at hv

theorem lineIndexes_le (host : Host) (g : List Char) (hlen : strlen g < 65536) (index : Nat)
    (buf : List Char) (log : List BusEvent) (delays : List Nat) (hi : index < strlen g)
    (hne : ∀ r, execLine host g (strlen g) index buf log delays = Sum.inl r →
      r.code ≠ some .ERROR_COLON) :
    ∀ v ∈ lineIndexes g (strlen g) index buf, v ≤ strlen g := by
  intro v hv
  have e1 : u16 (index + 1) = index + 1 := by unfold u16; omega
  have h2 := u16_le (index + 1 + 1)
  unfold lineIndexes at hv
  rw [e1] at hv
  by_cases hwc : charAt g index = 'W' ∨ charAt g index = 'C'
  · rw [if_pos hwc] at hv
    by_cases hcol : charAt g (index + 1) ≠ ':'
    · exfalso
      refine hne ⟨some .ERROR_COLON, log, delays⟩ ?_ rfl
      unfold execLine
      rw [if_pos hwc]
      dsimp only
      rw [e1, if_pos hcol]
    · have hc : index + 1 < strlen g := colon_lt_strlen g index hi (by simpa using hcol)
      rw [if_neg hcol] at hv
      simp only [List.mem_cons] at hv
      rcases hv with hv | hv | hv
      · omega
      · omega
      · exact decodeLoopIndexes_le g (strlen g) 36 _ v hv
  · rw [if_neg hwc] at hv
    split at hv
    · simp only [List.mem_cons] at hv
      rcases hv with hv | hv
      · omega
      · split at hv
        · simp at hv
        · rename_i hcol
          have hc : index + 1 < strlen g := colon_lt_strlen g index hi (by simpa using hcol)
          simp only [List.mem_cons] at hv
          rcases hv with hv | hv
          · omega
          · exact delayLoopIndexes_le g (strlen g) 15 _ 0 v hv
    · simp at hv

theorem runIndexes_le_succ (host : Host) (g : List Char) :
    ∀ (fuel index : Nat) (buf : List Char) (log : List BusEvent) (delays : List Nat),
      ∀ v ∈ runIndexes host g (strlen g) fuel index buf log delays, v ≤ strlen g + 1 := by
  intro fuel
  induction fuel with
  | zero => intro index buf log delays v hv; simp [runIndexes] at hv
  | succ f ih =>
    intro index buf log delays v hv
    rw [runIndexes] at hv
    split at hv
    · rename_i hi
      simp only [List.mem_append] at hv
      rcases hv with hv | hv
      · exact lineIndexes_le_succ g index buf hi v hv
      · split at hv
        · simp at hv
        · simp only [List.mem_append] at hv
          rcases hv with (hv | hv) | hv
          · have := skipLoopIndexes_le g (strlen g) _ _ v hv
            omega
          · split at hv
            · rename_i e _ hs
              simp only [List.mem_singleton] at hv
              have := u16_le (skipLoop g (strlen g) (strlen g) e.index + 1)
              omega
            · simp at hv
          · exact ih _ _ _ _ v hv
    · simp at hv

theorem runIndexes_le (host : Host) (g : List Char) (hlen : strlen g < 65536) :
    ∀ (fuel index : Nat) (buf : List Char) (log : List BusEvent) (delays : List Nat),
      (execLoop host g (strlen g) fuel index buf log delays).code ≠ some .ERROR_COLON →
      ∀ v ∈ runIndexes host g (strlen g) fuel index buf log delays, v ≤ strlen g := by
  intro fuel
  induction fuel with
  | zero => intro index buf log delays _ v hv; simp [runIndexes] at hv
  | succ f ih =>
    intro index buf log delays hcode v hv
    rw [execLoop_succ] at hcode
    rw [runIndexes] at hv
    by_cases hi : index < strlen g
    · rw [if_pos hi] at hv hcode
      cases hl : execLine host g (strlen g) index buf log delays with
      | inl r =>
        rw [hl] at hv hcode
        dsimp only at hv hcode
        rw [List.append_nil] at hv
        refine lineIndexes_le host g hlen index buf log delays hi ?_ v hv
        intro r2 hr2
        rw [hl] at hr2
        simp only [Sum.inl.injEq] at hr2
        rw [← hr2]
        exact hcode
      | inr e =>
        rw [hl] at hv hcode
        dsimp only at hv hcode
        simp only [List.mem_append] at hv
        rcases hv with hv | (hv | hv) | hv
        · refine lineIndexes_le host g hlen index buf log delays hi ?_ v hv
          intro r2 hr2
          rw [hl] at hr2
          exact absurd hr2 (by simp)
        · exact skipLoopIndexes_le g (strlen g) _ _ v hv
        · split at hv
          · simp only [List.mem_singleton] at hv
            have := u16_le (skipLoop g (strlen g) (strlen g) e.index + 1)
            omega
          · simp at hv
        · exact ih _ _ _ _ hcode v hv
    · rw [if_neg hi] at hv
      simp at hv

theorem execLoop_fuel_stable (host : Host) (g : List Char) (length : Nat) :
    ∀ (fuel index : Nat) (buf : List Char) (log : List BusEvent) (delays : List Nat),
      (execLoop host g length fuel index buf log delays).code ≠ none →
      ∀ k, execLoop host g length (fuel + k) index buf log delays
        = execLoop host g length fuel index buf log delays := by
  intro fuel
  induction fuel with
  | zero => intro index buf log delays h; exact absurd rfl h
  | succ f ih =>
    intro index buf log delays h k
    rw [show f + 1 + k = (f + k) + 1 by omega, execLoop_succ, execLoop_succ]
    rw [execLoop_succ] at h
    by_cases hi : index < length
    · rw [if_pos hi] at h ⊢
      rw [if_pos hi]
      cases hl : execLine host g length index buf log delays with
      | inl r => rfl
      | inr e =>
        rw [hl] at h
        exact ih _ _ _ _ h k
    · rw [if_neg hi, if_neg hi]

/-- C15 (amended): for every script of fewer than 65536 characters, every bus behaviour
and every earlier bus log, `FuelGaugeExecuteGoldenImage` returns a code, and, whatever
the number of passes of the outer loop that are observed: the values of the cursor at
the head of the successive passes strictly increase and are at most the script length;
every read `goldenImage[i]` has `i` at most the script length (the terminating NUL at
the furthest); every store to `data` has an index below 34 and every store to `buf` an
index below 16; every value assigned to the cursor is at most the script length plus
one, and at most the script length unless the run returns `ERROR_COLON`. -/
theorem golden_image_terminates_in_bounds (host : Host) (g : List Char)
    (log : List BusEvent) (hlen : strlen g < 65536) :
    (FuelGaugeExecuteGoldenImage host g log).code ≠ none
      ∧ ∀ fuel : Nat,
        List.Pairwise (fun a b => a < b)
            (runCursors host g (u16 (strlen g)) fuel 0 (List.replicate 16 NUL) log [])
          ∧ (∀ c ∈ runCursors host g (u16 (strlen g)) fuel 0 (List.replicate 16 NUL) log [],
              c ≤ strlen g)
          ∧ (∀ i, Access.script i
                ∈ runAccesses host g (u16 (strlen g)) fuel 0 (List.replicate 16 NUL) log [] →
              i ≤ strlen g)
          ∧ (∀ i, Access.data i
                ∈ runAccesses host g (u16 (strlen g)) fuel 0 (List.replicate 16 NUL) log [] →
              i < 34)
          ∧ (∀ i, Access.buf i
                ∈ runAccesses host g (u16 (strlen g)) fuel 0 (List.replicate 16 NUL) log [] →
              i < 16)
          ∧ (∀ v ∈ runIndexes host g (u16 (strlen g)) fuel 0 (List.replicate 16 NUL) log [],
              v ≤ strlen g + 1)
          ∧ ((FuelGaugeExecuteGoldenImage host g log).code ≠ some .ERROR_COLON →
              ∀ v ∈ runIndexes host g (u16 (strlen g)) fuel 0 (List.replicate 16 NUL) log [],
                v ≤ strlen g) := by
  have e : u16 (strlen g) = strlen g := by unfold u16; omega
  have hterm := execLoop_terminates host g hlen (strlen g + 1) 0 (List.replicate 16 NUL)
    log [] (Nat.zero_le _) (by omega)
  have hrun : FuelGaugeExecuteGoldenImage host g log
      = execLoop host g (strlen g) (strlen g + 1) 0 (List.replicate 16 NUL) log [] := by
    unfold FuelGaugeExecuteGoldenImage
    dsimp only
    rw [e]
  rw [hrun, e]
  refine ⟨hterm, fun fuel => ?_⟩
  obtain ⟨c1, c2⟩ := runCursors_bounds host g hlen fuel 0 (List.replicate 16 NUL) log []
    (Nat.zero_le _)
  have acc := runAccesses_inBounds host g hlen fuel 0 (List.replicate 16 NUL) log []
  refine ⟨c2, fun c hc => (c1 c hc).2, fun i hi => acc _ hi, fun i hi => acc _ hi,
    fun i hi => acc _ hi, runIndexes_le_succ host g fuel 0 _ log [], fun hcode => ?_⟩
  apply runIndexes_le host g hlen fuel 0 _ log []
  intro hf
  apply hcode
  have s1 := execLoop_fuel_stable host g (strlen g) fuel 0 (List.replicate 16 NUL) log []
    (by rw [hf]; simp) (strlen g + 1)
  have s2 := execLoop_fuel_stable host g (strlen g) (strlen g + 1) 0 (List.replicate 16 NUL)
    log [] hterm fuel
  rw [← s2, show strlen g + 1 + fuel = fuel + (strlen g + 1) by omega, s1, hf]

/-- C15 (witness): the bounds at the script `W:AA0B01`, `X:12`, `C:AA0B01`, over a gauge
that holds the byte 1. -/
theorem golden_image_terminates_in_bounds_witness :
    strlen "W:AA0B01\nX:12\nC:AA0B01\n".toList < 65536
      ∧ (FuelGaugeExecuteGoldenImage (gaugeHolding [1]) "W:AA0B01\nX:12\nC:AA0B01\n".toList
          []).code = some .ERROR_NONE
      ∧ runCursors (gaugeHolding [1]) "W:AA0B01\nX:12\nC:AA0B01\n".toList 23 24 0
          (List.replicate 16 NUL) [] [] = [0, 9, 14, 23]
      ∧ ∀ v ∈ runIndexes (gaugeHolding [1]) "W:AA0B01\nX:12\nC:AA0B01\n".toList
          (u16 (strlen "W:AA0B01\nX:12\nC:AA0B01\n".toList)) 24 0
          (List.replicate 16 NUL) [] [], v ≤ strlen "W:AA0B01\nX:12\nC:AA0B01\n".toList + 1 :=
  ⟨by decide, by decide, by decide,
    ((golden_image_terminates_in_bounds (gaugeHolding [1]) "W:AA0B01\nX:12\nC:AA0B01\n".toList
      [] (by decide)).2 24).2.2.2.2.2.1⟩

/-- C15 (counterexample): on the one-character script `W` the run reads `goldenImage[0]`
twice and the terminating NUL `goldenImage[1]` once, post-increments the cursor to 1
and then to 2, and returns `ERROR_COLON`: the cursor has exceeded the script length 1,
and no character past the NUL has been read. -/
theorem cursor_exceeds_length_counterexample :
    strlen "W".toList = 1
      ∧ (FuelGaugeExecuteGoldenImage deadBus "W".toList []).code = some .ERROR_COLON
      ∧ runIndexes deadBus "W".toList (u16 (strlen "W".toList)) (u16 (strlen "W".toList) + 1) 0
          (List.replicate 16 NUL) [] [] = [1, 2]
      ∧ runAccesses deadBus "W".toList (u16 (strlen "W".toList)) (u16 (strlen "W".toList) + 1) 0
          (List.replicate 16 NUL) [] []
        = [Access.script 0, Access.script 0, Access.script 1] := by
  decide

end FuelGauge
